import Mathlib

/-!
# BadWolf: the BQL scanner and the triple model

A shallow embedding of `bql/lexer/lexer.go` and `triple/triple.go`.

Conventions of the embedding:

* a Go `string` is the list of its runes (`List Char`); scanner positions
  (`start`, `pos`, `width`) count runes where Go counts bytes, so `width` is
  `1` after a rune was read and `0` after end of input;
* a `rune` returned by `next` is `Option Char`, the constant `eof = rune(-1)`
  being `none`;
* the channel `tokens` is the list of the tokens sent so far, oldest first;
* a pointer that may be nil is an `Option`, `nil` being `none`; the fields of
  a `Triple`, which `NewTriple` never leaves nil, hold the values;
* a Go runtime panic (slice bounds out of range, nil dereference) is the
  outer `none` of the result of `ParseTriple` and `Reify`;
* loops run on fuel and return `none` when it runs out.
-/

namespace Badwolf

/-! ## Go library tables -/

/-- The tables of Go's `unicode` package, and the rune relation behind
`strings.EqualFold`, as far as the sources consult them. They are parameters
of the embedding. -/
structure Unicode where
  /-- Go's `unicode.IsLetter` on a rune of the input. -/
  IsLetter : Char → Bool
  /-- Go's `unicode.IsSpace` on a rune of the input. -/
  IsSpace : Char → Bool
  /-- Go's `unicode.IsDigit` on a rune of the input. -/
  IsDigit : Char → Bool
  /-- Go's `unicode.ToLower` on a rune of the input. -/
  ToLower : Char → Char
  /-- Whether two different runes are equal under simple case folding, as
  `strings.EqualFold` decides it for one pair of runes. -/
  FoldEq : Char → Char → Bool

/-- A rune as `next` returns it: a character of the input or `eof`. -/
abbrev rune := Option Char

/-- Go's `eof = rune(-1)`. -/
def eof : rune := none

/-- The call `unicode.IsLetter(r)` on a rune that may be `eof`; Go answers
`false` for `rune(-1)`. -/
def Unicode.isLetter (U : Unicode) : rune → Bool
  | none => false
  | some c => U.IsLetter c

/-- The call `unicode.IsSpace(r)` on a rune that may be `eof`; Go answers
`false` for `rune(-1)`. -/
def Unicode.isSpace (U : Unicode) : rune → Bool
  | none => false
  | some c => U.IsSpace c

/-- The call `unicode.IsDigit(r)` on a rune that may be `eof`; Go answers
`false` for `rune(-1)`. -/
def Unicode.isDigit (U : Unicode) : rune → Bool
  | none => false
  | some c => U.IsDigit c

/-- The call `unicode.ToLower(r)` on a rune that may be `eof`; Go maps
`rune(-1)` to itself. -/
def Unicode.toLower (U : Unicode) : rune → rune
  | none => none
  | some c => some (U.ToLower c)

/-- Go's `strings.EqualFold`: rune by rune, equal or equal under folding, and
of the same length. -/
def EqualFold (U : Unicode) : List Char → List Char → Bool
  | [], [] => true
  | s :: ss, t :: ts => (s == t || U.FoldEq s t) && EqualFold U ss ts
  | _, _ => false

/-- Go's `strings.Contains`. -/
def Contains : List Char → List Char → Bool
  | [], sub => sub.isEmpty
  | c :: s, sub => sub.isPrefixOf (c :: s) || Contains s sub

/-- The ASCII rows of Go's tables: every rune above U+007F counts as neither
letter, space nor digit and folds only to itself. It serves to evaluate the
scanner on ASCII inputs, where it agrees with Go. -/
def asciiTables : Unicode where
  IsLetter c := (65 ≤ c.toNat && c.toNat ≤ 90) || (97 ≤ c.toNat && c.toNat ≤ 122)
  IsSpace c := c.toNat == 32 || (9 ≤ c.toNat && c.toNat ≤ 13)
  IsDigit c := 48 ≤ c.toNat && c.toNat ≤ 57
  ToLower c := if 65 ≤ c.toNat && c.toNat ≤ 90 then Char.ofNat (c.toNat + 32) else c
  FoldEq a b :=
    (65 ≤ a.toNat && a.toNat ≤ 90 && b.toNat == a.toNat + 32) ||
    (65 ≤ b.toNat && b.toNat ≤ 90 && a.toNat == b.toNat + 32)

/-! ## bql/lexer/lexer.go -/

/-- TokenType list all the possible tokens returned by a lexer. -/
inductive TokenType where
  | ItemError
  | ItemEOF
  | ItemQuery
  | ItemFrom
  | ItemWhere
  | ItemAs
  | ItemType
  | ItemID
  | ItemAt
  | ItemBefore
  | ItemAfter
  | ItemBetween
  | ItemCount
  | ItemDistinct
  | ItemSum
  | ItemGroup
  | ItemBy
  | ItemOrder
  | ItemHaving
  | ItemAsc
  | ItemDesc
  | ItemLimit
  | ItemBinding
  | ItemNode
  | ItemLiteral
  | ItemPredicate
  | ItemLBracket
  | ItemRBracket
  | ItemLPar
  | ItemRPar
  | ItemDot
  | ItemSemicolon
  | ItemComma
  | ItemLT
  | ItemGT
  | ItemEQ
  | ItemNot
  | ItemAnd
  | ItemOr
  deriving DecidableEq, Repr

open TokenType

/-- The display name of a token type, `TokenType.String` of the source. -/
def TokenType.String : TokenType → String
  | ItemError => "ERROR"
  | ItemEOF => "EOF"
  | ItemQuery => "QUERY"
  | ItemFrom => "FROM"
  | ItemWhere => "WHERE"
  | ItemCount => "COUNT"
  | ItemSum => "SUM"
  | ItemGroup => "GROUP"
  | ItemBy => "BY"
  | ItemHaving => "HAVING"
  | ItemOrder => "ORDER"
  | ItemAsc => "ASC"
  | ItemDesc => "DESC"
  | ItemLimit => "LIMIT"
  | ItemAs => "AS"
  | ItemBefore => "BEFORE"
  | ItemAfter => "AFTER"
  | ItemBetween => "BETWEEN"
  | ItemBinding => "BINDING"
  | ItemNode => "NODE"
  | ItemLiteral => "LITERAL"
  | ItemPredicate => "PREDICATE"
  | ItemLBracket => "LEFT_BRACKET"
  | ItemRBracket => "RIGHT_BRACKET"
  | ItemLPar => "LEFT_PARENT"
  | ItemRPar => "RIGHT_PARENT"
  | ItemDot => "DOT"
  | ItemSemicolon => "SEMICOLON"
  | ItemComma => "COMMA"
  | ItemLT => "LT"
  | ItemGT => "GT"
  | ItemEQ => "EQ"
  | ItemNot => "NOT"
  | ItemAnd => "AND"
  | ItemOr => "OR"
  | ItemID => "ID"
  | ItemType => "TYPE"
  | ItemAt => "AT"
  | ItemDistinct => "DISTINCT"

/-! Text constants that represent primitive types. -/

def binding : Char := '?'
def leftBracket : Char := '\x7b'
def rightBracket : Char := '\x7d'
def leftPar : Char := '('
def rightPar : Char := ')'
def rightSquarePar : Char := ']'
def dot : Char := '.'
def colon : Char := ':'
def semicolon : Char := ';'
def comma : Char := ','
def slash : Char := '/'
def backSlash : Char := '\\'
def lt : Char := '<'
def gt : Char := '>'
def eq : Char := '='
def quote : Char := '"'
def hat : Char := '^'
def «at» : Char := '@'
def newLine : Char := '\n'
def anchor : List Char := ['"', '@', '[']
def literalType : List Char := ['"', '^', '^', 't', 'y', 'p', 'e', ':']
def literalBool : List Char := "bool".toList
def literalInt : List Char := "int64".toList
def literalFloat : List Char := "float64".toList
def literalText : List Char := "text".toList
def literalBlob : List Char := "blob".toList

/-- Token contains the type and text collected around the captured token.
The field `Typ` is the source's `Type`. -/
structure Token where
  Typ : TokenType
  Text : List Char
  ErrorMessage : String
  deriving DecidableEq, Repr

/-- The state functions of the scanner; the source's `nil` state is `none`
of `Option StateFn`. -/
inductive StateFn where
  | lexToken
  | lexBinding
  | lexSpace
  | lexKeyword
  | lexNode
  | lexPredicateOrLiteral
  | lexPredicate
  | lexLiteral
  deriving DecidableEq, Repr

/-- The state of the scanner. -/
structure lexer where
  input : List Char
  start : Nat
  pos : Nat
  width : Nat
  line : Nat
  lastLine : Nat
  col : Nat
  lastCol : Nat
  tokens : List Token
  deriving DecidableEq, Repr

/-- Go's `s[lo:hi]` on a string, for `lo ≤ hi ≤ len(s)`. -/
def slice (s : List Char) (lo hi : Nat) : List Char := (s.take hi).drop lo

/-- The method `emit` passes an item back to the client. -/
def lexer.emit (l : lexer) (t : TokenType) : lexer :=
  { l with
    tokens := l.tokens ++ [{ Typ := t, Text := slice l.input l.start l.pos, ErrorMessage := "" }]
    start := l.pos }

/-- The method `emitError` passes an error to the client with its position. -/
def lexer.emitError (l : lexer) (msg : String) : lexer :=
  { l with
    tokens := l.tokens ++
      [{ Typ := ItemError
         Text := slice l.input l.start l.pos
         ErrorMessage := "[lexer:" ++ toString l.line ++ ":" ++ toString l.col ++ "] " ++ msg }]
    start := l.pos }

/-- The method `ignore` skips over the pending input before this point. -/
def lexer.ignore (l : lexer) : lexer := { l with start := l.pos }

/-- The method `backup` steps back one rune. -/
def lexer.backup (l : lexer) : lexer :=
  { l with pos := l.pos - l.width, col := l.lastCol, line := l.lastLine }

/-- The method `next` returns the next rune in the input. -/
def lexer.next (l : lexer) : lexer × rune :=
  match l.input[l.pos]? with
  | none => ({ l with width := 0 }, eof)
  | some r =>
    if r = newLine then
      ({ l with
         width := 1, pos := l.pos + 1, lastCol := l.col, lastLine := l.line
         line := l.line + 1, col := 0 }, some r)
    else
      ({ l with
         width := 1, pos := l.pos + 1, lastCol := l.col, lastLine := l.line
         col := l.col + 1 }, some r)

/-- The method `peek` returns but does not consume the next rune. -/
def lexer.peek (l : lexer) : lexer × rune := (l.next.1.backup, l.next.2)

/-- The method `accept` consumes the next rune if it equals the given one,
letter case apart. -/
def lexer.accept (U : Unicode) (l : lexer) (r : Char) : lexer × Bool :=
  if U.toLower l.next.2 = some (U.ToLower r) then (l.next.1, true)
  else (l.next.1.backup, false)

/-- The method `consume`: `accept` each rune of `text` in turn, stopping at
the first that is not there. -/
def lexer.consume (U : Unicode) : lexer → List Char → lexer × Bool
  | l, [] => (l, true)
  | l, c :: cs =>
    if (l.accept U c).2 then lexer.consume U (l.accept U c).1 cs
    else ((l.accept U c).1, false)

/-- The loop `for { if r := l.next(); stop(r) { break } }` shared by
`lexBinding`, `lexSpace`, `lexKeyword`, `lexPredicate` and `consumeKeyword`:
the scanner after the last `next`, and the rune that one returned. -/
def lexer.nextUntil (stop : rune → Bool) : Nat → lexer → Option (lexer × rune)
  | 0, _ => none
  | n + 1, l => if stop l.next.2 then some l.next else lexer.nextUntil stop n l.next.1

/-- The fuel that lets a loop read every rune from `pos` on and then `eof`. -/
def lexer.fuel (l : lexer) : Nat := l.input.length - l.pos + 1

/-- The function `isSingleSymboToken` checks if a single char should be lexed. -/
def isSingleSymboToken (l : lexer) (tt : TokenType) (symbol : Char) :
    lexer × Option StateFn :=
  if l.peek.2 = some symbol then ((l.peek.1.next.1).emit tt, some StateFn.lexSpace)
  else (l.peek.1, none)

/-- The type and symbol of the ten `isSingleSymboToken` tests of `lexToken`,
in the order of the source. -/
def singleSymbols : List (TokenType × Char) :=
  [(ItemLBracket, leftBracket), (ItemRBracket, rightBracket), (ItemLPar, leftPar),
   (ItemRPar, rightPar), (ItemSemicolon, semicolon), (ItemDot, dot), (ItemComma, comma),
   (ItemLT, lt), (ItemGT, gt), (ItemEQ, eq)]

/-- The consecutive `if state := isSingleSymboToken(...); state != nil` tests
of `lexToken`: the first test that answers a state ends them. -/
def trySingleSymbols : List (TokenType × Char) → lexer → lexer × Option StateFn
  | [], l => (l, none)
  | ts :: rest, l =>
    match (isSingleSymboToken l ts.1 ts.2).2 with
    | some st => ((isSingleSymboToken l ts.1 ts.2).1, some st)
    | none => trySingleSymbols rest (isSingleSymboToken l ts.1 ts.2).1

/-- The `for` loop of `lexToken`, and the `emit(ItemEOF)` after its `break`. -/
def lexTokenLoop (U : Unicode) : Nat → lexer → Option (lexer × Option StateFn)
  | 0, _ => none
  | n + 1, l =>
    let r := l.peek.2
    let l1 := l.peek.1
    if r = some binding then some (l1.next.1, some StateFn.lexBinding)
    else if r = some slash then some (l1, some StateFn.lexNode)
    else if r = some quote then some (l1, some StateFn.lexPredicateOrLiteral)
    else if U.isLetter r then some (l1, some StateFn.lexKeyword)
    else
      match (trySingleSymbols singleSymbols l1).2 with
      | some st => some ((trySingleSymbols singleSymbols l1).1, some st)
      | none =>
        let l2 := (trySingleSymbols singleSymbols l1).1
        if U.isSpace l2.next.2 then lexTokenLoop U n l2.next.1.ignore
        else if l2.next.1.next.2 = eof then some (l2.next.1.next.1.emit ItemEOF, none)
        else lexTokenLoop U n l2.next.1.next.1

/-- The state `lexToken` is the initial state for token identification. -/
def lexToken (U : Unicode) (l : lexer) : Option (lexer × Option StateFn) :=
  lexTokenLoop U l.fuel l

/-- The state `lexBinding` lexes a binding variable. -/
def lexBinding (U : Unicode) (l : lexer) : Option (lexer × Option StateFn) :=
  (l.nextUntil (fun r => !U.isLetter r || r == eof) l.fuel).map
    fun p => (p.1.backup.emit ItemBinding, some StateFn.lexSpace)

/-- The state `lexSpace` consumes spaces without emitting any token. -/
def lexSpace (U : Unicode) (l : lexer) : Option (lexer × Option StateFn) :=
  (l.nextUntil (fun r => !U.isSpace r || r == eof) l.fuel).map
    fun p => (p.1.backup.ignore, some StateFn.lexToken)

/-- The function `consumeKeyword` consumes and emits a valid token. -/
def consumeKeyword (U : Unicode) (l : lexer) (t : TokenType) : Option lexer :=
  (l.nextUntil (fun r => !U.isLetter r || r == eof) l.fuel).map
    fun p => p.1.backup.emit t

/-- The keywords `lexKeyword` compares the input with, and their token types,
in the order of the source. -/
def keywords : List (List Char × TokenType) :=
  [("select".toList, ItemQuery), ("from".toList, ItemFrom), ("where".toList, ItemWhere),
   ("as".toList, ItemAs), ("before".toList, ItemBefore), ("after".toList, ItemAfter),
   ("between".toList, ItemBetween), ("count".toList, ItemCount),
   ("distinct".toList, ItemDistinct), ("sum".toList, ItemSum), ("group".toList, ItemGroup),
   ("by".toList, ItemBy), ("order".toList, ItemOrder), ("asc".toList, ItemAsc),
   ("desc".toList, ItemDesc), ("having".toList, ItemHaving), ("limit".toList, ItemLimit),
   ("not".toList, ItemNot), ("and".toList, ItemAnd), ("or".toList, ItemOr),
   ("id".toList, ItemID), ("type".toList, ItemType), ("at".toList, ItemAt)]

/-- The state `lexKeyword` lexes the BQL keywords: the run of letters at
`pos` is compared with each keyword in turn. -/
def lexKeyword (U : Unicode) (l : lexer) : Option (lexer × Option StateFn) :=
  let input := (l.input.drop l.pos).takeWhile U.IsLetter
  match keywords.find? (fun kw => EqualFold U input kw.1) with
  | some kw => (consumeKeyword U l kw.2).map fun l1 => (l1, some StateFn.lexSpace)
  | none =>
    (l.nextUntil (fun r => U.isSpace r || r == eof) l.fuel).map
      fun p => (p.1.backup.emitError "found unknown keyword", none)

/-- The loop of `lexNode`, with its variable `ltID`, and the code after it. -/
def lexNodeLoop : Nat → Bool → lexer → Option (lexer × Option StateFn)
  | 0, _, _ => none
  | n + 1, ltID, l =>
    let r := l.next.2
    let l1 := l.next.1
    if r = some backSlash then
      if l1.peek.2 = some lt then lexNodeLoop n ltID l1.peek.1.next.1
      else lexNodeLoop n ltID l1.peek.1
    else if r = eof then
      some (l1.emitError "node is not properly terminated; missing final > delimiter", none)
    else if r = some lt then lexNodeLoop n true l1
    else if r = some gt then
      if !ltID then
        some (l1.emitError "node should start ID section with a < delimiter", none)
      else some (l1.emit ItemNode, some StateFn.lexSpace)
    else lexNodeLoop n ltID l1

/-- The state `lexNode` lexes a node. -/
def lexNode (l : lexer) : Option (lexer × Option StateFn) := lexNodeLoop l.fuel false l

/-- The state `lexPredicateOrLiteral` tries to lex a predicate or a literal
out of the input. -/
def lexPredicateOrLiteral (l : lexer) : Option (lexer × Option StateFn) :=
  let text := l.input.drop l.pos
  if Contains text anchor then some (l, some StateFn.lexPredicate)
  else if Contains text literalType then some (l, some StateFn.lexLiteral)
  else some (l.emitError "failed to parse predicate or literal for opening \" delimiter", none)

/-- The loop of `lexPredicate` and the `return lexSpace` after it. -/
def lexPredicateLoop (U : Unicode) : Nat → lexer → Option (lexer × Option StateFn)
  | 0, _ => none
  | n + 1, l =>
    let r := l.next.2
    let l1 := l.next.1
    if r = some backSlash then
      if l1.peek.2 = some quote then lexPredicateLoop U n l1.peek.1.next.1
      else lexPredicateLoop U n l1.peek.1
    else if r = some quote then
      let c := l1.backup.consume U anchor
      if !c.2 then
        some (c.1.emitError "predicates require time anchor information; missing \"@[", none)
      else
        match c.1.nextUntil (fun nr => nr == some rightSquarePar || nr == eof) c.1.fuel with
        | none => none
        | some p =>
          if p.2 ≠ some rightSquarePar then
            some (p.1.emitError "predicate's time anchors should end with ] delimiter", none)
          else some (p.1.emit ItemPredicate, some StateFn.lexSpace)
    else if r = eof then
      some (l1.emitError "literals needs to be properly terminated; missing \" and type", none)
    else lexPredicateLoop U n l1

/-- The state `lexPredicate` lexes a predicate out of the input. -/
def lexPredicate (U : Unicode) (l : lexer) : Option (lexer × Option StateFn) :=
  lexPredicateLoop U l.fuel l.next.1

/-- The loop of `lexLiteral` that collects the type of the literal in
`literalT`: the scanner after the last `next`, and `literalT`. -/
def literalTLoop (U : Unicode) : Nat → lexer → List Char → Option (lexer × List Char)
  | 0, _, _ => none
  | n + 1, l, literalT =>
    if !(U.isLetter l.next.2 || U.isDigit l.next.2) || l.next.2 == eof then
      some (l.next.1, literalT)
    else literalTLoop U n l.next.1 (literalT ++ l.next.2.toList)

/-- The loop of `lexLiteral` and the `return lexSpace` after it. -/
def lexLiteralLoop (U : Unicode) : Nat → lexer → Option (lexer × Option StateFn)
  | 0, _ => none
  | n + 1, l =>
    let r := l.next.2
    let l1 := l.next.1
    if r = some backSlash then
      if l1.peek.2 = some quote then lexLiteralLoop U n l1.peek.1.next.1
      else lexLiteralLoop U n l1.peek.1
    else if r = some quote then
      let c := l1.backup.consume U literalType
      if !c.2 then
        some (c.1.emitError "literals require a type definintion; missing ^^type:", none)
      else
        match literalTLoop U c.1.fuel c.1 [] with
        | none => none
        | some p =>
          let literalT := p.2.map U.ToLower
          if [literalBool, literalInt, literalFloat, literalText, literalBlob].contains
              literalT then
            some (p.1.backup.emit ItemLiteral, some StateFn.lexSpace)
          else some (p.1.emitError ("invalid literal type " ++ String.mk literalT), none)
    else if r = eof then
      some (l1.emitError "literals needs to be properly terminated; missing \" and type", none)
    else lexLiteralLoop U n l1

/-- The state `lexLiteral` lexes a literal out of the input. -/
def lexLiteral (U : Unicode) (l : lexer) : Option (lexer × Option StateFn) :=
  lexLiteralLoop U l.fuel l.next.1

/-- The call `state(l)` of a state function. -/
def StateFn.call (U : Unicode) : StateFn → lexer → Option (lexer × Option StateFn)
  | StateFn.lexToken => Badwolf.lexToken U
  | StateFn.lexBinding => Badwolf.lexBinding U
  | StateFn.lexSpace => Badwolf.lexSpace U
  | StateFn.lexKeyword => Badwolf.lexKeyword U
  | StateFn.lexNode => Badwolf.lexNode
  | StateFn.lexPredicateOrLiteral => Badwolf.lexPredicateOrLiteral
  | StateFn.lexPredicate => Badwolf.lexPredicate U
  | StateFn.lexLiteral => Badwolf.lexLiteral U

/-- The loop of `run`: state functions are executed until the state is nil. -/
def runLoop (U : Unicode) : Nat → Option StateFn → lexer → Option lexer
  | _, none, l => some l
  | 0, some _, _ => none
  | n + 1, some state, l =>
    match state.call U l with
    | none => none
    | some p => runLoop U n p.2 p.1

/-- The scanner `lex` creates for the given input; the capacity only sizes
the channel. -/
def lex (input : List Char) (_capacity : Int) : lexer :=
  { input := input, start := 0, pos := 0, width := 0, line := 0, lastLine := 0,
    col := 0, lastCol := 0, tokens := [] }

/-- The method `run` lexes the input, starting in the state `lexToken`. -/
def lexer.run (U : Unicode) (fuel : Nat) (l : lexer) : Option lexer :=
  runLoop U fuel (some StateFn.lexToken) l

/-- The number of state functions `run` may have to execute on an input. -/
def runFuel (input : List Char) : Nat := 5 * input.length + 5

/-- The function `New`: all the tokens the channel delivers for the input,
in order. -/
def New (U : Unicode) (input : List Char) (capacity : Int) : Option (List Token) :=
  ((lex input (if capacity < 0 then 0 else capacity)).run U (runFuel input)).map
    fun l => l.tokens

/-! ## triple/triple.go -/

/-- ObjectType describes the type of data boxed in the object. -/
inductive ObjectType where
  | Node
  | Predicate
  | Literal
  deriving DecidableEq, Repr

/-- The method `String` pretty prints the type of the boxed object. -/
def ObjectType.String : ObjectType → String
  | ObjectType.Node => "node"
  | ObjectType.Predicate => "predicate"
  | ObjectType.Literal => "literal"

/-- The kinds of predicate `predicate.Type` tells apart. -/
inductive PredicateType where
  | Immutable
  | Temporal
  deriving DecidableEq, Repr

/-- The packages `node`, `predicate` and `literal`, as far as `triple.go`
calls them. They are not part of the sources and are parameters of the
embedding: `N`, `P` and `L` are the values behind a non-nil `*node.Node`,
`*predicate.Predicate` and `*literal.Literal`, `T` is `time.Time`. A parse
function returns its error or a non-nil value; `TimeAnchor` returns the
pointer of its first result, `none` when it is nil. -/
structure Packages (N P L T : Type) where
  /-- The function `node.Parse`. -/
  nodeParse : List Char → Except String N
  /-- The function `predicate.Parse`. -/
  predicateParse : List Char → Except String P
  /-- The method `String` of a node. -/
  nodeString : N → List Char
  /-- The method `String` of a predicate. -/
  predicateString : P → List Char
  /-- The method `String` of a literal. -/
  literalString : L → List Char
  /-- The method `Type` of a predicate. -/
  Typ : P → PredicateType
  /-- The method `TimeAnchor` of a predicate. -/
  TimeAnchor : P → Option T
  /-- The method `ID` of a predicate. -/
  ID : P → String
  /-- The function `predicate.NewTemporal`. -/
  NewTemporal : String → T → P
  /-- The function `predicate.NewImmutable`. -/
  NewImmutable : String → P

/-- Object is the box that either contains a literal or a node: a struct of
three pointers. -/
structure Object (N P L : Type) where
  n : Option N
  p : Option P
  l : Option L
  deriving DecidableEq, Repr

/-- Triple describes the subject, predicate and object used by BadWolf. The
three pointers of the struct are never nil: `NewTriple`, the only place of the
package that builds the struct, refuses a nil component, so the fields hold
the values. -/
structure Triple (N P L : Type) where
  s : N
  p : P
  o : Object N P L
  deriving DecidableEq, Repr

section
variable {N P L T : Type}

/-- The method `String` pretty prints the object. -/
def Object.String (I : Packages N P L T) (o : Object N P L) : List Char :=
  match o.n with
  | some n => I.nodeString n
  | none =>
    match o.l with
    | some l => I.literalString l
    | none =>
      match o.p with
      | some p => I.predicateString p
      | none => "@@@INVALID_OBJECTS@@@".toList

/-- NewNodeObject returns a new object that boxes a node. -/
def NewNodeObject (n : Option N) : Object N P L := { n := n, p := none, l := none }

/-- NewPredicateObject returns a new object that boxes a predicate. -/
def NewPredicateObject (p : Option P) : Object N P L := { n := none, p := p, l := none }

/-- NewLiteralObject returns a new object that boxes a literal. -/
def NewLiteralObject (l : Option L) : Object N P L := { n := none, p := none, l := l }

/-- ParseObject attempts to parse an object; `b` is the `Parse` method of the
literal builder. -/
def ParseObject (I : Packages N P L T) (s : List Char) (b : List Char → Except String L) :
    Except String (Object N P L) :=
  match I.nodeParse s with
  | Except.error _ =>
    match b s with
    | Except.error _ =>
      match I.predicateParse s with
      | Except.error err => Except.error err
      | Except.ok o => Except.ok (NewPredicateObject (some o))
    | Except.ok l => Except.ok (NewLiteralObject (some l))
  | Except.ok n => Except.ok (NewNodeObject (some n))

/-- The verb `%v` of `fmt` on a pointer with a `String` method: the text of
the value, `<nil>` for nil. -/
def fmtV {α : Type} (str : α → List Char) : Option α → String
  | none => "<nil>"
  | some a => String.mk (str a)

/-- NewTriple creates a new triple. -/
def NewTriple (I : Packages N P L T) (s : Option N) (p : Option P)
    (o : Option (Object N P L)) : Except String (Triple N P L) :=
  match s, p, o with
  | some s1, some p1, some o1 => Except.ok { s := s1, p := p1, o := o1 }
  | _, _, _ =>
    Except.error ("triple.NewTriple cannot create triples from nil components in <" ++
      fmtV I.nodeString s ++ " " ++ fmtV I.predicateString p ++ " " ++
      fmtV (Object.String I) o ++ ">")

/-- The method `String` marshals the triple into a pretty string. -/
def Triple.String (I : Packages N P L T) (t : Triple N P L) : List Char :=
  I.nodeString t.s ++ ['\t'] ++ I.predicateString t.p ++ ['\t'] ++ Object.String I t.o

/-- The class `\s` of Go's regular expressions: tab, newline, form feed,
carriage return and space. -/
def reSpace (c : Char) : Bool :=
  c == '\t' || c == '\n' || c == '\x0c' || c == '\r' || c == ' '

/-- A match of the pattern `first \s+ last` at the head of the text, for a
rune `first` and a class `last` without white space: its length. There is at
most one, the run of white space being followed by a rune of `last`. -/
def matchHere (first : Char) (last : Char → Bool) : List Char → Option Nat
  | c :: w :: rest =>
    if c = first ∧ reSpace w = true then
      match rest.dropWhile reSpace with
      | d :: _ => if last d then some ((rest.takeWhile reSpace).length + 3) else none
      | [] => none
    else none
  | _ => none

/-- Go's `Regexp.FindIndex` for a pattern that matches no empty text: start
and end of the leftmost match, from offset `i` on. -/
def FindIndex (m : List Char → Option Nat) : Nat → List Char → Option (Nat × Nat)
  | _, [] => none
  | i, c :: s =>
    match m (c :: s) with
    | some n => some (i, i + n)
    | none => FindIndex m (i + 1) s

/-- The call `pSplit.FindIndex` for `pSplit = ">\\s+\""`. -/
def pSplit (raw : List Char) : Option (Nat × Nat) :=
  FindIndex (matchHere '>' (fun d => d == '"')) 0 raw

/-- The call `oSplit.FindIndex` for `oSplit = "(]\\s+/)|(]\\s+\")"`. -/
def oSplit (raw : List Char) : Option (Nat × Nat) :=
  FindIndex (matchHere ']' (fun d => d == '/' || d == '"')) 0 raw

/-- Go's `strings.TrimSpace`. -/
def TrimSpace (U : Unicode) (s : List Char) : List Char :=
  ((s.dropWhile U.IsSpace).reverse.dropWhile U.IsSpace).reverse

/-- The slice expression `s[lo:hi]` on a string: `none` is the panic of Go
for bounds out of range. -/
def sliceOf (s : List Char) (lo hi : Nat) : Option (List Char) :=
  if lo ≤ hi ∧ hi ≤ s.length then some (slice s lo hi) else none

/-- ParseTriple processes the provided text and tries to create a triple; `b`
is the `Parse` method of the literal builder. The outer `none` is a panic. -/
def ParseTriple (U : Unicode) (I : Packages N P L T) (line : List Char)
    (b : List Char → Except String L) : Option (Except String (Triple N P L)) :=
  let raw := TrimSpace U line
  match pSplit raw, oSplit raw with
  | some idxp, some idxo =>
    match sliceOf raw 0 (idxp.1 + 1), sliceOf raw (idxp.2 - 1) (idxo.1 + 1),
        sliceOf raw (idxo.2 - 1) raw.length with
    | some ss, some sp, some so =>
      match I.nodeParse ss with
      | Except.error err =>
        some (Except.error ("triple.Parse failed to parse subject " ++ String.mk ss ++
          " with error " ++ err))
      | Except.ok s =>
        match I.predicateParse sp with
        | Except.error err =>
          some (Except.error ("triple.Parse failed to parse predicate " ++ String.mk sp ++
            " with error " ++ err))
        | Except.ok p =>
          match ParseObject I so b with
          | Except.error err =>
            some (Except.error ("triple.Parse failed to parse object " ++ String.mk so ++
              " with error " ++ err))
          | Except.ok o => some (NewTriple I (some s) (some p) (some o))
    | _, _, _ => none
  | _, _ =>
    some (Except.error ("triple.Parse could not split s p o  out of " ++ String.mk raw))

/-- The closure `rp` of `Reify` creates the proper reification predicates;
`none` is the panic of `*ta` on the nil pointer `TimeAnchor` returned. -/
def rp (I : Packages N P L T) (id : String) (p : P) : Option P :=
  if I.Typ p = PredicateType.Immutable then
    match I.TimeAnchor p with
    | none => none
    | some ta => some (I.NewTemporal (I.ID p) ta)
  else some (I.NewImmutable id)

/-- The triple of `t, _ := NewTriple(...)`: nil when `NewTriple` fails. -/
def orNil {α : Type} : Except String α → Option α
  | Except.ok a => some a
  | Except.error _ => none

/-- Reify returns the original triple and the newly reified ones, and the
newly created blank node; `b` is the node `node.NewBlankNode()` returns. An
entry `none` of the list is a nil pointer; the outer `none` is a panic. -/
def Reify (I : Packages N P L T) (b : N) (t : Triple N P L) :
    Option (List (Option (Triple N P L)) × N) := do
  let ps ← rp I "_subject" t.p
  let ts := orNil (NewTriple I (some b) (some ps) (some (NewNodeObject (some t.s))))
  let pp ← rp I "_predicate" t.p
  let tp := orNil (NewTriple I (some b) (some pp) (some (NewPredicateObject (some t.p))))
  let to0 : Option (Triple N P L) := none
  let to1 ←
    if t.o.l.isSome then
      (rp I "_object" t.p).map fun po =>
        orNil (NewTriple I (some b) (some po) (some (NewLiteralObject t.o.l)))
    else some to0
  let to2 ←
    if t.o.n.isSome then
      (rp I "_object" t.p).map fun po =>
        orNil (NewTriple I (some b) (some po) (some (NewNodeObject t.o.n)))
    else some to1
  let to3 ←
    if t.o.p.isSome then
      (rp I "_object" t.p).map fun po =>
        orNil (NewTriple I (some b) (some po) (some (NewPredicateObject t.o.p)))
    else some to2
  some ([some t, ts, tp, to3], b)

/-- The number of variants an object has populated. -/
def Object.variants (o : Object N P L) : Nat :=
  o.n.toList.length + o.p.toList.length + o.l.toList.length

end

/-! ## The imported packages, for evaluation -/

/-- The text before and the text after the first occurrence of `pat`. -/
def cutAt (pat : List Char) : List Char → Option (List Char × List Char)
  | [] => if pat.isEmpty then some ([], []) else none
  | c :: s =>
    if pat.isPrefixOf (c :: s) then some ([], (c :: s).drop pat.length)
    else (cutAt pat s).map fun p => (c :: p.1, p.2)

/-- Modelled from the spec: a predicate value of the package `predicate`,
which is not part of the sources. A predicate is immutable (no time
dimension) or temporal (carries one time anchor). -/
structure SpecPredicate where
  ID : String
  anchor : Option String
  deriving DecidableEq, Repr

/-- Modelled from the spec: the node grammar of the package `node`, which is
not part of the sources, accepts a text of the form `/type<id>`; the node is
kept as its text. -/
def specNodeParse (s : List Char) : Except String (List Char) :=
  if s.head? = some '/' ∧ '<' ∈ s ∧ s.getLast? = some '>' then Except.ok s
  else Except.error ("node.Parse: not a node: " ++ String.mk s)

/-- Modelled from the spec: the predicate grammar of the package `predicate`,
which is not part of the sources, accepts a text of the form
`"id"@[time-anchor]`; an empty time anchor makes the predicate immutable. -/
def specPredicateParse (s : List Char) : Except String SpecPredicate :=
  match s with
  | '"' :: rest =>
    match cutAt anchor rest with
    | some (id, tail) =>
      if tail.getLast? = some ']' then
        Except.ok
          { ID := String.mk id
            anchor := if tail.dropLast = [] then none else some (String.mk tail.dropLast) }
      else Except.error ("predicate.Parse: no closing ] in " ++ String.mk s)
    | none => Except.error ("predicate.Parse: no time anchor in " ++ String.mk s)
  | _ => Except.error ("predicate.Parse: no opening quote in " ++ String.mk s)

/-- Modelled from the spec: the literal grammar of the package `literal`,
which is not part of the sources, accepts a text of the form
`"value"^^type:kind` with one of the five kinds; the literal is kept as its
text. -/
def specLiteralParse (s : List Char) : Except String (List Char) :=
  match s with
  | '"' :: rest =>
    match cutAt literalType rest with
    | some (_, kind) =>
      if kind ∈ [literalBool, literalInt, literalFloat, literalText, literalBlob] then
        Except.ok s
      else Except.error ("literal.Parse: unknown type in " ++ String.mk s)
    | none => Except.error ("literal.Parse: no type in " ++ String.mk s)
  | _ => Except.error ("literal.Parse: no opening quote in " ++ String.mk s)

/-- Modelled from the spec: the packages `node`, `predicate` and `literal`,
which are not part of the sources, with the accessors `kind()` and
`time_anchor()` of the predicate grammar: a predicate is temporal exactly
when it carries a time anchor. -/
def specPackages : Packages (List Char) SpecPredicate (List Char) String where
  nodeParse := specNodeParse
  predicateParse := specPredicateParse
  nodeString := fun n => n
  predicateString := fun p =>
    ['"'] ++ p.ID.toList ++ anchor ++ (p.anchor.getD "").toList ++ [']']
  literalString := fun l => l
  Typ := fun p => if p.anchor.isSome then PredicateType.Temporal else PredicateType.Immutable
  TimeAnchor := fun p => p.anchor
  ID := fun p => p.ID
  NewTemporal := fun id ta => { ID := id, anchor := some ta }
  NewImmutable := fun id => { ID := id, anchor := none }

end Badwolf

namespace Badwolf

open TokenType

/-! ## The vocabulary of the statements about the scanner -/

/-- The runes `lexToken` dispatches on: the three openers, a letter, one of
the ten symbols, or a space. -/
def dispatched (U : Unicode) (c : Char) : Bool :=
  c == binding || c == slash || c == quote || U.IsLetter c ||
    singleSymbols.any (fun ts => ts.2 == c) || U.IsSpace c

/-- A token that ends the sequence: `EOF` or `ERROR`. -/
def Token.terminal (t : Token) : Prop := t.Typ = ItemEOF ∨ t.Typ = ItemError

/-- The rank of a state function within one round of the scanner. -/
def StateFn.rank : StateFn → Nat
  | StateFn.lexBinding => 4
  | StateFn.lexSpace => 3
  | StateFn.lexToken => 2
  | StateFn.lexPredicateOrLiteral => 1
  | _ => 0

/-- A bound on the state functions still to execute: it decreases with every
state function that returns a state. -/
def stepsLeft (st : StateFn) (l : lexer) : Nat :=
  5 * (l.input.length - l.pos) + st.rank

/-- The scanner `s` is the scanner `l` further on in the same input, with
nothing sent in between. -/
def lexer.ahead (l s : lexer) : Prop :=
  s.input = l.input ∧ s.tokens = l.tokens ∧ l.pos ≤ s.pos

/-- The outcome of a state function that lexes one item of type `ty`: one
`ERROR` token and the nil state, or one token of type `ty`, the state
`lexSpace` and less input left. -/
def lexer.lexed (l l1 : lexer) (nxt : Option StateFn) (ty : TokenType) : Prop :=
  l1.input = l.input ∧
  ((nxt = none ∧ ∃ t, l1.tokens = l.tokens ++ [t] ∧ t.Typ = ItemError) ∨
   (nxt = some StateFn.lexSpace ∧ (∃ t, l1.tokens = l.tokens ++ [t] ∧ t.Typ = ty) ∧
     l.input.length - l1.pos < l.input.length - l.pos))

/-- The outcome of a state function: the input is kept; with the nil state
one terminal token was sent; with another state the tokens sent are not
terminal, a `BINDING` token comes from `lexBinding` only, and `stepsLeft`
went down. -/
def Step (st : StateFn) (l l1 : lexer) (nxt : Option StateFn) : Prop :=
  l1.input = l.input ∧
  match nxt with
  | none => ∃ t, l1.tokens = l.tokens ++ [t] ∧ t.terminal
  | some st1 =>
    stepsLeft st1 l1 < stepsLeft st l ∧
    ∃ new, l1.tokens = l.tokens ++ new ∧
      ∀ x ∈ new, ¬ x.terminal ∧ (x.Typ = ItemBinding → st = StateFn.lexBinding)

end Badwolf

namespace Badwolf

open TokenType

/-- The text of a `BINDING` token as the scanner builds it: the pending text
`pre`, a `?`, and letters; no text is pending when every rune of the input is
dispatched. -/
def BindingText (U : Unicode) (input : List Char) (t : Token) : Prop :=
  ∃ pre name, t.Text = pre ++ binding :: name ∧ (∀ c ∈ name, U.IsLetter c = true) ∧
    ((∀ c ∈ input, dispatched U c = true) → pre = [])

/-- What holds when a state function is entered: `lexToken` has no pending
text, and `lexBinding` stands right after a `?` that is part of the pending
text. -/
def Entered (U : Unicode) (st : StateFn) (l : lexer) : Prop :=
  (st = StateFn.lexToken → l.start = l.pos) ∧
  (st = StateFn.lexBinding →
    l.pos ≤ l.input.length ∧ l.input[l.pos - 1]? = some binding ∧ l.start < l.pos ∧
    ((∀ c ∈ l.input, dispatched U c = true) → l.start + 1 = l.pos))

end Badwolf

namespace Badwolf

/-- Whether a text matches `?[A-Za-z]+`: a `?` followed by one or more ASCII
letters and nothing else. -/
def matchesBinding : List Char → Bool
  | '?' :: c :: name => (c :: name).all fun x => asciiTables.IsLetter x
  | _ => false

end Badwolf

namespace Badwolf

open TokenType

/-- What a statement about ASCII input assumes of the tables: on ASCII runes
they are Go's, whose ASCII rows are `asciiTables`. -/
def Unicode.agreesOnASCII (U : Unicode) : Prop :=
  ∀ c : Char, c.toNat < 128 →
    U.IsLetter c = asciiTables.IsLetter c ∧ U.IsSpace c = asciiTables.IsSpace c ∧
    U.IsDigit c = asciiTables.IsDigit c ∧ U.ToLower c = asciiTables.ToLower c ∧
    ∀ d : Char, d.toNat < 128 → U.FoldEq c d = asciiTables.FoldEq c d

/-- The scanner after `k` calls of `next`. -/
def lexer.skip (l : lexer) : Nat → lexer
  | 0 => l
  | k + 1 => lexer.skip l.next.1 k

end Badwolf

namespace Badwolf

open TokenType

/-- The loop of `run` takes the scanner `l` in the state `st` to the scanner
`l2` and the nil state, on some fuel. -/
def Runs (U : Unicode) (st : Option StateFn) (l l2 : lexer) : Prop :=
  ∃ n, runLoop U n st l = some l2

/-- An `ERROR` token whose message contains the text, in the sense of
`strings.Contains`. -/
def Token.says (t : Token) (text : String) : Prop :=
  t.Typ = ItemError ∧ Contains t.ErrorMessage.toList text.toList = true

instance (t : Token) (text : String) : Decidable (t.says text) := by
  unfold Token.says
  infer_instance

/-- The `EOF` token the scanner sends when no text is pending. -/
def eofToken : Token := { Typ := ItemEOF, Text := [], ErrorMessage := "" }

/-- The ten punctuation characters and the token type of each, as the
specification lists them. -/
def punctuation : List (Char × TokenType) :=
  [('\x7b', ItemLBracket), ('\x7d', ItemRBracket), ('(', ItemLPar), (')', ItemRPar),
   ('.', ItemDot), (';', ItemSemicolon), (',', ItemComma), ('<', ItemLT), ('>', ItemGT),
   ('=', ItemEQ)]

/-- The token of one punctuation character: its type is the one listed for
the character and its text the character alone. -/
def punctuationToken (c : Char) (t : Token) : Prop :=
  (c, t.Typ) ∈ punctuation ∧ t.Text = [c] ∧ t.ErrorMessage = ""

/-- Two texts of ASCII runes are equal, letter case apart. -/
def sameIgnoringCase (a b : List Char) : Bool :=
  a.map asciiTables.ToLower == b.map asciiTables.ToLower

/-- The 23 keywords and the token type of each, as the specification lists
them. -/
def keywordTypes : List (List Char × TokenType) :=
  [("select".toList, ItemQuery), ("from".toList, ItemFrom), ("where".toList, ItemWhere),
   ("as".toList, ItemAs), ("type".toList, ItemType), ("id".toList, ItemID),
   ("at".toList, ItemAt), ("before".toList, ItemBefore), ("after".toList, ItemAfter),
   ("between".toList, ItemBetween), ("count".toList, ItemCount),
   ("distinct".toList, ItemDistinct), ("sum".toList, ItemSum), ("group".toList, ItemGroup),
   ("by".toList, ItemBy), ("order".toList, ItemOrder), ("having".toList, ItemHaving),
   ("asc".toList, ItemAsc), ("desc".toList, ItemDesc), ("limit".toList, ItemLimit),
   ("not".toList, ItemNot), ("and".toList, ItemAnd), ("or".toList, ItemOr)]

/-- The five type tags of a literal. -/
def literalTags : List (List Char) :=
  [literalBool, literalInt, literalFloat, literalText, literalBlob]

/-- The input `"v"^^type:t`: a quote, `v`, a quote, `^^type:` and `t`. -/
def literalInput (v t : List Char) : List Char :=
  quote :: v ++ literalType ++ t

/-- The input `"id"@[` followed by `s`. -/
def predicateInput (id s : List Char) : List Char :=
  quote :: id ++ anchor ++ s

end Badwolf

namespace Badwolf

open TokenType

/-- The part of `ParseTriple` that follows the split of the line: the three
segments are handed to the node grammar, the predicate grammar and
`ParseObject` in turn, and `NewTriple` builds the triple. -/
def parseSegments {N P L T : Type} (I : Packages N P L T) (b : List Char → Except String L)
    (ss sp so : List Char) : Option (Except String (Triple N P L)) :=
  match I.nodeParse ss with
  | Except.error err =>
    some (Except.error ("triple.Parse failed to parse subject " ++ String.mk ss ++
      " with error " ++ err))
  | Except.ok s =>
    match I.predicateParse sp with
    | Except.error err =>
      some (Except.error ("triple.Parse failed to parse predicate " ++ String.mk sp ++
        " with error " ++ err))
    | Except.ok p =>
      match ParseObject I so b with
      | Except.error err =>
        some (Except.error ("triple.Parse failed to parse object " ++ String.mk so ++
          " with error " ++ err))
      | Except.ok o => some (NewTriple I (some s) (some p) (some o))

end Badwolf

namespace Badwolf

open TokenType

/-- The pending text of the scanner lies within its input:
`0 <= start <= pos <= len(input)`. -/
def lexer.inRange (l : lexer) : Prop := l.start ≤ l.pos ∧ l.pos ≤ l.input.length

/-- The scanner `s` is the scanner `l` further on in one state function,
before a token is sent: the input and the tokens are those of `l`, the pending
text starts no earlier than that of `l`, and it lies within the input. -/
def lexer.before (l s : lexer) : Prop :=
  s.input = l.input ∧ s.tokens = l.tokens ∧ l.start ≤ s.start ∧ s.inRange

/-- The texts of the tokens are slices `input[s:p]` of the input with
`s <= p <= len(input)`, taken one after another without overlap: the first
from `lo` or later, each from the end of the one before or later, the last up
to `hi` or earlier. -/
def Spans (input : List Char) : Nat → List Token → Nat → Prop
  | lo, [], hi => lo ≤ hi
  | lo, t :: ts, hi =>
    ∃ s p, lo ≤ s ∧ s ≤ p ∧ p ≤ input.length ∧ t.Text = slice input s p ∧ Spans input p ts hi

/-- What a state function does to the scanner `l`: the input is kept, the
pending text of the scanner `l1` it leaves lies within the input, and the
tokens it sent are slices taken one after another from the pending text of `l`
on, up to the pending text of `l1`. -/
def lexer.sends (l l1 : lexer) : Prop :=
  l1.input = l.input ∧ l1.inRange ∧
    ∃ new, l1.tokens = l.tokens ++ new ∧ Spans l.input l.start new l1.start

/-- The states of the loop of `run`: the scanner each state function is
called on, with that state function, and the scanner the loop ends with. -/
def runStates (U : Unicode) : Nat → Option StateFn → lexer → List (Option StateFn × lexer)
  | _, none, l => [(none, l)]
  | 0, some st, l => [(some st, l)]
  | n + 1, some st, l =>
    (some st, l) ::
      match st.call U l with
      | none => []
      | some p => runStates U n p.2 p.1

end Badwolf

/-! # Theorems -/

namespace Badwolf

open TokenType

section Triples
variable {N P L T : Type}

/-- C6: `NewTriple(s, p, o)` returns an error if and only if at least one of
`s`, `p`, `o` is nil; when all three are present it succeeds and the triple
holds exactly `s`, `p` and `o`. -/
theorem NewTriple_error_iff_nil (I : Packages N P L T) (s : Option N) (p : Option P)
    (o : Option (Object N P L)) :
    ((∃ err, NewTriple I s p o = Except.error err) ↔ (s = none ∨ p = none ∨ o = none)) ∧
    (∀ s1 p1 o1, s = some s1 → p = some p1 → o = some o1 →
      NewTriple I s p o = Except.ok { s := s1, p := p1, o := o1 }) := by
  cases s <;> cases p <;> cases o <;> simp [NewTriple]

/-- C7: `ParseObject` tries the node grammar, then the literal grammar, then
the predicate grammar; the first that accepts the text decides the variant of
the object, and when all three reject it the error is the one the predicate
grammar returned. -/
theorem ParseObject_first_success (I : Packages N P L T) (s : List Char)
    (b : List Char → Except String L) :
    (∀ n, I.nodeParse s = Except.ok n →
      ParseObject I s b = Except.ok (NewNodeObject (some n))) ∧
    (∀ e1 l, I.nodeParse s = Except.error e1 → b s = Except.ok l →
      ParseObject I s b = Except.ok (NewLiteralObject (some l))) ∧
    (∀ e1 e2 o, I.nodeParse s = Except.error e1 → b s = Except.error e2 →
      I.predicateParse s = Except.ok o →
      ParseObject I s b = Except.ok (NewPredicateObject (some o))) ∧
    (∀ e1 e2 e3, I.nodeParse s = Except.error e1 → b s = Except.error e2 →
      I.predicateParse s = Except.error e3 → ParseObject I s b = Except.error e3) := by
  refine ⟨?_, ?_, ?_, ?_⟩
  · intro n h; simp [ParseObject, h]
  · intro e1 l h1 h2; simp [ParseObject, h1, h2]
  · intro e1 e2 o h1 h2 h3; simp [ParseObject, h1, h2, h3]
  · intro e1 e2 e3 h1 h2 h3; simp [ParseObject, h1, h2, h3]

/-- C2: on the line `] "x> "` both boundary patterns match, the second before
the first, and `ParseTriple` slices `raw[6:1]`: it panics where the claim has
it return an error. -/
theorem ParseTriple_faults_on_swapped_boundaries (I : Packages N P L T)
    (b : List Char → Except String L) :
    pSplit "] \"x> \"".toList = some (4, 7) ∧ oSplit "] \"x> \"".toList = some (0, 3) ∧
    ParseTriple asciiTables I "] \"x> \"".toList b = none := by
  refine ⟨by decide, by decide, ?_⟩
  rfl

/-- In its immutable branch `rp` names the new predicate after `p` and
dereferences the time anchor of `p`. -/
theorem rp_immutable (I : Packages N P L T) (id : String) (p : P)
    (h : I.Typ p = PredicateType.Immutable) :
    rp I id p = (I.TimeAnchor p).map fun ta => I.NewTemporal (I.ID p) ta := by
  cases hta : I.TimeAnchor p <;> simp [rp, h, hta]

/-- In its other branch `rp` builds the immutable predicate named `id`. -/
theorem rp_temporal (I : Packages N P L T) (id : String) (p : P)
    (h : I.Typ p ≠ PredicateType.Immutable) : rp I id p = some (I.NewImmutable id) := by
  simp [rp, h]

/-- C3: when the object of `t` has exactly one variant populated and `Reify`
completes, it returns the blank node `b` and four triples: `t` itself, then
three triples of subject `b` whose objects are the node object of the
subject of `t`, the predicate object of its predicate, and an object with the
variant and value of its object. -/
theorem Reify_four_triples (I : Packages N P L T) (b : N) (t : Triple N P L)
    (res : List (Option (Triple N P L))) (b1 : N) (hone : t.o.variants = 1)
    (h : Reify I b t = some (res, b1)) :
    b1 = b ∧ ∃ t1 t2 t3, res = [some t, some t1, some t2, some t3] ∧
      t1.s = b ∧ t2.s = b ∧ t3.s = b ∧
      t1.o = NewNodeObject (some t.s) ∧ t2.o = NewPredicateObject (some t.p) ∧
      t3.o = t.o := by
  obtain ⟨s, p, ⟨n, q, l⟩⟩ := t
  have key : ∀ id, rp I id p = none ∨ ∃ r, rp I id p = some r := by
    intro id; cases rp I id p <;> simp
  rcases key "_subject" with h1 | ⟨r1, h1⟩
  · simp [Reify, h1] at h
  rcases key "_predicate" with h2 | ⟨r2, h2⟩
  · simp [Reify, h1, h2] at h
  rcases key "_object" with h3 | ⟨r3, h3⟩
  · cases n <;> cases q <;> cases l <;>
      simp [Object.variants] at hone <;>
      simp [Reify, h1, h2, h3] at h
  · cases n <;> cases q <;> cases l <;>
      simp [Object.variants] at hone <;>
      simp [Reify, h1, h2, h3, NewTriple, orNil, NewNodeObject, NewPredicateObject,
        NewLiteralObject] at h ⊢ <;>
      (obtain ⟨rfl, rfl⟩ := h
       exact ⟨rfl, _, _, _, rfl, rfl, rfl, rfl, rfl, rfl, rfl⟩)

/-- The witness of C3: a triple with a temporal predicate and a node object. -/
theorem Reify_four_triples_witness :
    (NewNodeObject (some "/u<mary>".toList) :
        Object (List Char) SpecPredicate (List Char)).variants = 1 ∧
    ∃ t1 t2 t3 : Triple (List Char) SpecPredicate (List Char),
      [some { s := "/u<john>".toList, p := { ID := "knows", anchor := some "2015" },
              o := NewNodeObject (some "/u<mary>".toList) },
       some { s := "/_<b1>".toList, p := { ID := "_subject", anchor := none },
              o := NewNodeObject (some "/u<john>".toList) },
       some { s := "/_<b1>".toList, p := { ID := "_predicate", anchor := none },
              o := NewPredicateObject (some { ID := "knows", anchor := some "2015" }) },
       some { s := "/_<b1>".toList, p := { ID := "_object", anchor := none },
              o := NewNodeObject (some "/u<mary>".toList) }] =
        [some { s := "/u<john>".toList, p := { ID := "knows", anchor := some "2015" },
                o := NewNodeObject (some "/u<mary>".toList) }, some t1, some t2, some t3] ∧
      t1.s = "/_<b1>".toList ∧ t2.s = "/_<b1>".toList ∧ t3.s = "/_<b1>".toList ∧
      t1.o = NewNodeObject (some "/u<john>".toList) ∧
      t2.o = NewPredicateObject (some { ID := "knows", anchor := some "2015" }) ∧
      t3.o = NewNodeObject (some "/u<mary>".toList) :=
  ⟨by decide,
   (Reify_four_triples specPackages "/_<b1>".toList
      { s := "/u<john>".toList, p := { ID := "knows", anchor := some "2015" },
        o := NewNodeObject (some "/u<mary>".toList) } _ "/_<b1>".toList (by decide)
      (by decide)).2⟩

/-- C4: `Reify` on the triple of subject `/u<john>`, immutable predicate
`"knows"@[]` and object `/u<mary>` dereferences the time anchor the predicate
does not have and panics; and whenever an immutable predicate does have an
anchor, `rp` names the temporal predicate after `p`, not after `id`. -/
theorem Reify_immutable_faults :
    specPredicateParse "\"knows\"@[]".toList = Except.ok { ID := "knows", anchor := none } ∧
    specPackages.Typ { ID := "knows", anchor := none } = PredicateType.Immutable ∧
    Reify specPackages "/_<b1>".toList
      { s := "/u<john>".toList, p := { ID := "knows", anchor := none },
        o := NewNodeObject (some "/u<mary>".toList) } = none ∧
    ∀ (I : Packages N P L T) (id : String) (p : P) (ta : T),
      I.Typ p = PredicateType.Immutable → I.TimeAnchor p = some ta →
      rp I id p = some (I.NewTemporal (I.ID p) ta) := by
  refine ⟨rfl, by decide, by decide, ?_⟩
  intro I id p ta h hta
  simp [rp_immutable I id p h, hta]

/-- C5: for a triple whose predicate is not of the immutable kind, `Reify`
returns the triple, then the triples of the immutable predicates `_subject` and
`_predicate`, then a fourth entry that, whenever the object of the triple has a
variant populated, is a triple of the immutable predicate `_object`; the
identifier and time anchor of `p` play no part. -/
theorem Reify_temporal_predicates (I : Packages N P L T) (b : N) (t : Triple N P L)
    (h : I.Typ t.p ≠ PredicateType.Immutable) :
    ∃ t4,
      Reify I b t =
        some ([some t,
               some { s := b, p := I.NewImmutable "_subject", o := NewNodeObject (some t.s) },
               some { s := b, p := I.NewImmutable "_predicate",
                      o := NewPredicateObject (some t.p) },
               t4], b) ∧
      (∀ x, t4 = some x → x.s = b ∧ x.p = I.NewImmutable "_object") ∧
      (t4 = none ↔ t.o.variants = 0) := by
  obtain ⟨s, p, ⟨n, q, l⟩⟩ := t
  have hrp := rp_temporal I
  cases n <;> cases q <;> cases l <;>
    simp [Reify, hrp _ p h, NewTriple, orNil, Object.variants]

/-- The witness of C5: a triple with a temporal predicate and a literal
object. -/
theorem Reify_temporal_predicates_witness :
    specPackages.Typ { ID := "knows", anchor := some "2015" } ≠ PredicateType.Immutable ∧
    ∃ t4,
      Reify specPackages "/_<b1>".toList
          { s := "/u<john>".toList, p := { ID := "knows", anchor := some "2015" },
            o := NewLiteralObject (some "\"1\"^^type:int64".toList) } =
        some ([some { s := "/u<john>".toList, p := { ID := "knows", anchor := some "2015" },
                      o := NewLiteralObject (some "\"1\"^^type:int64".toList) },
               some { s := "/_<b1>".toList, p := specPackages.NewImmutable "_subject",
                      o := NewNodeObject (some "/u<john>".toList) },
               some { s := "/_<b1>".toList, p := specPackages.NewImmutable "_predicate",
                      o := NewPredicateObject (some { ID := "knows", anchor := some "2015" }) },
               t4], "/_<b1>".toList) ∧
      (∀ x, t4 = some x → x.s = "/_<b1>".toList ∧ x.p = specPackages.NewImmutable "_object") ∧
      (t4 = none ↔
        (NewLiteralObject (some "\"1\"^^type:int64".toList) :
          Object (List Char) SpecPredicate (List Char)).variants = 0) :=
  ⟨by decide,
   Reify_temporal_predicates specPackages "/_<b1>".toList
     { s := "/u<john>".toList, p := { ID := "knows", anchor := some "2015" },
       o := NewLiteralObject (some "\"1\"^^type:int64".toList) } (by decide)⟩

/-- The leftmost match: when no match starts before offset `k` and one of
length `n` starts there, `FindIndex` returns it. -/
theorem FindIndex_first (m : List Char → Option Nat) (n : Nat) :
    ∀ (k : Nat) (l : List Char) (j : Nat), (∀ i, i < k → m (l.drop i) = none) →
      m (l.drop k) = some n → k < l.length → FindIndex m j l = some (j + k, j + k + n)
  | 0, l, j, _, hk, hlen => by
    cases l with
    | nil => simp at hlen
    | cons c s =>
      simp only [List.drop_zero] at hk
      simp [FindIndex, hk]
  | k + 1, l, j, hlt, hk, hlen => by
    cases l with
    | nil => simp at hlen
    | cons c s =>
      have h0 := hlt 0 (by omega)
      simp only [List.drop_zero] at h0
      have ih := FindIndex_first m n k s (j + 1)
        (fun i hi => by simpa using hlt (i + 1) (by omega)) (by simpa using hk)
        (by simpa using hlen)
      simp only [FindIndex, h0, ih]
      simp only [Option.some.injEq, Prod.mk.injEq]
      omega

/-- A boundary: `first`, a run of white space, then a rune of `last`. -/
theorem matchHere_boundary (first d : Char) (last : Char → Bool) (w rest : List Char)
    (hw : w ≠ []) (hws : ∀ c ∈ w, reSpace c = true) (hd : last d = true)
    (hds : reSpace d = false) :
    matchHere first last (first :: (w ++ d :: rest)) = some (w.length + 2) := by
  cases w with
  | nil => exact absurd rfl hw
  | cons c w1 =>
    have hc : reSpace c = true := hws c (List.mem_cons_self _ _)
    have hw1 : ∀ a ∈ w1, reSpace a = true := fun a ha => hws a (List.mem_cons_of_mem _ ha)
    have hdrop : (w1 ++ d :: rest).dropWhile reSpace = d :: rest := by
      rw [List.dropWhile_append_of_pos hw1]
      exact List.dropWhile_cons_of_neg (by simp [hds])
    have htake : (w1 ++ d :: rest).takeWhile reSpace = w1 := by
      rw [List.takeWhile_append_of_pos hw1]
      simp [List.takeWhile_cons, hds]
    simp only [List.cons_append, matchHere, hc, and_self, if_true, hdrop, htake, hd,
      List.length_cons]

/-- A text that neither starts nor ends with a space is left as it is by
`TrimSpace`. -/
theorem TrimSpace_eq_self (U : Unicode) (l : List Char)
    (hh : ∀ c, l.head? = some c → U.IsSpace c = false)
    (hl : ∀ c, l.getLast? = some c → U.IsSpace c = false) : TrimSpace U l = l := by
  have h1 : l.dropWhile U.IsSpace = l := by
    cases l with
    | nil => rfl
    | cons c s => exact List.dropWhile_cons_of_neg (by simp [hh c rfl])
  have h2 : l.reverse.dropWhile U.IsSpace = l.reverse := by
    cases hr : l.reverse with
    | nil => rfl
    | cons c s =>
      have : l.getLast? = some c := by
        rw [← List.head?_reverse, hr]; rfl
      exact List.dropWhile_cons_of_neg (by simp [hl c this])
  simp [TrimSpace, h1, h2]

/-- The last rune of a text that ends in a non-empty text. -/
theorem getLast?_append_cons (l : List Char) (d : Char) (s : List Char) :
    (l ++ d :: s).getLast? = (d :: s).getLast? := by
  rw [List.getLast?_append]
  cases h : (d :: s).getLast? with
  | none => simp at h
  | some x => rfl

/-- The slice that cuts the middle of three texts. -/
theorem sliceOf_middle (a m z : List Char) (lo hi : Nat) (hlo : lo = a.length)
    (hhi : hi = a.length + m.length) : sliceOf (a ++ (m ++ z)) lo hi = some m := by
  subst hlo hhi
  have h1 : (a ++ (m ++ z)).take (a.length + m.length) = a ++ m := by
    rw [← List.append_assoc]
    exact List.take_left' (by simp)
  simp [sliceOf, slice, h1]

/-- The split of `ParseTriple` on a line made of a subject text that ends in
`>`, a predicate text between a quote and `]`, an object text that starts
with `d`, and two runs of white space, when the first match of each boundary
pattern is the run after the subject text and the run after the predicate
text: the three texts are handed to the grammars. -/
theorem ParseTriple_split_aux (U : Unicode) (I : Packages N P L T)
    (b : List Char → Except String L) (ss1 sp3 so1 w1 w2 : List Char) (d : Char)
    (hw1 : w1 ≠ [] ∧ ∀ c ∈ w1, reSpace c = true)
    (hw2 : w2 ≠ [] ∧ ∀ c ∈ w2, reSpace c = true)
    (hd : d = '/' ∨ d = '"')
    (htl : ∀ c, (ss1 ++ ['>']).head? = some c → U.IsSpace c = false)
    (htr : ∀ c, (d :: so1).getLast? = some c → U.IsSpace c = false)
    (hA : ∀ i, i < ss1.length →
      matchHere '>' (fun d => d == '"')
        ((ss1 ++ '>' :: (w1 ++ '"' :: (sp3 ++ ']' :: (w2 ++ d :: so1)))).drop i) = none)
    (hB : ∀ i, i < ss1.length + 1 + w1.length + 1 + sp3.length →
      matchHere ']' (fun d => d == '/' || d == '"')
        ((ss1 ++ '>' :: (w1 ++ '"' :: (sp3 ++ ']' :: (w2 ++ d :: so1)))).drop i) = none) :
    ParseTriple U I (ss1 ++ '>' :: (w1 ++ '"' :: (sp3 ++ ']' :: (w2 ++ d :: so1)))) b =
      match I.nodeParse (ss1 ++ ['>']) with
      | Except.error err =>
        some (Except.error ("triple.Parse failed to parse subject " ++
          String.mk (ss1 ++ ['>']) ++ " with error " ++ err))
      | Except.ok s =>
        match I.predicateParse ('"' :: (sp3 ++ [']'])) with
        | Except.error err =>
          some (Except.error ("triple.Parse failed to parse predicate " ++
            String.mk ('"' :: (sp3 ++ [']'])) ++ " with error " ++ err))
        | Except.ok p =>
          match ParseObject I (d :: so1) b with
          | Except.error err =>
            some (Except.error ("triple.Parse failed to parse object " ++
              String.mk (d :: so1) ++ " with error " ++ err))
          | Except.ok o => some (Except.ok { s := s, p := p, o := o }) := by
  have hraw : TrimSpace U (ss1 ++ '>' :: (w1 ++ '"' :: (sp3 ++ ']' :: (w2 ++ d :: so1)))) =
      ss1 ++ '>' :: (w1 ++ '"' :: (sp3 ++ ']' :: (w2 ++ d :: so1))) := by
    apply TrimSpace_eq_self
    · intro c hc
      apply htl c
      cases ss1 <;> simpa using hc
    · intro c hc
      apply htr c
      rw [← hc]
      have e : ss1 ++ '>' :: (w1 ++ '"' :: (sp3 ++ ']' :: (w2 ++ d :: so1))) =
          (ss1 ++ '>' :: (w1 ++ '"' :: (sp3 ++ ']' :: w2))) ++ d :: so1 := by simp
      rw [e, getLast?_append_cons]
  have hp : pSplit (ss1 ++ '>' :: (w1 ++ '"' :: (sp3 ++ ']' :: (w2 ++ d :: so1)))) =
      some (ss1.length, ss1.length + (w1.length + 2)) := by
    have := FindIndex_first (matchHere '>' (fun d => d == '"')) (w1.length + 2) ss1.length
      (ss1 ++ '>' :: (w1 ++ '"' :: (sp3 ++ ']' :: (w2 ++ d :: so1)))) 0 hA
      (by
        rw [List.drop_left]
        exact matchHere_boundary '>' '"' _ w1 _ hw1.1 hw1.2 (by decide) (by decide))
      (by simp)
    simpa [pSplit] using this
  have ho : oSplit (ss1 ++ '>' :: (w1 ++ '"' :: (sp3 ++ ']' :: (w2 ++ d :: so1)))) =
      some (ss1.length + 1 + w1.length + 1 + sp3.length,
        ss1.length + 1 + w1.length + 1 + sp3.length + (w2.length + 2)) := by
    have e : ss1 ++ '>' :: (w1 ++ '"' :: (sp3 ++ ']' :: (w2 ++ d :: so1))) =
        (ss1 ++ '>' :: (w1 ++ '"' :: sp3)) ++ ']' :: (w2 ++ d :: so1) := by simp
    have := FindIndex_first (matchHere ']' (fun d => d == '/' || d == '"')) (w2.length + 2)
      (ss1.length + 1 + w1.length + 1 + sp3.length)
      (ss1 ++ '>' :: (w1 ++ '"' :: (sp3 ++ ']' :: (w2 ++ d :: so1)))) 0 hB
      (by
        rw [e, List.drop_left' (by simp; omega)]
        refine matchHere_boundary ']' d _ w2 _ hw2.1 hw2.2 ?_ ?_
        · rcases hd with rfl | rfl <;> decide
        · rcases hd with rfl | rfl <;> decide)
      (by simp; omega)
    simpa [oSplit] using this
  have hs1 : sliceOf (ss1 ++ '>' :: (w1 ++ '"' :: (sp3 ++ ']' :: (w2 ++ d :: so1)))) 0
      (ss1.length + 1) = some (ss1 ++ ['>']) := by
    have := sliceOf_middle [] (ss1 ++ ['>']) (w1 ++ '"' :: (sp3 ++ ']' :: (w2 ++ d :: so1)))
      0 (ss1.length + 1) rfl (by simp)
    simpa using this
  have hs2 : sliceOf (ss1 ++ '>' :: (w1 ++ '"' :: (sp3 ++ ']' :: (w2 ++ d :: so1))))
      (ss1.length + (w1.length + 2) - 1) (ss1.length + 1 + w1.length + 1 + sp3.length + 1) =
      some ('"' :: (sp3 ++ [']'])) := by
    have := sliceOf_middle (ss1 ++ '>' :: w1) ('"' :: (sp3 ++ [']'])) (w2 ++ d :: so1)
      (ss1.length + (w1.length + 2) - 1) (ss1.length + 1 + w1.length + 1 + sp3.length + 1)
      (by simp only [List.length_append, List.length_cons]; omega)
      (by simp only [List.length_append, List.length_cons, List.length_nil]; omega)
    simpa using this
  have hs3 : sliceOf (ss1 ++ '>' :: (w1 ++ '"' :: (sp3 ++ ']' :: (w2 ++ d :: so1))))
      (ss1.length + 1 + w1.length + 1 + sp3.length + (w2.length + 2) - 1)
      (ss1 ++ '>' :: (w1 ++ '"' :: (sp3 ++ ']' :: (w2 ++ d :: so1)))).length =
      some (d :: so1) := by
    have := sliceOf_middle (ss1 ++ '>' :: (w1 ++ '"' :: (sp3 ++ ']' :: w2))) (d :: so1) []
      (ss1.length + 1 + w1.length + 1 + sp3.length + (w2.length + 2) - 1)
      (ss1 ++ '>' :: (w1 ++ '"' :: (sp3 ++ ']' :: (w2 ++ d :: so1)))).length
      (by simp only [List.length_append, List.length_cons]; omega)
      (by simp only [List.length_append, List.length_cons]; omega)
    simpa using this
  simp only [ParseTriple, hraw, hp, ho, hs1, hs2, hs3]
  cases I.nodeParse (ss1 ++ ['>']) with
  | error e => rfl
  | ok s =>
    cases I.predicateParse ('"' :: (sp3 ++ [']'])) with
    | error e => rfl
    | ok p =>
      cases ParseObject I (d :: so1) b with
      | error e => rfl
      | ok o => rfl

/-- The counterexample of C8: the subject `/u<john>`, the predicate
`"a] /b"@[]` and the object `/u<mary>` are accepted by their grammars and make
up the text of a triple, but boundary B first matches inside the predicate
and `ParseTriple` fails on the predicate segment `"a]`. -/
theorem ParseTriple_round_trip_fails :
    specNodeParse "/u<john>".toList = Except.ok "/u<john>".toList ∧
    specPredicateParse "\"a] /b\"@[]".toList = Except.ok { ID := "a] /b", anchor := none } ∧
    ParseObject specPackages "/u<mary>".toList specLiteralParse =
      Except.ok (NewNodeObject (some "/u<mary>".toList)) ∧
    Triple.String specPackages
        { s := "/u<john>".toList, p := { ID := "a] /b", anchor := none },
          o := NewNodeObject (some "/u<mary>".toList) } =
      "/u<john>\t\"a] /b\"@[]\t/u<mary>".toList ∧
    ParseTriple asciiTables specPackages "/u<john>\t\"a] /b\"@[]\t/u<mary>".toList
        specLiteralParse =
      some (Except.error ("triple.Parse failed to parse predicate \"a] with error " ++
        "predicate.Parse: no time anchor in \"a]")) :=
  ⟨rfl, rfl, rfl, by decide, rfl⟩

/-- C8, amended: a line made of a subject text that ends in `>`, white space,
a predicate text that starts with a quote and ends in `]`, white space, and an
object text that starts with `/` or a quote, each text accepted by its
grammar, the line neither starting nor ending with a space, is parsed into the
triple of the three values the grammars return, provided no match of boundary
A starts before the last rune of the subject text and no match of boundary B
starts before the last rune of the predicate text. So the text `String` gives
for a triple whose components parse back to themselves, under the same
proviso, is parsed into that triple. -/
theorem ParseTriple_round_trip (U : Unicode) (I : Packages N P L T)
    (b : List Char → Except String L) (ss sp so w1 w2 : List Char) (s : N) (p : P)
    (o : Object N P L)
    (hs : I.nodeParse ss = Except.ok s) (hp : I.predicateParse sp = Except.ok p)
    (ho : ParseObject I so b = Except.ok o)
    (hw1 : w1 ≠ [] ∧ ∀ c ∈ w1, reSpace c = true)
    (hw2 : w2 ≠ [] ∧ ∀ c ∈ w2, reSpace c = true)
    (hss : ss.getLast? = some '>') (hsp1 : sp.head? = some '"')
    (hsp2 : sp.getLast? = some ']') (hso : so.head? = some '/' ∨ so.head? = some '"')
    (htl : ∀ c, ss.head? = some c → U.IsSpace c = false)
    (htr : ∀ c, so.getLast? = some c → U.IsSpace c = false)
    (hA : ∀ i, i < ss.length - 1 →
      matchHere '>' (fun d => d == '"') ((ss ++ (w1 ++ (sp ++ (w2 ++ so)))).drop i) = none)
    (hB : ∀ i, i < ss.length + w1.length + sp.length - 1 →
      matchHere ']' (fun d => d == '/' || d == '"')
        ((ss ++ (w1 ++ (sp ++ (w2 ++ so)))).drop i) = none) :
    ParseTriple U I (ss ++ (w1 ++ (sp ++ (w2 ++ so)))) b =
        some (Except.ok { s := s, p := p, o := o }) ∧
    ∀ t : Triple N P L, ss = I.nodeString t.s → sp = I.predicateString t.p →
      so = Object.String I t.o → w1 = ['\t'] → w2 = ['\t'] → s = t.s → p = t.p → o = t.o →
      ParseTriple U I (Triple.String I t) b = some (Except.ok t) := by
  have main : ParseTriple U I (ss ++ (w1 ++ (sp ++ (w2 ++ so)))) b =
      some (Except.ok { s := s, p := p, o := o }) := by
    obtain ⟨ss1, rfl⟩ := List.getLast?_eq_some_iff.mp hss
    obtain ⟨sp1, rfl⟩ := List.getLast?_eq_some_iff.mp hsp2
    obtain ⟨d, so1, rfl, hd⟩ : ∃ d so1, so = d :: so1 ∧ (d = '/' ∨ d = '"') := by
      cases so with
      | nil => simp at hso
      | cons d so1 => exact ⟨d, so1, rfl, by simpa using hso⟩
    obtain ⟨sp3, rfl⟩ : ∃ sp3, sp1 = '"' :: sp3 := by
      cases sp1 with
      | nil => simp at hsp1
      | cons c sp3 => exact ⟨sp3, by simp at hsp1; simp [hsp1]⟩
    have e : ss1 ++ ['>'] ++ (w1 ++ ('"' :: sp3 ++ [']'] ++ (w2 ++ d :: so1))) =
        ss1 ++ '>' :: (w1 ++ '"' :: (sp3 ++ ']' :: (w2 ++ d :: so1))) := by simp
    rw [e] at hA hB ⊢
    have l1 : (ss1 ++ ['>']).length - 1 = ss1.length := by simp
    have l2 : (ss1 ++ ['>']).length + w1.length + ('"' :: sp3 ++ [']']).length - 1 =
        ss1.length + 1 + w1.length + 1 + sp3.length := by
      simp only [List.length_append, List.length_cons, List.length_nil]
      omega
    rw [l1] at hA
    rw [l2] at hB
    have aux := ParseTriple_split_aux U I b ss1 sp3 so1 w1 w2 d hw1 hw2 hd htl htr hA hB
    have hp1 : I.predicateParse ('"' :: (sp3 ++ [']'])) = Except.ok p := by simpa using hp
    rw [aux, hs, hp1, ho]
  refine ⟨main, ?_⟩
  intro t e1 e2 e3 e4 e5 e6 e7 e8
  subst e1 e2 e3 e4 e5 e6 e7 e8
  have : Triple.String I t =
      I.nodeString t.s ++ (['\t'] ++ (I.predicateString t.p ++ (['\t'] ++
        Object.String I t.o))) := by
    simp [Triple.String]
  rw [this]
  exact main

/-- The witness of C8: the text of the triple of `/u<john>`, `"knows"@[2015]`
and `/u<mary>`. -/
theorem ParseTriple_round_trip_witness :
    ParseTriple asciiTables specPackages
        ("/u<john>".toList ++ (['\t'] ++ ("\"knows\"@[2015]".toList ++ (['\t'] ++
          "/u<mary>".toList)))) specLiteralParse =
      some (Except.ok { s := "/u<john>".toList, p := { ID := "knows", anchor := some "2015" },
                        o := NewNodeObject (some "/u<mary>".toList) }) :=
  (ParseTriple_round_trip asciiTables specPackages specLiteralParse "/u<john>".toList
    "\"knows\"@[2015]".toList "/u<mary>".toList ['\t'] ['\t'] "/u<john>".toList
    { ID := "knows", anchor := some "2015" } (NewNodeObject (some "/u<mary>".toList))
    rfl rfl rfl (by decide) (by decide) (by decide) (by decide) (by decide) (by decide)
    (by decide) (by decide) (by decide) (by decide)).1

end Triples

end Badwolf

namespace Badwolf

open TokenType

section Scanner

/-! ### The methods of the scanner -/

theorem next_snd (l : lexer) : l.next.2 = l.input[l.pos]? := by
  unfold lexer.next
  cases h : l.input[l.pos]? with
  | none => rfl
  | some r => by_cases hr : r = newLine <;> simp [hr]

theorem next_input (l : lexer) : l.next.1.input = l.input := by
  unfold lexer.next
  cases h : l.input[l.pos]? with
  | none => rfl
  | some r => by_cases hr : r = newLine <;> simp [hr]

theorem next_start (l : lexer) : l.next.1.start = l.start := by
  unfold lexer.next
  cases h : l.input[l.pos]? with
  | none => rfl
  | some r => by_cases hr : r = newLine <;> simp [hr]

theorem next_tokens (l : lexer) : l.next.1.tokens = l.tokens := by
  unfold lexer.next
  cases h : l.input[l.pos]? with
  | none => rfl
  | some r => by_cases hr : r = newLine <;> simp [hr]

/-- After `next` at end of input nothing moved and `width` is 0. -/
theorem next_pos_of_none (l : lexer) (h : l.input[l.pos]? = none) :
    l.next.1.pos = l.pos ∧ l.next.1.width = 0 := by
  unfold lexer.next
  simp [h]

/-- After `next` read a rune the position moved by 1 and `width` is 1. -/
theorem next_pos_of_some (l : lexer) (c : Char) (h : l.input[l.pos]? = some c) :
    l.next.1.pos = l.pos + 1 ∧ l.next.1.width = 1 := by
  unfold lexer.next
  by_cases hr : c = newLine <;> simp [h, hr]

theorem peek_snd (l : lexer) : l.peek.2 = l.input[l.pos]? := next_snd l

theorem peek_input (l : lexer) : l.peek.1.input = l.input := next_input l

theorem peek_start (l : lexer) : l.peek.1.start = l.start := next_start l

theorem peek_tokens (l : lexer) : l.peek.1.tokens = l.tokens := next_tokens l

theorem peek_pos (l : lexer) : l.peek.1.pos = l.pos := by
  show l.next.1.pos - l.next.1.width = l.pos
  cases h : l.input[l.pos]? with
  | none => simp [next_pos_of_none l h]
  | some c => simp [next_pos_of_some l c h]

theorem backup_input (l : lexer) : l.backup.input = l.input := rfl

theorem backup_start (l : lexer) : l.backup.start = l.start := rfl

theorem backup_tokens (l : lexer) : l.backup.tokens = l.tokens := rfl

theorem backup_pos (l : lexer) : l.backup.pos = l.pos - l.width := rfl

/-- The text from `pos` on starts with the rune `next` returns. -/
theorem drop_pos_of_some (l : lexer) (c : Char) (h : l.input[l.pos]? = some c) :
    l.input.drop l.pos = c :: l.input.drop (l.pos + 1) := by
  obtain ⟨hlt, hc⟩ := List.getElem?_eq_some_iff.mp h
  rw [List.drop_eq_getElem_cons hlt, hc]

theorem drop_pos_of_none (l : lexer) (h : l.input[l.pos]? = none) :
    l.input.drop l.pos = [] := by
  rw [List.getElem?_eq_none_iff] at h
  exact List.drop_eq_nil_of_le h

/-- The loop `nextUntil`, for a test that stops at end of input and enough
fuel: it reads the runes that do not stop it and the first rune that does, or
end of input. -/
theorem nextUntil_spec (stop : rune → Bool) (hstop : stop none = true) :
    ∀ (n : Nat) (l : lexer), l.input.length - l.pos < n →
      ∃ l1, lexer.nextUntil stop n l =
          some (l1, l.input[l.pos +
            ((l.input.drop l.pos).takeWhile fun c => !stop (some c)).length]?) ∧
        l1.input = l.input ∧ l1.start = l.start ∧ l1.tokens = l.tokens ∧
        l1.pos = l.pos +
          ((l.input.drop l.pos).takeWhile fun c => !stop (some c)).length + l1.width ∧
        l1.width ≤ 1 ∧
        (l1.width = 1 ↔ l.pos +
          ((l.input.drop l.pos).takeWhile fun c => !stop (some c)).length < l.input.length) ∧
        stop (l.input[l.pos +
          ((l.input.drop l.pos).takeWhile fun c => !stop (some c)).length]?) = true
  | 0, l, h => by omega
  | n + 1, l, h => by
    cases hc : l.input[l.pos]? with
    | none =>
      have hd := drop_pos_of_none l hc
      have hp := next_pos_of_none l hc
      have hlen : l.input.length ≤ l.pos := List.getElem?_eq_none_iff.mp hc
      refine ⟨l.next.1, ?_, next_input l, next_start l, next_tokens l, ?_, ?_, ?_, ?_⟩
      · simp only [lexer.nextUntil, next_snd, hc, hstop, if_true, hd, List.takeWhile_nil,
          List.length_nil, Nat.add_zero]
        rw [← hc, ← next_snd]
      · simp [hd, hp]
      · simp [hp]
      · simp [hd, hp]; omega
      · simp [hd, hc, hstop]
    | some c =>
      have hd := drop_pos_of_some l c hc
      have hp := next_pos_of_some l c hc
      have hlen : l.pos < l.input.length := (List.getElem?_eq_some_iff.mp hc).1
      by_cases hs : stop (some c) = true
      · refine ⟨l.next.1, ?_, next_input l, next_start l, next_tokens l, ?_, ?_, ?_, ?_⟩
        · simp only [lexer.nextUntil, next_snd, hc, hs, if_true, hd, List.takeWhile_cons,
            Bool.not_true, Bool.false_eq_true, if_false, List.length_nil, Nat.add_zero]
          rw [← hc, ← next_snd]
        · simp [hd, hs, hp]
        · simp [hp]
        · simp [hd, hs, hp, hlen]
        · simp [hd, hs, hc]
      · have hs1 : stop (some c) = false := by simpa using hs
        have ih := nextUntil_spec stop hstop n l.next.1
          (by rw [next_input, hp.1]; omega)
        rw [next_input, next_start, next_tokens, hp.1] at ih
        obtain ⟨l1, h1, h2, h3, h4, h5, h6, h7, h8⟩ := ih
        have hk : ((l.input.drop l.pos).takeWhile fun c => !stop (some c)).length =
            ((l.input.drop (l.pos + 1)).takeWhile fun c => !stop (some c)).length + 1 := by
          rw [hd]; simp [List.takeWhile_cons, hs1]
        have hidx : l.pos + (((l.input.drop (l.pos + 1)).takeWhile
            fun c => !stop (some c)).length + 1) = l.pos + 1 +
            ((l.input.drop (l.pos + 1)).takeWhile fun c => !stop (some c)).length := by
          omega
        refine ⟨l1, ?_, h2, h3, h4, ?_, h6, ?_, ?_⟩
        · simp only [lexer.nextUntil, next_snd, hc, hs1, Bool.false_eq_true, if_false]
          rw [h1, hk, hidx]
        · rw [hk, hidx]; exact h5
        · rw [hk, hidx]; exact h7
        · rw [hk, hidx]; exact h8

theorem emit_input (l : lexer) (t : TokenType) : (l.emit t).input = l.input := rfl

theorem emit_pos (l : lexer) (t : TokenType) : (l.emit t).pos = l.pos := rfl

theorem emitError_input (l : lexer) (msg : String) : (l.emitError msg).input = l.input := rfl

/-- The method `emit` sends one token of the given type. -/
theorem emit_sends (l : lexer) (ty : TokenType) :
    ∃ t, (l.emit ty).tokens = l.tokens ++ [t] ∧ t.Typ = ty := ⟨_, rfl, rfl⟩

/-- The method `emitError` sends one `ERROR` token. -/
theorem emitError_sends (l : lexer) (msg : String) :
    ∃ t, (l.emitError msg).tokens = l.tokens ++ [t] ∧ t.Typ = ItemError := ⟨_, rfl, rfl⟩

theorem emitError_pos (l : lexer) (msg : String) : (l.emitError msg).pos = l.pos := rfl

/-- The scanner after `accept`: further on by one rune when it accepted, where
it was when it did not. -/
theorem accept_spec (U : Unicode) (l : lexer) (r : Char) :
    (l.accept U r).1.input = l.input ∧ (l.accept U r).1.tokens = l.tokens ∧
    (l.accept U r).1.start = l.start ∧ l.pos ≤ (l.accept U r).1.pos ∧
    ((l.accept U r).2 = true → l.pos < l.input.length ∧ l.pos < (l.accept U r).1.pos) := by
  unfold lexer.accept
  by_cases h : U.toLower l.next.2 = some (U.ToLower r)
  · simp only [h, if_true, next_input, next_tokens, next_start, true_and]
    cases hc : l.input[l.pos]? with
    | none => rw [next_snd, hc] at h; simp [Unicode.toLower] at h
    | some c =>
      have hp := next_pos_of_some l c hc
      have hlen : l.pos < l.input.length := (List.getElem?_eq_some_iff.mp hc).1
      rw [hp.1]
      exact ⟨by omega, fun _ => ⟨hlen, by omega⟩⟩
  · simp only [h, if_false]
    refine ⟨peek_input l, peek_tokens l, peek_start l, ?_, ?_⟩
    · exact Nat.le_of_eq (peek_pos l).symm
    · intro hf; simp at hf

/-- The scanner after `consume`: not before where it was, and further on when
a text that is not empty was consumed. -/
theorem consume_spec (U : Unicode) :
    ∀ (text : List Char) (l : lexer),
      (l.consume U text).1.input = l.input ∧ (l.consume U text).1.tokens = l.tokens ∧
      (l.consume U text).1.start = l.start ∧ l.pos ≤ (l.consume U text).1.pos ∧
      ((l.consume U text).2 = true → text ≠ [] →
        l.pos < l.input.length ∧ l.pos < (l.consume U text).1.pos)
  | [], l => by simp [lexer.consume]
  | c :: cs, l => by
    obtain ⟨a1, a2, a3, a4, a5⟩ := accept_spec U l c
    unfold lexer.consume
    by_cases h : (l.accept U c).2 = true
    · obtain ⟨b1, b2, b3, b4, _⟩ := consume_spec U cs (l.accept U c).1
      simp only [h, if_true]
      refine ⟨by rw [b1, a1], by rw [b2, a2], by rw [b3, a3], by omega, ?_⟩
      intro _ _
      have := a5 h
      exact ⟨this.1, by omega⟩
    · simp only [h, Bool.false_eq_true, if_false]
      exact ⟨a1, a2, a3, a4, fun hf => by simp at hf⟩

end Scanner

end Badwolf

namespace Badwolf

open TokenType

section States

theorem fuel_enough (l : lexer) : l.input.length - l.pos < l.fuel := by
  unfold lexer.fuel; omega

/-- The state `lexSpace` sends nothing, does not move back, leaves no pending
text and returns `lexToken`. -/
theorem lexSpace_spec (U : Unicode) (l : lexer) :
    ∃ l1, lexSpace U l = some (l1, some StateFn.lexToken) ∧ l1.input = l.input ∧
      l1.tokens = l.tokens ∧ l.pos ≤ l1.pos ∧ l1.start = l1.pos := by
  obtain ⟨p, h1, h2, _, h4, h5, _, _, _⟩ :=
    nextUntil_spec (fun r => !U.isSpace r || r == eof) rfl l.fuel l (fuel_enough l)
  refine ⟨p.backup.ignore, ?_, h2, h4, ?_, rfl⟩
  · simp [lexSpace, h1]
  · show l.pos ≤ p.pos - p.width
    omega

/-- The loop shared by `lexBinding` and `consumeKeyword`: the scanner moves
over the letters at `pos` and sends them, with the pending text, as one
token. -/
theorem consumeKeyword_spec (U : Unicode) (l : lexer) (t : TokenType) :
    ∃ l1, consumeKeyword U l t = some l1 ∧ l1.input = l.input ∧
      l1.pos = l.pos + ((l.input.drop l.pos).takeWhile U.IsLetter).length ∧
      l1.tokens = l.tokens ++
        [{ Typ := t
           Text := slice l.input l.start
             (l.pos + ((l.input.drop l.pos).takeWhile U.IsLetter).length)
           ErrorMessage := "" }] := by
  obtain ⟨p, h1, h2, h3, h4, h5, _, _, _⟩ :=
    nextUntil_spec (fun r => !U.isLetter r || r == eof) rfl l.fuel l (fuel_enough l)
  have hk : (fun c => !(!U.isLetter (some c) || some c == eof)) = U.IsLetter := by
    funext c; simp [Unicode.isLetter, eof]
  rw [hk] at h1 h5
  have hpos : p.pos - p.width = l.pos + ((l.input.drop l.pos).takeWhile U.IsLetter).length := by
    omega
  refine ⟨p.backup.emit t, ?_, h2, hpos, ?_⟩
  · simp [consumeKeyword, h1]
  · simp only [lexer.emit, lexer.backup, h2, h3, h4, hpos]

/-- The state `lexBinding` moves over the letters at `pos`, sends them with
the pending text as one `BINDING` token and returns `lexSpace`. -/
theorem lexBinding_spec (U : Unicode) (l : lexer) :
    ∃ l1, lexBinding U l = some (l1, some StateFn.lexSpace) ∧ l1.input = l.input ∧
      l1.pos = l.pos + ((l.input.drop l.pos).takeWhile U.IsLetter).length ∧
      l1.tokens = l.tokens ++
        [{ Typ := ItemBinding
           Text := slice l.input l.start
             (l.pos + ((l.input.drop l.pos).takeWhile U.IsLetter).length)
           ErrorMessage := "" }] := by
  obtain ⟨l1, h1, h2, h3, h4⟩ := consumeKeyword_spec U l ItemBinding
  refine ⟨l1, ?_, h2, h3, h4⟩
  simp only [consumeKeyword, Option.map_eq_some'] at h1
  obtain ⟨p, hp, rfl⟩ := h1
  simp [lexBinding, hp]

/-- A keyword is not empty and its token type is neither terminal nor
`BINDING`. -/
theorem keywords_plain :
    ∀ kw ∈ keywords, kw.1 ≠ [] ∧ kw.2 ≠ ItemEOF ∧ kw.2 ≠ ItemError ∧ kw.2 ≠ ItemBinding := by
  decide

theorem EqualFold_nil (U : Unicode) (t : List Char) (h : EqualFold U [] t = true) : t = [] := by
  cases t with
  | nil => rfl
  | cons c t => simp [EqualFold] at h

/-- The state `lexKeyword` sends one keyword token and returns `lexSpace`
with less input left, or sends one `ERROR` token and returns nil. -/
theorem lexKeyword_spec (U : Unicode) (l : lexer) :
    ∃ l1 nxt, lexKeyword U l = some (l1, nxt) ∧ l1.input = l.input ∧
      ((nxt = none ∧ ∃ t, l1.tokens = l.tokens ++ [t] ∧ t.Typ = ItemError) ∨
       (nxt = some StateFn.lexSpace ∧
         (∃ t, l1.tokens = l.tokens ++ [t] ∧ t.Typ ≠ ItemEOF ∧ t.Typ ≠ ItemError ∧
           t.Typ ≠ ItemBinding) ∧
         l.input.length - l1.pos < l.input.length - l.pos)) := by
  cases hf : keywords.find? (fun kw => EqualFold U
      ((l.input.drop l.pos).takeWhile U.IsLetter) kw.1) with
  | some kw =>
    obtain ⟨l1, h1, h2, h3, h4⟩ := consumeKeyword_spec U l kw.2
    have hmem := List.mem_of_find?_eq_some hf
    have hfold := List.find?_some hf
    obtain ⟨k1, k2, k3, k4⟩ := keywords_plain kw hmem
    have hne : (l.input.drop l.pos).takeWhile U.IsLetter ≠ [] := by
      intro he
      rw [he] at hfold
      exact k1 (EqualFold_nil U _ hfold)
    have hlen : 0 < ((l.input.drop l.pos).takeWhile U.IsLetter).length :=
      List.length_pos.mpr hne
    have hle : ((l.input.drop l.pos).takeWhile U.IsLetter).length ≤ l.input.length - l.pos := by
      have := List.Sublist.length_le (List.takeWhile_sublist U.IsLetter (l := l.input.drop l.pos))
      simpa using this
    refine ⟨l1, some StateFn.lexSpace, by simp [lexKeyword, hf, h1], h2,
      Or.inr ⟨rfl, ⟨_, h4, k2, k3, k4⟩, ?_⟩⟩
    omega
  | none =>
    obtain ⟨p, h1, h2, h3, h4, _⟩ :=
      nextUntil_spec (fun r => U.isSpace r || r == eof) rfl l.fuel l (fuel_enough l)
    obtain ⟨t, ht, hty⟩ := emitError_sends p.backup "found unknown keyword"
    exact ⟨p.backup.emitError "found unknown keyword", none,
      by simp [lexKeyword, hf, h1], h2, Or.inl ⟨rfl, t, by rw [ht, backup_tokens, h4], hty⟩⟩

/-- The state `lexPredicateOrLiteral` sends nothing and returns `lexPredicate`
or `lexLiteral` without moving, or sends one `ERROR` token and returns nil. -/
theorem lexPredicateOrLiteral_spec (l : lexer) :
    ∃ l1 nxt, lexPredicateOrLiteral l = some (l1, nxt) ∧ l1.input = l.input ∧
      ((nxt = none ∧ ∃ t, l1.tokens = l.tokens ++ [t] ∧ t.Typ = ItemError) ∨
       ((nxt = some StateFn.lexPredicate ∨ nxt = some StateFn.lexLiteral) ∧ l1 = l)) := by
  unfold lexPredicateOrLiteral
  by_cases h1 : Contains (l.input.drop l.pos) anchor = true
  · exact ⟨l, _, by simp [h1], rfl, Or.inr ⟨Or.inl rfl, rfl⟩⟩
  · by_cases h2 : Contains (l.input.drop l.pos) literalType = true
    · exact ⟨l, _, by simp [h1, h2], rfl, Or.inr ⟨Or.inr rfl, rfl⟩⟩
    · exact ⟨l.emitError "failed to parse predicate or literal for opening \" delimiter", none,
        by simp [h1, h2], rfl, Or.inl ⟨rfl, _, rfl, rfl⟩⟩

end States

end Badwolf

namespace Badwolf

open TokenType

section Loops

theorem ahead_refl (l : lexer) : l.ahead l := ⟨rfl, rfl, Nat.le_refl _⟩

theorem ahead_trans {l s t : lexer} (h1 : l.ahead s) (h2 : s.ahead t) : l.ahead t :=
  ⟨h2.1.trans h1.1, h2.2.1.trans h1.2.1, Nat.le_trans h1.2.2 h2.2.2⟩

theorem ahead_next (l : lexer) : l.ahead l.next.1 := by
  refine ⟨next_input l, next_tokens l, ?_⟩
  cases hc : l.input[l.pos]? with
  | none => rw [(next_pos_of_none l hc).1]
  | some c => rw [(next_pos_of_some l c hc).1]; omega

theorem ahead_peek (l : lexer) : l.ahead l.peek.1 :=
  ⟨peek_input l, peek_tokens l, Nat.le_of_eq (peek_pos l).symm⟩

theorem ahead_consume (U : Unicode) (l : lexer) (text : List Char) :
    l.ahead (l.consume U text).1 :=
  ⟨(consume_spec U text l).1, (consume_spec U text l).2.1, (consume_spec U text l).2.2.2.1⟩

/-- An item lexed from further on is an item lexed from here. -/
theorem lexed_of_ahead {l s l1 : lexer} {nxt : Option StateFn} {ty : TokenType}
    (h : l.ahead s) (h1 : s.lexed l1 nxt ty) : l.lexed l1 nxt ty := by
  obtain ⟨a1, a2, a3⟩ := h
  obtain ⟨b1, b2⟩ := h1
  refine ⟨b1.trans a1, ?_⟩
  rcases b2 with ⟨rfl, t, ht, hty⟩ | ⟨rfl, ⟨t, ht, hty⟩, hlt⟩
  · exact Or.inl ⟨rfl, t, by rw [ht, a2], hty⟩
  · refine Or.inr ⟨rfl, ⟨t, by rw [ht, a2], hty⟩, ?_⟩
    rw [a1] at hlt
    omega

/-- An `ERROR` token and the nil state are an outcome of lexing an item. -/
theorem lexed_emitError (l s : lexer) (msg : String) (ty : TokenType) (h : l.ahead s) :
    l.lexed (s.emitError msg) none ty := by
  obtain ⟨t, ht, hty⟩ := emitError_sends s msg
  exact ⟨h.1, Or.inl ⟨rfl, t, by rw [ht, h.2.1], hty⟩⟩

/-- A token sent after at least one rune was read, and the state `lexSpace`,
are an outcome of lexing an item. -/
theorem lexed_emit (l s : lexer) (ty : TokenType) (h : l.ahead s) (hlt : l.pos < s.pos)
    (hlen : l.pos < l.input.length) : l.lexed (s.emit ty) (some StateFn.lexSpace) ty := by
  obtain ⟨t, ht, hty⟩ := emit_sends s ty
  refine ⟨h.1, Or.inr ⟨rfl, ⟨t, by rw [ht, h.2.1], hty⟩, ?_⟩⟩
  rw [emit_pos]
  omega

/-- The scanner after `next` read a rune. -/
theorem next_some (l : lexer) (c : Char) (hc : l.input[l.pos]? = some c) :
    l.pos < l.input.length ∧ l.next.1.pos = l.pos + 1 ∧ l.ahead l.next.1 :=
  ⟨(List.getElem?_eq_some_iff.mp hc).1, (next_pos_of_some l c hc).1, ahead_next l⟩

theorem lt_ne_backSlash : ¬ lt = backSlash := by decide

theorem gt_ne_backSlash : ¬ gt = backSlash := by decide

theorem gt_ne_lt : ¬ gt = lt := by decide

theorem quote_ne_backSlash : ¬ quote = backSlash := by decide

/-- The loop `nextUntil` with the fuel of a state function: the scanner is
not before where it was, and past it when the rune returned is not `eof`. -/
theorem nextUntil_some (stop : rune → Bool) (hstop : stop none = true) (l : lexer) :
    ∃ p r, lexer.nextUntil stop l.fuel l = some (p, r) ∧ l.ahead p ∧
      (r ≠ none → l.pos < p.pos ∧ l.pos < l.input.length) := by
  obtain ⟨p, e, p1, _, p3, p4, _, p6, _⟩ := nextUntil_spec stop hstop l.fuel l (fuel_enough l)
  refine ⟨p, _, e, ⟨p1, p3, by omega⟩, ?_⟩
  intro hr
  have hlt : l.pos + ((l.input.drop l.pos).takeWhile fun c => !stop (some c)).length <
      l.input.length := by
    by_contra hge
    exact hr (List.getElem?_eq_none_iff.mpr (by omega))
  have hw : p.width = 1 := p6.mpr hlt
  omega

/-- The state `lexNode`, from any turn of its loop on: one `NODE` token and
the state `lexSpace` with less input left, or one `ERROR` token and nil. -/
theorem lexNodeLoop_spec :
    ∀ (n : Nat) (ltID : Bool) (l : lexer), l.input.length - l.pos < n →
      ∃ l1 nxt, lexNodeLoop n ltID l = some (l1, nxt) ∧ l.lexed l1 nxt ItemNode
  | 0, _, l, h => by omega
  | n + 1, ltID, l, h => by
    cases hc : l.input[l.pos]? with
    | none =>
      refine ⟨_, none, ?_, lexed_emitError l l.next.1
        "node is not properly terminated; missing final > delimiter" ItemNode (ahead_next l)⟩
      simp [lexNodeLoop, next_snd, hc, eof]
    | some c =>
      obtain ⟨hlen, hpos, hah⟩ := next_some l c hc
      have rec_at : ∀ (b : Bool) (s : lexer), l.next.1.ahead s →
          ∃ l1 nxt, lexNodeLoop n b s = some (l1, nxt) ∧ l.lexed l1 nxt ItemNode := by
        intro b s hs
        have hls := ahead_trans hah hs
        obtain ⟨l1, nxt, h1, h2⟩ := lexNodeLoop_spec n b s (by
          have := hs.2.2
          rw [hls.1]; omega)
        exact ⟨l1, nxt, h1, lexed_of_ahead hls h2⟩
      by_cases h1 : c = backSlash
      · by_cases h2 : l.next.1.peek.2 = some lt
        · obtain ⟨l1, nxt, e, hl⟩ := rec_at ltID l.next.1.peek.1.next.1
            (ahead_trans (ahead_peek _) (ahead_next _))
          exact ⟨l1, nxt, by simp [lexNodeLoop, next_snd, hc, h1, h2, ← e], hl⟩
        · obtain ⟨l1, nxt, e, hl⟩ := rec_at ltID l.next.1.peek.1 (ahead_peek _)
          exact ⟨l1, nxt, by simp [lexNodeLoop, next_snd, hc, h1, h2, ← e], hl⟩
      · by_cases h3 : c = lt
        · obtain ⟨l1, nxt, e, hl⟩ := rec_at true l.next.1 (ahead_refl _)
          exact ⟨l1, nxt, by simp [lexNodeLoop, next_snd, hc, h1, h3, eof, lt_ne_backSlash, ← e], hl⟩
        · by_cases h4 : c = gt
          · cases ltID with
            | false =>
              exact ⟨_, none, by simp [lexNodeLoop, next_snd, hc, h1, h3, h4, eof, gt_ne_backSlash, gt_ne_lt],
                lexed_emitError l l.next.1 "node should start ID section with a < delimiter"
                  ItemNode hah⟩
            | true =>
              exact ⟨_, _, by simp [lexNodeLoop, next_snd, hc, h1, h3, h4, eof, gt_ne_backSlash, gt_ne_lt],
                lexed_emit l l.next.1 ItemNode hah (by omega) hlen⟩
          · obtain ⟨l1, nxt, e, hl⟩ := rec_at ltID l.next.1 (ahead_refl _)
            exact ⟨l1, nxt, by simp [lexNodeLoop, next_snd, hc, h1, h3, h4, eof, ← e], hl⟩

/-- The state `lexNode`: one `NODE` token and the state `lexSpace` with less
input left, or one `ERROR` token and nil. -/
theorem lexNode_spec (l : lexer) :
    ∃ l1 nxt, lexNode l = some (l1, nxt) ∧ l.lexed l1 nxt ItemNode :=
  lexNodeLoop_spec l.fuel false l (fuel_enough l)

/-- The loop of `lexLiteral` that reads the type: the scanner, once stepped
back, is not before where it was. -/
theorem literalTLoop_spec (U : Unicode) :
    ∀ (n : Nat) (l : lexer) (acc : List Char), l.input.length - l.pos < n →
      ∃ l1 acc1, literalTLoop U n l acc = some (l1, acc1) ∧ l.ahead l1.backup
  | 0, l, _, h => by omega
  | n + 1, l, acc, h => by
    cases hc : l.input[l.pos]? with
    | none =>
      refine ⟨l.next.1, acc, by simp [literalTLoop, next_snd, hc, eof], next_input l,
        next_tokens l, ?_⟩
      rw [backup_pos, (next_pos_of_none l hc).1, (next_pos_of_none l hc).2]
      omega
    | some c =>
      obtain ⟨hlen, hpos, hah⟩ := next_some l c hc
      by_cases hs : (!(U.isLetter (some c) || U.isDigit (some c)) || some c == eof) = true
      · refine ⟨l.next.1, acc, ?_, next_input l, next_tokens l, ?_⟩
        · simp only [literalTLoop, next_snd, hc, hs, if_true]
        · rw [backup_pos, hpos, (next_pos_of_some l c hc).2]
          omega
      · obtain ⟨l1, acc1, h1, h2⟩ := literalTLoop_spec U n l.next.1 (acc ++ [c]) (by
          rw [next_input, hpos]; omega)
        refine ⟨l1, acc1, ?_, ahead_trans hah h2⟩
        simp only [literalTLoop, next_snd, hc, hs, Bool.false_eq_true, if_false]
        exact h1

/-- The state `lexPredicate`, from any turn of its loop on: one `PREDICATE`
token and the state `lexSpace` with less input left, or one `ERROR` token and
nil. -/
theorem lexPredicateLoop_spec (U : Unicode) :
    ∀ (n : Nat) (l : lexer), l.input.length - l.pos < n →
      ∃ l1 nxt, lexPredicateLoop U n l = some (l1, nxt) ∧ l.lexed l1 nxt ItemPredicate
  | 0, l, h => by omega
  | n + 1, l, h => by
    cases hc : l.input[l.pos]? with
    | none =>
      refine ⟨_, none, ?_, lexed_emitError l l.next.1
        "literals needs to be properly terminated; missing \" and type" ItemPredicate
        (ahead_next l)⟩
      simp [lexPredicateLoop, next_snd, hc, eof]
    | some c =>
      obtain ⟨hlen, hpos, hah⟩ := next_some l c hc
      have rec_at : ∀ (s : lexer), l.next.1.ahead s →
          ∃ l1 nxt, lexPredicateLoop U n s = some (l1, nxt) ∧
            l.lexed l1 nxt ItemPredicate := by
        intro s hs
        have hls := ahead_trans hah hs
        obtain ⟨l1, nxt, h1, h2⟩ := lexPredicateLoop_spec U n s (by
          have := hs.2.2
          rw [hls.1]; omega)
        exact ⟨l1, nxt, h1, lexed_of_ahead hls h2⟩
      by_cases h1 : c = backSlash
      · by_cases h2 : l.next.1.peek.2 = some quote
        · obtain ⟨l1, nxt, e, hl⟩ := rec_at l.next.1.peek.1.next.1
            (ahead_trans (ahead_peek _) (ahead_next _))
          exact ⟨l1, nxt, by simp [lexPredicateLoop, next_snd, hc, h1, h2, ← e], hl⟩
        · obtain ⟨l1, nxt, e, hl⟩ := rec_at l.next.1.peek.1 (ahead_peek _)
          exact ⟨l1, nxt, by simp [lexPredicateLoop, next_snd, hc, h1, h2, ← e], hl⟩
      · by_cases h3 : c = quote
        · have hs : l.ahead (l.next.1.backup.consume U anchor).1 :=
            ahead_trans (ahead_peek l) (ahead_consume U _ anchor)
          by_cases h4 : (l.next.1.backup.consume U anchor).2 = true
          · obtain ⟨p, r, e, hp0, hr⟩ :=
              nextUntil_some (fun nr => nr == some rightSquarePar || nr == eof) rfl
                (l.next.1.backup.consume U anchor).1
            have hp : l.ahead p := ahead_trans hs hp0
            by_cases h5 : r = some rightSquarePar
            · have := hr (by rw [h5]; simp)
              have := hs.2.2
              refine ⟨p.emit ItemPredicate, some StateFn.lexSpace, ?_,
                lexed_emit l p ItemPredicate hp (by omega) hlen⟩
              simp [lexPredicateLoop, next_snd, hc, h3, quote_ne_backSlash, h4, e, h5]
            · refine ⟨p.emitError "predicate's time anchors should end with ] delimiter",
                none, ?_, lexed_emitError l p _ ItemPredicate hp⟩
              simp [lexPredicateLoop, next_snd, hc, h3, quote_ne_backSlash, h4, e, h5]
          · refine ⟨_, none, ?_, lexed_emitError l (l.next.1.backup.consume U anchor).1
              "predicates require time anchor information; missing \"@[" ItemPredicate hs⟩
            simp [lexPredicateLoop, next_snd, hc, h3, quote_ne_backSlash, h4]
        · obtain ⟨l1, nxt, e, hl⟩ := rec_at l.next.1 (ahead_refl _)
          exact ⟨l1, nxt, by simp [lexPredicateLoop, next_snd, hc, h1, h3, eof, ← e], hl⟩

/-- The state `lexPredicate`: one `PREDICATE` token and the state `lexSpace`
with less input left, or one `ERROR` token and nil. -/
theorem lexPredicate_spec (U : Unicode) (l : lexer) :
    ∃ l1 nxt, lexPredicate U l = some (l1, nxt) ∧ l.lexed l1 nxt ItemPredicate := by
  have hah := ahead_next l
  obtain ⟨l1, nxt, h1, h2⟩ := lexPredicateLoop_spec U l.fuel l.next.1 (by
    have := hah.2.2
    rw [hah.1]; unfold lexer.fuel; omega)
  exact ⟨l1, nxt, h1, lexed_of_ahead hah h2⟩

/-- The state `lexLiteral`, from any turn of its loop on: one `LITERAL` token
and the state `lexSpace` with less input left, or one `ERROR` token and nil. -/
theorem lexLiteralLoop_spec (U : Unicode) :
    ∀ (n : Nat) (l : lexer), l.input.length - l.pos < n →
      ∃ l1 nxt, lexLiteralLoop U n l = some (l1, nxt) ∧ l.lexed l1 nxt ItemLiteral
  | 0, l, h => by omega
  | n + 1, l, h => by
    cases hc : l.input[l.pos]? with
    | none =>
      refine ⟨_, none, ?_, lexed_emitError l l.next.1
        "literals needs to be properly terminated; missing \" and type" ItemLiteral
        (ahead_next l)⟩
      simp [lexLiteralLoop, next_snd, hc, eof]
    | some c =>
      obtain ⟨hlen, hpos, hah⟩ := next_some l c hc
      have rec_at : ∀ (s : lexer), l.next.1.ahead s →
          ∃ l1 nxt, lexLiteralLoop U n s = some (l1, nxt) ∧
            l.lexed l1 nxt ItemLiteral := by
        intro s hs
        have hls := ahead_trans hah hs
        obtain ⟨l1, nxt, h1, h2⟩ := lexLiteralLoop_spec U n s (by
          have := hs.2.2
          rw [hls.1]; omega)
        exact ⟨l1, nxt, h1, lexed_of_ahead hls h2⟩
      by_cases h1 : c = backSlash
      · by_cases h2 : l.next.1.peek.2 = some quote
        · obtain ⟨l1, nxt, e, hl⟩ := rec_at l.next.1.peek.1.next.1
            (ahead_trans (ahead_peek _) (ahead_next _))
          exact ⟨l1, nxt, by simp [lexLiteralLoop, next_snd, hc, h1, h2, ← e], hl⟩
        · obtain ⟨l1, nxt, e, hl⟩ := rec_at l.next.1.peek.1 (ahead_peek _)
          exact ⟨l1, nxt, by simp [lexLiteralLoop, next_snd, hc, h1, h2, ← e], hl⟩
      · by_cases h3 : c = quote
        · have hs : l.ahead (l.next.1.backup.consume U literalType).1 :=
            ahead_trans (ahead_peek l) (ahead_consume U _ literalType)
          by_cases h4 : (l.next.1.backup.consume U literalType).2 = true
          · have hadv := ((consume_spec U literalType l.next.1.backup).2.2.2.2 h4
              (by decide)).2
            have hpk : l.next.1.backup.pos = l.pos := peek_pos l
            obtain ⟨p, acc, e, hp0⟩ := literalTLoop_spec U
              (l.next.1.backup.consume U literalType).1.fuel
              (l.next.1.backup.consume U literalType).1 [] (fuel_enough _)
            have hpb : l.ahead p.backup := ahead_trans hs hp0
            by_cases h5 : [literalBool, literalInt, literalFloat, literalText,
                literalBlob].contains (acc.map U.ToLower) = true
            · have := hp0.2.2
              refine ⟨p.backup.emit ItemLiteral, some StateFn.lexSpace, ?_,
                lexed_emit l p.backup ItemLiteral hpb (by omega) hlen⟩
              simp only [lexLiteralLoop, next_snd, hc, h3, Option.some.injEq, quote_ne_backSlash,
                if_false, h4, Bool.not_true, Bool.false_eq_true, e, h5, if_true]
            · have hp : l.ahead p := ⟨hpb.1, hpb.2.1, by
                have := hpb.2.2
                rw [backup_pos] at this
                omega⟩
              refine ⟨p.emitError ("invalid literal type " ++ String.mk (acc.map U.ToLower)),
                none, ?_, lexed_emitError l p _ ItemLiteral hp⟩
              simp only [lexLiteralLoop, next_snd, hc, h3, Option.some.injEq, quote_ne_backSlash,
                if_false, h4, Bool.not_true, Bool.false_eq_true, e, h5, if_true]
          · refine ⟨_, none, ?_, lexed_emitError l (l.next.1.backup.consume U literalType).1
              "literals require a type definintion; missing ^^type:" ItemLiteral hs⟩
            simp [lexLiteralLoop, next_snd, hc, h3, quote_ne_backSlash, h4]
        · obtain ⟨l1, nxt, e, hl⟩ := rec_at l.next.1 (ahead_refl _)
          exact ⟨l1, nxt, by simp [lexLiteralLoop, next_snd, hc, h1, h3, eof, ← e], hl⟩

/-- The state `lexLiteral`: one `LITERAL` token and the state `lexSpace` with
less input left, or one `ERROR` token and nil. -/
theorem lexLiteral_spec (U : Unicode) (l : lexer) :
    ∃ l1 nxt, lexLiteral U l = some (l1, nxt) ∧ l.lexed l1 nxt ItemLiteral := by
  have hah := ahead_next l
  obtain ⟨l1, nxt, h1, h2⟩ := lexLiteralLoop_spec U l.fuel l.next.1 (by
    have := hah.2.2
    rw [hah.1]; unfold lexer.fuel; omega)
  exact ⟨l1, nxt, h1, lexed_of_ahead hah h2⟩

end Loops

end Badwolf

namespace Badwolf

open TokenType

section Dispatch

/-- The token types of the ten symbols are neither terminal nor `BINDING`. -/
theorem singleSymbols_plain :
    ∀ ts ∈ singleSymbols, ts.1 ≠ ItemEOF ∧ ts.1 ≠ ItemError ∧ ts.1 ≠ ItemBinding := by
  decide

/-- The tests `isSingleSymboToken` of `lexToken`: when the rune at `pos` is
none of the symbols nothing changes; else the rune is read and sent as the
token of a symbol. -/
theorem trySingleSymbols_spec :
    ∀ (syms : List (TokenType × Char)) (l : lexer),
      (trySingleSymbols syms l).1.input = l.input ∧
      (((trySingleSymbols syms l).2 = none ∧ (∀ ts ∈ syms, l.input[l.pos]? ≠ some ts.2) ∧
          (trySingleSymbols syms l).1.tokens = l.tokens ∧
          (trySingleSymbols syms l).1.pos = l.pos ∧
          (trySingleSymbols syms l).1.start = l.start) ∨
       ((trySingleSymbols syms l).2 = some StateFn.lexSpace ∧
          ∃ ts ∈ syms, l.input[l.pos]? = some ts.2 ∧
            (trySingleSymbols syms l).1.tokens = l.tokens ++
              [{ Typ := ts.1, Text := slice l.input l.start (l.pos + 1), ErrorMessage := "" }] ∧
            (trySingleSymbols syms l).1.pos = l.pos + 1 ∧ l.pos < l.input.length))
  | [], l => by simp [trySingleSymbols]
  | ts :: rest, l => by
    by_cases hm : l.input[l.pos]? = some ts.2
    · have hp := next_some l.peek.1 ts.2 (by rw [peek_input, peek_pos]; exact hm)
      have e : trySingleSymbols (ts :: rest) l =
          (l.peek.1.next.1.emit ts.1, some StateFn.lexSpace) := by
        simp [trySingleSymbols, isSingleSymboToken, peek_snd, hm]
      rw [e]
      refine ⟨by rw [emit_input, next_input, peek_input], Or.inr ⟨rfl, ts,
        List.mem_cons_self _ _, hm, ?_, ?_, (List.getElem?_eq_some_iff.mp hm).1⟩⟩
      · simp only [lexer.emit, next_tokens, peek_tokens, next_input, peek_input, next_start,
          peek_start, hp.2.1, peek_pos]
      · rw [emit_pos, hp.2.1, peek_pos]
    · have e : trySingleSymbols (ts :: rest) l = trySingleSymbols rest l.peek.1 := by
        simp [trySingleSymbols, isSingleSymboToken, peek_snd, hm]
      rw [e]
      obtain ⟨h1, h2⟩ := trySingleSymbols_spec rest l.peek.1
      rw [peek_input, peek_pos, peek_tokens, peek_start] at h2
      refine ⟨by rw [h1, peek_input], ?_⟩
      rcases h2 with ⟨a1, a2, a3, a4, a5⟩ | ⟨a1, ts1, a2, a3, a4, a5, a6⟩
      · refine Or.inl ⟨a1, ?_, a3, a4, a5⟩
        intro x hx
        rcases List.mem_cons.mp hx with rfl | hx
        · exact hm
        · exact a2 x hx
      · exact Or.inr ⟨a1, ts1, List.mem_cons_of_mem _ a2, a3, a4, a5, a6⟩

theorem binding_ne : ¬ slash = binding ∧ ¬ quote = binding ∧ ¬ quote = slash := by decide

/-- A rune that starts no token and is no space is not dispatched. -/
theorem not_dispatched (U : Unicode) (c : Char) (h1 : c ≠ binding) (h2 : c ≠ slash)
    (h3 : c ≠ quote) (h4 : U.IsLetter c = false)
    (h5 : ∀ ts ∈ singleSymbols, (some c : rune) ≠ some ts.2) (h6 : U.IsSpace c = false) :
    dispatched U c = false := by
  have h7 : singleSymbols.any (fun ts => ts.2 == c) = false := by
    rw [List.any_eq_false]
    intro ts hts
    have := h5 ts hts
    intro he
    exact this (by rw [eq_of_beq he])
  have e1 : (c == binding) = false := by simpa using h1
  have e2 : (c == slash) = false := by simpa using h2
  have e3 : (c == quote) = false := by simpa using h3
  unfold dispatched
  rw [e1, e2, e3, h4, h7, h6]
  rfl

/-- The state `lexToken`, from any turn of its loop on. It returns nil after
one `EOF` token; or `lexBinding` right after a `?`; or `lexNode`,
`lexPredicateOrLiteral` or `lexKeyword` with nothing sent; or `lexSpace` after
the token of a symbol. Runes were skipped on the way only if the input holds
a rune that is not dispatched. -/
theorem lexTokenLoop_spec (U : Unicode) :
    ∀ (n : Nat) (l : lexer), l.input.length - l.pos < n → l.start ≤ l.pos →
      ∃ l1 nxt, lexTokenLoop U n l = some (l1, nxt) ∧ l1.input = l.input ∧
        ((nxt = none ∧ ∃ t, l1.tokens = l.tokens ++ [t] ∧ t.Typ = ItemEOF) ∨
         (nxt = some StateFn.lexBinding ∧ l1.tokens = l.tokens ∧ l.pos < l1.pos ∧
           l1.pos ≤ l.input.length ∧ l.input[l1.pos - 1]? = some binding ∧
           l1.start < l1.pos ∧
           ((∀ c ∈ l.input, dispatched U c = true) → l.start = l.pos →
             l1.start + 1 = l1.pos)) ∨
         ((nxt = some StateFn.lexNode ∨ nxt = some StateFn.lexPredicateOrLiteral ∨
             nxt = some StateFn.lexKeyword) ∧ l1.tokens = l.tokens ∧ l.pos ≤ l1.pos) ∨
         (nxt = some StateFn.lexSpace ∧
           (∃ t, l1.tokens = l.tokens ++ [t] ∧ t.Typ ≠ ItemEOF ∧ t.Typ ≠ ItemError ∧
             t.Typ ≠ ItemBinding) ∧ l.pos < l1.pos ∧ l1.pos ≤ l.input.length))
  | 0, l, h, _ => by omega
  | n + 1, l, h, hsp => by
    have rec_at : ∀ s : lexer, s.input = l.input → s.tokens = l.tokens → l.pos < s.pos →
        l.pos < l.input.length → s.start ≤ s.pos →
        ((∀ c ∈ l.input, dispatched U c = true) → l.start = l.pos → s.start = s.pos) →
        ∃ l1 nxt, lexTokenLoop U n s = some (l1, nxt) ∧ l1.input = l.input ∧
        ((nxt = none ∧ ∃ t, l1.tokens = l.tokens ++ [t] ∧ t.Typ = ItemEOF) ∨
         (nxt = some StateFn.lexBinding ∧ l1.tokens = l.tokens ∧ l.pos < l1.pos ∧
           l1.pos ≤ l.input.length ∧ l.input[l1.pos - 1]? = some binding ∧
           l1.start < l1.pos ∧
           ((∀ c ∈ l.input, dispatched U c = true) → l.start = l.pos →
             l1.start + 1 = l1.pos)) ∨
         ((nxt = some StateFn.lexNode ∨ nxt = some StateFn.lexPredicateOrLiteral ∨
             nxt = some StateFn.lexKeyword) ∧ l1.tokens = l.tokens ∧ l.pos ≤ l1.pos) ∨
         (nxt = some StateFn.lexSpace ∧
           (∃ t, l1.tokens = l.tokens ++ [t] ∧ t.Typ ≠ ItemEOF ∧ t.Typ ≠ ItemError ∧
             t.Typ ≠ ItemBinding) ∧ l.pos < l1.pos ∧ l1.pos ≤ l.input.length)) := by
      intro s s1 s2 s3 s0 s4 s5
      obtain ⟨l1, nxt, e, i1, i2⟩ := lexTokenLoop_spec U n s (by rw [s1]; omega) s4
      rw [s1, s2] at i2
      refine ⟨l1, nxt, e, i1.trans s1, ?_⟩
      rcases i2 with ⟨a, b⟩ | ⟨a, b1, b2, b3, b4, b5, b6⟩ | ⟨a, b1, b2⟩ | ⟨a, b1, b2, b3⟩
      · exact Or.inl ⟨a, b⟩
      · exact Or.inr (Or.inl ⟨a, b1, by omega, b3, b4, b5, fun hd he => b6 hd (s5 hd he)⟩)
      · exact Or.inr (Or.inr (Or.inl ⟨a, b1, by omega⟩))
      · exact Or.inr (Or.inr (Or.inr ⟨a, b1, by omega, b3⟩))
    by_cases c1 : l.input[l.pos]? = some binding
    · obtain ⟨hlen, hpos, hah⟩ := next_some l.peek.1 binding
        (by rw [peek_input, peek_pos]; exact c1)
      rw [peek_input, peek_pos] at hlen
      rw [peek_pos] at hpos
      refine ⟨l.peek.1.next.1, _, by simp [lexTokenLoop, peek_snd, c1],
        by rw [next_input, peek_input], Or.inr (Or.inl ⟨rfl, ?_, ?_, ?_, ?_, ?_, ?_⟩)⟩
      · rw [next_tokens, peek_tokens]
      · omega
      · omega
      · rw [hpos]; simpa using c1
      · rw [next_start, peek_start]; omega
      · intro _ he
        rw [next_start, peek_start]; omega
    by_cases c2 : l.input[l.pos]? = some slash
    · exact ⟨l.peek.1, _, by simp [lexTokenLoop, peek_snd, c2, binding_ne], peek_input l,
        Or.inr (Or.inr (Or.inl ⟨Or.inl rfl, peek_tokens l, by rw [peek_pos]⟩))⟩
    by_cases c3 : l.input[l.pos]? = some quote
    · exact ⟨l.peek.1, _, by simp [lexTokenLoop, peek_snd, c3, binding_ne], peek_input l,
        Or.inr (Or.inr (Or.inl ⟨Or.inr (Or.inl rfl), peek_tokens l, by rw [peek_pos]⟩))⟩
    by_cases c4 : U.isLetter l.input[l.pos]? = true
    · exact ⟨l.peek.1, _, by simp [lexTokenLoop, peek_snd, c1, c2, c3, c4], peek_input l,
        Or.inr (Or.inr (Or.inl ⟨Or.inr (Or.inr rfl), peek_tokens l, by rw [peek_pos]⟩))⟩
    obtain ⟨t1, t2⟩ := trySingleSymbols_spec singleSymbols l.peek.1
    rw [peek_input, peek_pos, peek_tokens, peek_start] at t2
    rw [peek_input] at t1
    rcases t2 with ⟨a1, a2, a3, a4, a5⟩ | ⟨a1, ts, a2, a3, a4, a5, a6⟩
    · -- no symbol: a space is ignored, any other rune is skipped
      have e0 : lexTokenLoop U (n + 1) l =
          if U.isSpace (trySingleSymbols singleSymbols l.peek.1).1.next.2 = true then
            lexTokenLoop U n (trySingleSymbols singleSymbols l.peek.1).1.next.1.ignore
          else if (trySingleSymbols singleSymbols l.peek.1).1.next.1.next.2 = eof then
            some ((trySingleSymbols singleSymbols l.peek.1).1.next.1.next.1.emit ItemEOF, none)
          else lexTokenLoop U n (trySingleSymbols singleSymbols l.peek.1).1.next.1.next.1 := by
        simp [lexTokenLoop, peek_snd, c1, c2, c3, c4, a1]
      have hr : (trySingleSymbols singleSymbols l.peek.1).1.next.2 = l.input[l.pos]? := by
        rw [next_snd, t1, a4]
      cases hc : l.input[l.pos]? with
      | none =>
        have hn : (trySingleSymbols singleSymbols l.peek.1).1.input[
            (trySingleSymbols singleSymbols l.peek.1).1.pos]? = none := by
          rw [t1, a4]; exact hc
        have hp1 := next_pos_of_none _ hn
        have hn2 : (trySingleSymbols singleSymbols l.peek.1).1.next.1.next.2 = eof := by
          rw [next_snd, next_input, hp1.1]; exact hn
        obtain ⟨t, ht, hty⟩ :=
          emit_sends (trySingleSymbols singleSymbols l.peek.1).1.next.1.next.1 ItemEOF
        refine ⟨(trySingleSymbols singleSymbols l.peek.1).1.next.1.next.1.emit ItemEOF, none,
          by rw [e0, hr, hc]; simp [Unicode.isSpace, hn2],
          by rw [emit_input, next_input, next_input, t1], Or.inl ⟨rfl, t, ?_, hty⟩⟩
        rw [ht, next_tokens, next_tokens, a3]
      | some c =>
        have hs : (trySingleSymbols singleSymbols l.peek.1).1.input[
            (trySingleSymbols singleSymbols l.peek.1).1.pos]? = some c := by
          rw [t1, a4]; exact hc
        obtain ⟨hlen, hpos, hah⟩ := next_some _ c hs
        rw [t1, a4] at hlen
        rw [a4] at hpos
        by_cases c5 : U.IsSpace c = true
        · obtain ⟨l1, nxt, e, r1, r2⟩ :=
            rec_at (trySingleSymbols singleSymbols l.peek.1).1.next.1.ignore
              (by show (trySingleSymbols singleSymbols l.peek.1).1.next.1.input = _
                  rw [next_input, t1])
              (by show (trySingleSymbols singleSymbols l.peek.1).1.next.1.tokens = _
                  rw [next_tokens, a3])
              (by show l.pos < (trySingleSymbols singleSymbols l.peek.1).1.next.1.pos
                  omega)
              hlen (Nat.le_refl _) (fun _ _ => rfl)
          exact ⟨l1, nxt, by rw [e0, hr, hc]; simp [Unicode.isSpace, c5, e], r1, r2⟩
        · by_cases c6 : (trySingleSymbols singleSymbols l.peek.1).1.next.1.next.2 = eof
          · obtain ⟨t, ht, hty⟩ :=
              emit_sends (trySingleSymbols singleSymbols l.peek.1).1.next.1.next.1 ItemEOF
            refine ⟨(trySingleSymbols singleSymbols l.peek.1).1.next.1.next.1.emit ItemEOF,
              none, by rw [e0, hr, hc]; simp [Unicode.isSpace, c5, c6],
              by rw [emit_input, next_input, next_input, t1], Or.inl ⟨rfl, t, ?_, hty⟩⟩
            rw [ht, next_tokens, next_tokens, a3]
          · have hnd : dispatched U c = false :=
              not_dispatched U c (by rintro rfl; exact c1 hc) (by rintro rfl; exact c2 hc)
                (by rintro rfl; exact c3 hc)
                (by simpa [hc, Unicode.isLetter] using c4)
                (by rw [← hc]; exact a2) (by simpa using c5)
            have hmem : c ∈ l.input := List.getElem?_mem hc
            have hah2 := ahead_next (trySingleSymbols singleSymbols l.peek.1).1.next.1
            obtain ⟨l1, nxt, e, r1, r2⟩ :=
              rec_at (trySingleSymbols singleSymbols l.peek.1).1.next.1.next.1
                (by rw [next_input, next_input, t1])
                (by rw [next_tokens, next_tokens, a3])
                (by have := hah2.2.2; omega)
                hlen
                (by rw [next_start, next_start, a5]; have := hah2.2.2; omega)
                (fun hd _ => by rw [hd c hmem] at hnd; exact absurd hnd (by simp))
            exact ⟨l1, nxt, by rw [e0, hr, hc]; simp [Unicode.isSpace, c5, c6, e], r1, r2⟩
    · -- a symbol
      obtain ⟨p1, p2, p3⟩ := singleSymbols_plain ts a2
      refine ⟨(trySingleSymbols singleSymbols l.peek.1).1, _,
        by simp [lexTokenLoop, peek_snd, c1, c2, c3, c4, a1], t1,
        Or.inr (Or.inr (Or.inr ⟨rfl, ⟨_, a4, p1, p2, p3⟩, by omega, by omega⟩))⟩

end Dispatch

end Badwolf

namespace Badwolf

open TokenType

section Run

/-- An item lexed by a state function is a step of the scanner. -/
theorem step_of_lexed (st : StateFn) (l l1 : lexer) (nxt : Option StateFn) (ty : TokenType)
    (h : l.lexed l1 nxt ty)
    (hty : ty ≠ ItemEOF ∧ ty ≠ ItemError ∧ ty ≠ ItemBinding) :
    Step st l l1 nxt ∧ nxt ≠ some StateFn.lexToken ∧ nxt ≠ some StateFn.lexBinding := by
  obtain ⟨h1, h2⟩ := h
  rcases h2 with ⟨rfl, t, ht, htt⟩ | ⟨rfl, ⟨t, ht, htt⟩, hlt⟩
  · exact ⟨⟨h1, t, ht, Or.inr htt⟩, by simp, by simp⟩
  · refine ⟨⟨h1, ?_, [t], ht, ?_⟩, by simp, by simp⟩
    · simp only [stepsLeft, StateFn.rank, h1]
      omega
    · intro x hx
      rw [List.mem_singleton] at hx
      subst hx
      refine ⟨?_, fun hb => absurd (htt ▸ hb) hty.2.2⟩
      rintro (he | he)
      · exact hty.1 (htt ▸ he)
      · exact hty.2.1 (htt ▸ he)

/-- One state function: it returns, its outcome is a step of the scanner, the
state it returns is entered as `Entered` says, and `lexBinding` sends the
pending text and the letters at `pos`. -/
theorem call_spec (U : Unicode) (st : StateFn) (l : lexer) (hT : Entered U st l) :
    ∃ l1 nxt, st.call U l = some (l1, nxt) ∧ Step st l l1 nxt ∧
      (∀ st1, nxt = some st1 → Entered U st1 l1) ∧
      (st = StateFn.lexBinding → l1.tokens = l.tokens ++
        [{ Typ := ItemBinding
           Text := slice l.input l.start
             (l.pos + ((l.input.drop l.pos).takeWhile U.IsLetter).length)
           ErrorMessage := "" }]) := by
  cases st with
  | lexToken =>
    obtain ⟨l1, nxt, e, h1, h2⟩ :=
      lexTokenLoop_spec U l.fuel l (fuel_enough l) (Nat.le_of_eq (hT.1 rfl))
    refine ⟨l1, nxt, e, ?_, ?_, by simp⟩
    · rcases h2 with ⟨rfl, t, ht, hty⟩ | ⟨rfl, b1, b2, b3, _⟩ | ⟨hn, b1, b2⟩ |
        ⟨rfl, ⟨t, ht, t1, t2, t3⟩, b2, b3⟩
      · exact ⟨h1, t, ht, Or.inl hty⟩
      · refine ⟨h1, ?_, [], by simp [b1], by simp⟩
        simp only [stepsLeft, StateFn.rank, h1]
        omega
      · rcases hn with rfl | rfl | rfl <;>
        · refine ⟨h1, ?_, [], by simp [b1], by simp⟩
          simp only [stepsLeft, StateFn.rank, h1]
          omega
      · refine ⟨h1, ?_, [t], ht, ?_⟩
        · simp only [stepsLeft, StateFn.rank, h1]
          omega
        · intro x hx
          rw [List.mem_singleton] at hx
          subst hx
          exact ⟨fun hx => hx.elim t1 t2, fun hb => absurd hb t3⟩
    · intro st1 hst
      rcases h2 with ⟨rfl, _⟩ | ⟨rfl, b1, b2, b3, b4, b5, b6⟩ | ⟨hn, b1, b2⟩ | ⟨rfl, _⟩
      · simp at hst
      · obtain rfl : StateFn.lexBinding = st1 := by simpa using hst
        refine ⟨by simp, fun _ => ⟨by rw [h1]; exact b3, by rw [h1]; exact b4, b5, ?_⟩⟩
        intro hd
        exact b6 (by rwa [h1] at hd) (hT.1 rfl)
      · rcases hn with rfl | rfl | rfl <;>
        · obtain rfl := Option.some.inj hst
          exact ⟨by simp, by simp⟩
      · obtain rfl := Option.some.inj hst
        exact ⟨by simp, by simp⟩
  | lexBinding =>
    obtain ⟨l1, e, h1, h2, h3⟩ := lexBinding_spec U l
    refine ⟨l1, _, e, ⟨h1, ?_, _, h3, ?_⟩, ?_, fun _ => h3⟩
    · simp only [stepsLeft, StateFn.rank, h1, h2]
      omega
    · intro x hx
      rw [List.mem_singleton] at hx
      subst hx
      exact ⟨fun hx => by rcases hx with hx | hx <;> simp at hx, fun _ => rfl⟩
    · intro st1 hst
      obtain rfl := Option.some.inj hst
      exact ⟨by simp, by simp⟩
  | lexSpace =>
    obtain ⟨l1, e, h1, h2, h3, h4⟩ := lexSpace_spec U l
    refine ⟨l1, _, e, ⟨h1, ?_, [], by simp [h2], by simp⟩, ?_, by simp⟩
    · simp only [stepsLeft, StateFn.rank, h1]
      omega
    · intro st1 hst
      obtain rfl := Option.some.inj hst
      exact ⟨fun _ => h4, by simp⟩
  | lexKeyword =>
    obtain ⟨l1, nxt, e, h1, h2⟩ := lexKeyword_spec U l
    refine ⟨l1, nxt, e, ?_, ?_, by simp⟩
    · rcases h2 with ⟨rfl, t, ht, hty⟩ | ⟨rfl, ⟨t, ht, t1, t2, t3⟩, hlt⟩
      · exact ⟨h1, t, ht, Or.inr hty⟩
      · refine ⟨h1, ?_, [t], ht, ?_⟩
        · simp only [stepsLeft, StateFn.rank, h1]
          omega
        · intro x hx
          rw [List.mem_singleton] at hx
          subst hx
          exact ⟨fun hx => hx.elim t1 t2, fun hb => absurd hb t3⟩
    · intro st1 hst
      rcases h2 with ⟨rfl, _⟩ | ⟨rfl, _⟩
      · simp at hst
      · obtain rfl := Option.some.inj hst
        exact ⟨by simp, by simp⟩
  | lexNode =>
    obtain ⟨l1, nxt, e, h⟩ := lexNode_spec l
    obtain ⟨s1, s2, s3⟩ := step_of_lexed StateFn.lexNode l l1 nxt ItemNode h (by decide)
    refine ⟨l1, nxt, e, s1, ?_, by simp⟩
    intro st1 hst
    exact ⟨fun hx => absurd (hx ▸ hst) s2, fun hx => absurd (hx ▸ hst) s3⟩
  | lexPredicateOrLiteral =>
    obtain ⟨l1, nxt, e, h1, h2⟩ := lexPredicateOrLiteral_spec l
    refine ⟨l1, nxt, e, ?_, ?_, by simp⟩
    · rcases h2 with ⟨rfl, t, ht, hty⟩ | ⟨hn, rfl⟩
      · exact ⟨h1, t, ht, Or.inr hty⟩
      · rcases hn with rfl | rfl <;>
        · refine ⟨rfl, ?_, [], by simp, by simp⟩
          simp only [stepsLeft, StateFn.rank]
          omega
    · intro st1 hst
      rcases h2 with ⟨rfl, _⟩ | ⟨hn, rfl⟩
      · simp at hst
      · rcases hn with rfl | rfl <;>
        · obtain rfl := Option.some.inj hst
          exact ⟨by simp, by simp⟩
  | lexPredicate =>
    obtain ⟨l1, nxt, e, h⟩ := lexPredicate_spec U l
    obtain ⟨s1, s2, s3⟩ :=
      step_of_lexed StateFn.lexPredicate l l1 nxt ItemPredicate h (by decide)
    refine ⟨l1, nxt, e, s1, ?_, by simp⟩
    intro st1 hst
    exact ⟨fun hx => absurd (hx ▸ hst) s2, fun hx => absurd (hx ▸ hst) s3⟩
  | lexLiteral =>
    obtain ⟨l1, nxt, e, h⟩ := lexLiteral_spec U l
    obtain ⟨s1, s2, s3⟩ :=
      step_of_lexed StateFn.lexLiteral l l1 nxt ItemLiteral h (by decide)
    refine ⟨l1, nxt, e, s1, ?_, by simp⟩
    intro st1 hst
    exact ⟨fun hx => absurd (hx ▸ hst) s2, fun hx => absurd (hx ▸ hst) s3⟩

end Run

end Badwolf

namespace Badwolf

open TokenType

section Claims

/-- The runes a `takeWhile` keeps are the first runes of the text. -/
theorem take_length_takeWhile (p : Char → Bool) (s : List Char) :
    s.take (s.takeWhile p).length = s.takeWhile p := by
  have h : (s.takeWhile p ++ s.dropWhile p).take (s.takeWhile p).length = s.takeWhile p :=
    List.take_left' rfl
  rwa [List.takeWhile_append_dropWhile] at h

/-- The token `lexBinding` sends when it is entered right after a `?`. -/
theorem bindingText_of_entered (U : Unicode) (l : lexer)
    (h : Entered U StateFn.lexBinding l) :
    BindingText U l.input
      { Typ := ItemBinding
        Text := slice l.input l.start
          (l.pos + ((l.input.drop l.pos).takeWhile U.IsLetter).length)
        ErrorMessage := "" } := by
  obtain ⟨hle, hq, hlt, hd⟩ := h.2 rfl
  obtain ⟨q, hpq⟩ : ∃ q, l.pos = q + 1 := ⟨l.pos - 1, by omega⟩
  rw [hpq] at hq hlt hd hle
  simp only [Nat.add_sub_cancel] at hq
  have hqlen : q < l.input.length := by omega
  have htake : l.input.take (l.pos + ((l.input.drop l.pos).takeWhile U.IsLetter).length) =
      l.input.take q ++ binding :: (l.input.drop l.pos).takeWhile U.IsLetter := by
    rw [List.take_add, take_length_takeWhile, hpq, List.take_succ, hq]
    simp
  have hlq : (l.input.take q).length = q := by
    rw [List.length_take]; omega
  refine ⟨(l.input.take q).drop l.start, (l.input.drop l.pos).takeWhile U.IsLetter, ?_, ?_, ?_⟩
  · show slice _ _ _ = _
    unfold slice
    rw [htake, List.drop_append_of_le_length (by omega)]
  · intro c hc
    exact (List.mem_takeWhile_imp hc)
  · intro hall
    have := hd hall
    exact List.drop_eq_nil_of_le (by omega)

/-- The loop of `run` with enough fuel: it returns, and what it sends is a
run of tokens that are not terminal, every `BINDING` token among them built
as `BindingText` says, and last one terminal token. -/
theorem runLoop_spec (U : Unicode) :
    ∀ (n : Nat) (st : StateFn) (l : lexer), stepsLeft st l < n → Entered U st l →
      ∃ l1, runLoop U n (some st) l = some l1 ∧ l1.input = l.input ∧
        ∃ pre t, l1.tokens = l.tokens ++ pre ++ [t] ∧ t.terminal ∧
          ∀ x ∈ pre, ¬ x.terminal ∧ (x.Typ = ItemBinding → BindingText U l.input x)
  | 0, _, _, h, _ => by omega
  | n + 1, st, l, h, hent => by
    obtain ⟨l2, nxt, e, ⟨s1, s2⟩, ent, hb⟩ := call_spec U st l hent
    cases nxt with
    | none =>
      obtain ⟨t, ht, htt⟩ := s2
      refine ⟨l2, by simp [runLoop, e], s1, [], t, by simp [ht], htt, by simp⟩
    | some st1 =>
      obtain ⟨hlt, new, hnew, hplain⟩ := s2
      obtain ⟨l3, e3, i3, pre, t, ht, htt, hpre⟩ :=
        runLoop_spec U n st1 l2 (by omega) (ent st1 rfl)
      refine ⟨l3, by simp [runLoop, e, e3], i3.trans s1, new ++ pre, t, ?_, htt, ?_⟩
      · rw [ht, hnew]; simp
      · intro x hx
        rcases List.mem_append.mp hx with hx | hx
        · refine ⟨(hplain x hx).1, fun hbx => ?_⟩
          have hst := (hplain x hx).2 hbx
          have hb1 := hb hst
          rw [hnew] at hb1
          have := List.append_cancel_left hb1
          rw [this, List.mem_singleton] at hx
          subst hx
          subst hst
          exact bindingText_of_entered U l hent
        · refine ⟨(hpre x hx).1, fun hbx => ?_⟩
          have := (hpre x hx).2 hbx
          rwa [s1] at this

/-- The scanner `lex` creates is entered in the state `lexToken`. -/
theorem entered_lex (U : Unicode) (input : List Char) (capacity : Int) :
    Entered U StateFn.lexToken (lex input capacity) :=
  ⟨fun _ => rfl, by simp⟩

/-- C1: for every input and every capacity the scanner terminates, and the
tokens it sends are a sequence of tokens that are neither `EOF` nor `ERROR`
followed by exactly one token that is `EOF` or `ERROR`. -/
theorem New_ends_with_one_terminal (U : Unicode) (input : List Char) (capacity : Int) :
    ∃ toks, New U input capacity = some toks ∧
      ∃ pre t, toks = pre ++ [t] ∧ (t.Typ = ItemEOF ∨ t.Typ = ItemError) ∧
        ∀ x ∈ pre, x.Typ ≠ ItemEOF ∧ x.Typ ≠ ItemError := by
  obtain ⟨l1, e, _, pre, t, ht, htt, hpre⟩ :=
    runLoop_spec U (runFuel input) StateFn.lexToken
      (lex input (if capacity < 0 then 0 else capacity))
      (by simp [stepsLeft, StateFn.rank, runFuel, lex])
      (entered_lex U input _)
  refine ⟨l1.tokens, by simp [New, lexer.run, e], pre, t, by simpa [lex] using ht, htt, ?_⟩
  intro x hx
  have := (hpre x hx).1
  exact ⟨fun h => this (Or.inl h), fun h => this (Or.inr h)⟩

end Claims

end Badwolf

namespace Badwolf

open TokenType

section Claims

/-- What `dispatched U c = false` says of a rune. -/
theorem dispatched_false (U : Unicode) (c : Char) (h : dispatched U c = false) :
    c ≠ binding ∧ c ≠ slash ∧ c ≠ quote ∧ U.IsLetter c = false ∧
      (∀ ts ∈ singleSymbols, ts.2 ≠ c) ∧ U.IsSpace c = false := by
  unfold dispatched at h
  simp only [Bool.or_eq_false_iff, beq_eq_false_iff_ne, List.any_eq_false, beq_iff_eq] at h
  obtain ⟨⟨⟨⟨⟨h1, h2⟩, h3⟩, h4⟩, h5⟩, h6⟩ := h
  exact ⟨h1, h2, h3, h4, h5, h6⟩

/-- At a dispatch where at most one rune is left, and that rune is not
dispatched, `lexToken` reads it, sends one `EOF` token with the pending text
and returns nil. -/
theorem lexToken_halts (U : Unicode) (l : lexer) (hlen : (l.input.drop l.pos).length ≤ 1)
    (hnd : ∀ c ∈ l.input.drop l.pos, dispatched U c = false) :
    ∃ l1, lexToken U l = some (l1, none) ∧
      l1.tokens = l.tokens ++
        [{ Typ := ItemEOF
           Text := slice l.input l.start (l.pos + (l.input.drop l.pos).length)
           ErrorMessage := "" }] := by
  obtain ⟨t1, t2⟩ := trySingleSymbols_spec singleSymbols l.peek.1
  rw [peek_input, peek_pos, peek_tokens, peek_start] at t2
  rw [peek_input] at t1
  have hfuel : l.fuel = (l.input.length - l.pos) + 1 := rfl
  cases hc : l.input[l.pos]? with
  | none =>
    have hd := drop_pos_of_none l hc
    rcases t2 with ⟨a1, a2, a3, a4, a5⟩ | ⟨a1, ts, a2, a3, _⟩
    · have hn : (trySingleSymbols singleSymbols l.peek.1).1.input[
          (trySingleSymbols singleSymbols l.peek.1).1.pos]? = none := by
        rw [t1, a4]; exact hc
      have hp1 := next_pos_of_none _ hn
      have hn1 : (trySingleSymbols singleSymbols l.peek.1).1.next.1.input[
          (trySingleSymbols singleSymbols l.peek.1).1.next.1.pos]? = none := by
        rw [next_input, hp1.1]; exact hn
      have hp2 := next_pos_of_none _ hn1
      refine ⟨(trySingleSymbols singleSymbols l.peek.1).1.next.1.next.1.emit ItemEOF, ?_, ?_⟩
      · unfold lexToken
        rw [hfuel]
        simp [lexTokenLoop, peek_snd, hc, Unicode.isLetter, a1, next_snd, hn, hn1,
          Unicode.isSpace, eof]
      · simp only [lexer.emit, next_tokens, next_input, next_start, a3, t1, a5, hp2.1, hp1.1,
          a4, hd, List.length_nil, Nat.add_zero]
    · rw [hc] at a3
      simp at a3
  | some c =>
    have hd := drop_pos_of_some l c hc
    rw [hd] at hlen hnd
    obtain ⟨d1, d2, d3, d4, d5, d6⟩ := dispatched_false U c (hnd c (List.mem_cons_self _ _))
    have hnil : l.input.drop (l.pos + 1) = [] := by
      apply List.eq_nil_of_length_eq_zero
      simp only [List.length_cons] at hlen
      omega
    have hnext : l.input[l.pos + 1]? = none := by
      rw [List.getElem?_eq_none_iff]
      exact List.drop_eq_nil_iff.mp hnil
    rcases t2 with ⟨a1, a2, a3, a4, a5⟩ | ⟨a1, ts, a2, a3, _⟩
    · have hs : (trySingleSymbols singleSymbols l.peek.1).1.input[
          (trySingleSymbols singleSymbols l.peek.1).1.pos]? = some c := by
        rw [t1, a4]; exact hc
      have hp1 := next_pos_of_some _ c hs
      have hn1 : (trySingleSymbols singleSymbols l.peek.1).1.next.1.input[
          (trySingleSymbols singleSymbols l.peek.1).1.next.1.pos]? = none := by
        rw [next_input, hp1.1, t1, a4]; exact hnext
      have hp2 := next_pos_of_none _ hn1
      refine ⟨(trySingleSymbols singleSymbols l.peek.1).1.next.1.next.1.emit ItemEOF, ?_, ?_⟩
      · unfold lexToken
        rw [hfuel]
        simp [lexTokenLoop, peek_snd, hc, Unicode.isLetter, a1, next_snd, hs, hn1,
          Unicode.isSpace, eof, d1, d2, d3, d4, d6]
      · simp only [lexer.emit, next_tokens, next_input, next_start, a3, t1, a5, hp2.1, hp1.1,
          a4, hd, hnil, List.length_cons, List.length_nil]
    · rw [hc] at a3
      exact absurd (Option.some.inj a3).symm (d5 ts a2)

/-- The counterexample of C10: the first rune of `1;;` is a digit, which is
not dispatched, and the tokens are a `SEMICOLON` token of text `1;;` and an
`EOF` token, not one `EOF` token. -/
theorem New_skips_two_runes :
    dispatched asciiTables '1' = false ∧
    New asciiTables "1;;".toList 0 =
      some [{ Typ := ItemSemicolon, Text := "1;;".toList, ErrorMessage := "" },
            { Typ := ItemEOF, Text := [], ErrorMessage := "" }] ∧
    New asciiTables "1;;".toList 0 ≠
      some [{ Typ := ItemEOF, Text := "1;;".toList, ErrorMessage := "" }] := by
  decide

/-- C10, amended: when at most one rune is left at token dispatch and that
rune is not dispatched, `lexToken` sends exactly one `EOF` token and returns
nil; so for an input that is empty or one such rune the tokens are exactly one
`EOF` token. -/
theorem lexToken_halts_at_last_rune (U : Unicode) (input : List Char) (capacity : Int)
    (hlen : input.length ≤ 1) (hnd : ∀ c ∈ input, dispatched U c = false) :
    (∀ l : lexer, l.input.drop l.pos = input →
      ∃ l1 t, lexToken U l = some (l1, none) ∧ l1.tokens = l.tokens ++ [t] ∧
        t.Typ = ItemEOF) ∧
    New U input capacity = some [{ Typ := ItemEOF, Text := input, ErrorMessage := "" }] := by
  constructor
  · intro l hl
    obtain ⟨l1, e, ht⟩ := lexToken_halts U l (by rw [hl]; exact hlen) (by rw [hl]; exact hnd)
    exact ⟨l1, _, e, ht, rfl⟩
  · obtain ⟨l1, e, ht⟩ := lexToken_halts U (lex input (if capacity < 0 then 0 else capacity))
      (by simpa [lex] using hlen) (by simpa [lex] using hnd)
    have hf : runFuel input = (5 * input.length + 4) + 1 := rfl
    have e1 : StateFn.lexToken.call U (lex input (if capacity < 0 then 0 else capacity)) =
        some (l1, none) := e
    simp only [New, lexer.run, hf, runLoop, e1, Option.map_some', ht]
    simp [lex, slice]

/-- The witness of C10: the input `1`. -/
theorem lexToken_halts_at_last_rune_witness :
    New asciiTables ['1'] 0 = some [{ Typ := ItemEOF, Text := ['1'], ErrorMessage := "" }] :=
  (lexToken_halts_at_last_rune asciiTables ['1'] 0 (by decide) (by decide)).2

/-- The counterexample of C9: the input `?` gives a `BINDING` token whose
text is `?` alone, and the input `1a?` one whose text is `1a?`; neither
matches `?[A-Za-z]+`. -/
theorem binding_text_not_matching :
    New asciiTables "?".toList 0 =
      some [{ Typ := ItemBinding, Text := "?".toList, ErrorMessage := "" },
            { Typ := ItemEOF, Text := [], ErrorMessage := "" }] ∧
    matchesBinding "?".toList = false ∧
    New asciiTables "1a?".toList 0 =
      some [{ Typ := ItemBinding, Text := "1a?".toList, ErrorMessage := "" },
            { Typ := ItemEOF, Text := [], ErrorMessage := "" }] ∧
    matchesBinding "1a?".toList = false := by
  decide

/-- C9, amended: the text of every `BINDING` token the scanner sends is the
pending text, a `?`, and zero or more letters of `unicode.IsLetter`; and no
text is pending, so that the text is the `?` and the letters, when every rune
of the input is one `lexToken` dispatches on. -/
theorem binding_tokens_text (U : Unicode) (input : List Char) (capacity : Int)
    (toks : List Token) (tok : Token) (h : New U input capacity = some toks)
    (hm : tok ∈ toks) (hb : tok.Typ = ItemBinding) : BindingText U input tok := by
  obtain ⟨l1, e, _, pre, t, ht, htt, hpre⟩ :=
    runLoop_spec U (runFuel input) StateFn.lexToken
      (lex input (if capacity < 0 then 0 else capacity))
      (by simp [stepsLeft, StateFn.rank, runFuel, lex])
      (entered_lex U input _)
  have hn : New U input capacity = some l1.tokens := by simp [New, lexer.run, e]
  rw [hn] at h
  obtain rfl := Option.some.inj h
  have ht1 : l1.tokens = pre ++ [t] := by simpa [lex] using ht
  rw [ht1] at hm
  rcases List.mem_append.mp hm with hx | hx
  · exact (hpre tok hx).2 hb
  · rw [List.mem_singleton] at hx
    subst hx
    rcases htt with he | he <;> rw [hb] at he <;> exact absurd he (by decide)

/-- The witness of C9: the `BINDING` token of the input `?name`. -/
theorem binding_tokens_text_witness :
    BindingText asciiTables "?name".toList
      { Typ := ItemBinding, Text := "?name".toList, ErrorMessage := "" } :=
  binding_tokens_text asciiTables "?name".toList 0
    [{ Typ := ItemBinding, Text := "?name".toList, ErrorMessage := "" },
     { Typ := ItemEOF, Text := [], ErrorMessage := "" }]
    { Typ := ItemBinding, Text := "?name".toList, ErrorMessage := "" }
    (by decide) (by decide) rfl

end Claims

end Badwolf

namespace Badwolf

open TokenType

section MoreTriples
variable {N P L T : Type}

/-- The counterexample of C17: `NewNodeObject(nil)` is an object with no
variant populated, and `NewTriple` accepts it. -/
theorem object_without_variant :
    (NewNodeObject none : Object (List Char) SpecPredicate (List Char)).variants = 0 ∧
    NewTriple specPackages (some "/u<john>".toList) (some { ID := "knows", anchor := none })
        (some (NewNodeObject none)) =
      Except.ok { s := "/u<john>".toList, p := { ID := "knows", anchor := none },
                  o := { n := none, p := none, l := none } } :=
  ⟨by decide, rfl⟩

/-- C17, amended: an object built by `NewNodeObject`, `NewPredicateObject` or
`NewLiteralObject` from a pointer that is not nil, or by a successful
`ParseObject`, has exactly one variant populated; built from any pointer it
has at most one; and `NewTriple` keeps the object it is given, so the triple
it builds from an object with exactly one variant has such an object. -/
theorem objects_have_one_variant (I : Packages N P L T) :
    (∀ n : N, (NewNodeObject (some n) : Object N P L).variants = 1) ∧
    (∀ p : P, (NewPredicateObject (some p) : Object N P L).variants = 1) ∧
    (∀ l : L, (NewLiteralObject (some l) : Object N P L).variants = 1) ∧
    (∀ n : Option N, (NewNodeObject n : Object N P L).variants ≤ 1) ∧
    (∀ p : Option P, (NewPredicateObject p : Object N P L).variants ≤ 1) ∧
    (∀ l : Option L, (NewLiteralObject l : Object N P L).variants ≤ 1) ∧
    (∀ (s : List Char) (b : List Char → Except String L) (o : Object N P L),
      ParseObject I s b = Except.ok o → o.variants = 1) ∧
    (∀ (s : Option N) (p : Option P) (o : Object N P L) (t : Triple N P L),
      o.variants = 1 → NewTriple I s p (some o) = Except.ok t → t.o.variants = 1) := by
  refine ⟨fun _ => rfl, fun _ => rfl, fun _ => rfl, ?_, ?_, ?_, ?_, ?_⟩
  · intro n; cases n <;> simp [NewNodeObject, Object.variants]
  · intro p; cases p <;> simp [NewPredicateObject, Object.variants]
  · intro l; cases l <;> simp [NewLiteralObject, Object.variants]
  · intro s b o h
    unfold ParseObject at h
    cases h1 : I.nodeParse s with
    | ok n => rw [h1] at h; cases h; rfl
    | error e1 =>
      rw [h1] at h
      cases h2 : b s with
      | ok l => rw [h2] at h; cases h; rfl
      | error e2 =>
        rw [h2] at h
        cases h3 : I.predicateParse s with
        | ok q => rw [h3] at h; cases h; rfl
        | error e3 => rw [h3] at h; cases h
  · intro s p o t ho h
    cases s <;> cases p <;> simp [NewTriple] at h
    rw [← h]
    exact ho

/-- C20: the triple `NewTriple` builds from the subject `/u<john>`, the
immutable predicate `"knows"@[]` and the object `/u<mary>` makes `Reify`
dereference a time anchor that is not there: it panics and returns nothing. -/
theorem Reify_faults_on_valid_triple :
    NewTriple specPackages (some "/u<john>".toList) (some { ID := "knows", anchor := none })
        (some (NewNodeObject (some "/u<mary>".toList))) =
      Except.ok { s := "/u<john>".toList, p := { ID := "knows", anchor := none },
                  o := NewNodeObject (some "/u<mary>".toList) } ∧
    specPackages.TimeAnchor { ID := "knows", anchor := none } = none ∧
    Reify specPackages "/_<b1>".toList
      { s := "/u<john>".toList, p := { ID := "knows", anchor := none },
        o := NewNodeObject (some "/u<mary>".toList) } = none ∧
    Reify specPackages "/_<b1>".toList
      { s := "/u<john>".toList, p := { ID := "knows", anchor := some "2015" },
        o := NewNodeObject none } =
      some ([some { s := "/u<john>".toList, p := { ID := "knows", anchor := some "2015" },
                    o := NewNodeObject none },
             some { s := "/_<b1>".toList, p := { ID := "_subject", anchor := none },
                    o := NewNodeObject (some "/u<john>".toList) },
             some { s := "/_<b1>".toList, p := { ID := "_predicate", anchor := none },
                    o := NewPredicateObject (some { ID := "knows", anchor := some "2015" }) },
             none], "/_<b1>".toList) :=
  ⟨rfl, rfl, by decide, by decide⟩

end MoreTriples

/-- C18: on the input `foo` the scanner reads three runes and then end of
input, and the `backup` that follows restores the column saved before the
third rune: the scanner stands at `pos` 3 with `col` 2, and the `ERROR` token
of text `foo` says `[lexer:0:2]` where the claim has `[lexer:0:3]`. -/
theorem backup_after_eof_loses_a_column :
    (lex "foo".toList 0).next.1.next.1.next.1.next.2 = eof ∧
    (lex "foo".toList 0).next.1.next.1.next.1.col = 3 ∧
    (lex "foo".toList 0).next.1.next.1.next.1.next.1.backup.pos = 3 ∧
    (lex "foo".toList 0).next.1.next.1.next.1.next.1.backup.col = 2 ∧
    New asciiTables "foo".toList 0 =
      some [{ Typ := ItemError, Text := "foo".toList,
              ErrorMessage := "[lexer:0:2] found unknown keyword" }] := by
  decide

end Badwolf

namespace Badwolf

open TokenType

section Exact

/-! ### The run of the scanner, step by step -/

/-- More fuel does not change what the loop of `run` returns. -/
theorem runLoop_mono (U : Unicode) :
    ∀ (n : Nat) (st : Option StateFn) (l r : lexer), runLoop U n st l = some r →
      ∀ m, n ≤ m → runLoop U m st l = some r
  | n, none, l, r, h, m, _ => by
    cases n <;> cases m <;> simpa [runLoop] using h
  | 0, some st, l, r, h, _, _ => by simp [runLoop] at h
  | n + 1, some st, l, r, h, m, hm => by
    obtain ⟨k, rfl⟩ : ∃ k, m = k + 1 := ⟨m - 1, by omega⟩
    simp only [runLoop] at h ⊢
    cases hc : st.call U l with
    | none => rw [hc] at h; simp at h
    | some p =>
      rw [hc] at h
      exact runLoop_mono U n p.2 p.1 r h k (by omega)

theorem runs_nil (U : Unicode) (l : lexer) : Runs U none l l := ⟨0, rfl⟩

/-- One state function, then the rest of the run. -/
theorem runs_step (U : Unicode) (st : StateFn) (l l1 l2 : lexer) (nxt : Option StateFn)
    (h : st.call U l = some (l1, nxt)) (h2 : Runs U nxt l1 l2) : Runs U (some st) l l2 := by
  obtain ⟨n, hn⟩ := h2
  exact ⟨n + 1, by simp only [runLoop, h]; exact hn⟩

/-- The run from any state comes to an end, and keeps the tokens sent. -/
theorem runs_total (U : Unicode) (st : StateFn) (l : lexer) (h : Entered U st l) :
    ∃ l2 more, Runs U (some st) l l2 ∧ l2.tokens = l.tokens ++ more := by
  obtain ⟨l2, e, _, pre, t, ht, _⟩ := runLoop_spec U (stepsLeft st l + 1) st l (by omega) h
  exact ⟨l2, pre ++ [t], ⟨_, e⟩, by rw [ht, List.append_assoc]⟩

/-- The tokens of `New` are those of any run of the scanner `lex` creates. -/
theorem New_of_runs (U : Unicode) (input : List Char) (capacity : Int) (l2 : lexer)
    (h : Runs U (some StateFn.lexToken) (lex input 0) l2) :
    New U input capacity = some l2.tokens := by
  obtain ⟨n, hn⟩ := h
  obtain ⟨l1, e, _⟩ :=
    runLoop_spec U (runFuel input) StateFn.lexToken (lex input 0)
      (by simp [stepsLeft, StateFn.rank, runFuel, lex])
      (entered_lex U input _)
  have h1 := runLoop_mono U _ _ _ _ hn (max n (runFuel input)) (Nat.le_max_left _ _)
  have h2 := runLoop_mono U _ _ _ _ e (max n (runFuel input)) (Nat.le_max_right _ _)
  rw [h1] at h2
  obtain rfl := Option.some.inj h2
  have e1 : runLoop U (runFuel input) (some StateFn.lexToken)
      (lex input (if capacity < 0 then 0 else capacity)) = some l2 := e
  simp [New, lexer.run, e1]

/-! ### Texts -/

theorem slice_self (s : List Char) (p : Nat) (h : s.length ≤ p) : slice s p p = [] := by
  unfold slice
  exact List.drop_eq_nil_of_le (by rw [List.length_take]; omega)

theorem slice_head (a b : List Char) : slice (a ++ b) 0 a.length = a := by
  unfold slice
  simp

theorem slice_all (s : List Char) : slice s 0 s.length = s := by
  unfold slice
  simp

/-- The text `input[pos:pos+1]` is the rune at `pos`. -/
theorem slice_one (s : List Char) (p : Nat) (c : Char) (h : s[p]? = some c) :
    slice s p (p + 1) = [c] := by
  obtain ⟨hlt, hc⟩ := List.getElem?_eq_some_iff.mp h
  unfold slice
  rw [List.take_succ, h]
  simp only [Option.toList]
  rw [List.drop_append_of_le_length (by rw [List.length_take]; omega)]
  rw [List.drop_eq_nil_of_le (by rw [List.length_take]; omega)]
  rfl

/-- The rune at `pos` and the text after it, from the text at `pos`. -/
theorem at_of_drop (l : lexer) (c : Char) (rest : List Char)
    (h : l.input.drop l.pos = c :: rest) :
    l.input[l.pos]? = some c ∧ l.input.drop (l.pos + 1) = rest ∧ l.pos < l.input.length := by
  cases hc : l.input[l.pos]? with
  | none => rw [drop_pos_of_none l hc] at h; cases h
  | some d =>
    rw [drop_pos_of_some l d hc] at h
    injection h with h1 h2
    exact ⟨by rw [h1], h2, (List.getElem?_eq_some_iff.mp hc).1⟩

theorem takeWhile_all (p : Char → Bool) :
    ∀ s : List Char, (∀ c ∈ s, p c = true) → s.takeWhile p = s
  | [], _ => rfl
  | c :: s, h => by
    rw [List.takeWhile_cons, h c (List.mem_cons_self _ _), if_pos rfl,
      takeWhile_all p s (fun d hd => h d (List.mem_cons_of_mem _ hd))]

theorem takeWhile_split (p : Char → Bool) (d : Char) (post : List Char) (hd : p d = false) :
    ∀ pre : List Char, (∀ c ∈ pre, p c = true) → (pre ++ d :: post).takeWhile p = pre
  | [], _ => by simp [List.takeWhile_cons, hd]
  | c :: pre, h => by
    rw [List.cons_append, List.takeWhile_cons, h c (List.mem_cons_self _ _), if_pos rfl,
      takeWhile_split p d post hd pre (fun x hx => h x (List.mem_cons_of_mem _ hx))]

theorem isPrefixOf_append : ∀ (sub b : List Char), sub.isPrefixOf (sub ++ b) = true
  | [], b => by cases b <;> rfl
  | c :: sub, b => by simp [List.isPrefixOf, isPrefixOf_append sub b]

/-- A text contains what it starts with. -/
theorem Contains_head (sub b : List Char) : Contains (sub ++ b) sub = true := by
  cases h : sub ++ b with
  | nil =>
    have hs : sub = [] := (List.append_eq_nil.mp h).1
    subst hs
    rfl
  | cons c s => rw [Contains, ← h, isPrefixOf_append]; rfl

/-- A text contains what a tail of it contains. -/
theorem Contains_append_left (sub s : List Char) (h : Contains s sub = true) :
    ∀ p : List Char, Contains (p ++ s) sub = true
  | [] => h
  | c :: p => by
    rw [List.cons_append, Contains, Contains_append_left sub s h p, Bool.or_true]

/-- The method `emitError` sends one `ERROR` token with the pending text,
whose message contains every part of the text of the error. -/
theorem emitError_says (l : lexer) (msg pre mid post : String) (h : msg = pre ++ mid ++ post) :
    ∃ t, (l.emitError msg).tokens = l.tokens ++ [t] ∧ t.says mid ∧
      t.Text = slice l.input l.start l.pos := by
  refine ⟨_, rfl, ⟨rfl, ?_⟩, rfl⟩
  show Contains ("[lexer:" ++ toString l.line ++ ":" ++ toString l.col ++ "] " ++ msg).toList
    mid.toList = true
  rw [h]
  simp only [String.toList, String.data_append, List.append_assoc]
  rw [← List.append_assoc, ← List.append_assoc, ← List.append_assoc, ← List.append_assoc,
    ← List.append_assoc]
  exact Contains_append_left _ _ (Contains_head _ _) _

/-! ### Reading on -/

/-- The scanner after `skip`: `k` runes further on. -/
theorem skip_spec :
    ∀ (k : Nat) (l : lexer), k ≤ l.input.length - l.pos →
      (l.skip k).input = l.input ∧ (l.skip k).start = l.start ∧
      (l.skip k).pos = l.pos + k ∧ (l.skip k).tokens = l.tokens
  | 0, l, _ => ⟨rfl, rfl, rfl, rfl⟩
  | k + 1, l, h => by
    have hlt : l.pos < l.input.length := by omega
    have hc : l.input[l.pos]? = some l.input[l.pos] := List.getElem?_eq_getElem hlt
    have hp := next_pos_of_some l _ hc
    obtain ⟨a, b, c, d⟩ := skip_spec k l.next.1 (by rw [next_input, hp.1]; omega)
    refine ⟨a.trans (next_input l), b.trans (next_start l), ?_, d.trans (next_tokens l)⟩
    show (lexer.skip l.next.1 k).pos = _
    rw [c, hp.1]
    omega

/-- The method `accept` on the rune that is there. -/
theorem accept_same (U : Unicode) (l : lexer) (c : Char) (h : l.input[l.pos]? = some c) :
    l.accept U c = (l.next.1, true) := by
  unfold lexer.accept
  rw [next_snd, h]
  simp [Unicode.toLower]

/-- The method `consume` on the text that is there: all of it is read. -/
theorem consume_same (U : Unicode) :
    ∀ (text : List Char) (l : lexer) (tail : List Char),
      l.input.drop l.pos = text ++ tail →
      (l.consume U text).2 = true ∧ (l.consume U text).1.input = l.input ∧
      (l.consume U text).1.start = l.start ∧
      (l.consume U text).1.pos = l.pos + text.length ∧
      (l.consume U text).1.tokens = l.tokens
  | [], l, _, _ => by simp [lexer.consume]
  | c :: cs, l, tail, h => by
    obtain ⟨hc, hd, hlt⟩ := at_of_drop l c (cs ++ tail) h
    have hp := next_pos_of_some l c hc
    obtain ⟨a, b, d, e, f⟩ := consume_same U cs l.next.1 tail
      (by rw [next_input, hp.1]; exact hd)
    unfold lexer.consume
    rw [accept_same U l c hc]
    simp only [if_true]
    refine ⟨a, b.trans (next_input l), d.trans (next_start l), ?_, f.trans (next_tokens l)⟩
    rw [e, hp.1, List.length_cons]
    omega

/-- The state `lexSpace`: the scanner moves over the spaces at `pos`, leaves
no pending text and returns `lexToken`. -/
theorem lexSpace_exact (U : Unicode) (l : lexer) :
    ∃ l1, lexSpace U l = some (l1, some StateFn.lexToken) ∧ l1.input = l.input ∧
      l1.tokens = l.tokens ∧
      l1.pos = l.pos + ((l.input.drop l.pos).takeWhile U.IsSpace).length ∧
      l1.start = l1.pos := by
  obtain ⟨p, h1, h2, _, h4, h5, _, _, _⟩ :=
    nextUntil_spec (fun r => !U.isSpace r || r == eof) rfl l.fuel l (fuel_enough l)
  have hk : (fun c => !(!U.isSpace (some c) || some c == eof)) = U.IsSpace := by
    funext c; simp [Unicode.isSpace, eof]
  rw [hk] at h1 h5
  refine ⟨p.backup.ignore, ?_, h2, h4, ?_, rfl⟩
  · simp [lexSpace, h1]
  · show p.pos - p.width = _
    omega

/-- At the end of the input the run ends with one `EOF` token of empty text. -/
theorem runs_at_end (U : Unicode) (l : lexer) (h : l.input.length ≤ l.pos) :
    ∃ l2, Runs U (some StateFn.lexSpace) l l2 ∧ l2.tokens = l.tokens ++ [eofToken] := by
  obtain ⟨l1, e, a, b, c, d⟩ := lexSpace_exact U l
  have hd : l.input.drop l.pos = [] := List.drop_eq_nil_of_le h
  rw [hd] at c
  simp only [List.takeWhile_nil, List.length_nil, Nat.add_zero] at c
  have hd1 : l1.input.drop l1.pos = [] := by rw [a, c]; exact hd
  obtain ⟨l2, e2, t2⟩ := lexToken_halts U l1 (by rw [hd1]; simp) (by rw [hd1]; simp)
  refine ⟨l2, runs_step U _ l l1 l2 _ e (runs_step U _ l1 l2 l2 _ e2 (runs_nil U l2)), ?_⟩
  rw [t2, b, hd1, d, List.length_nil, Nat.add_zero, slice_self _ _ (by rw [a, c]; exact h)]
  rfl

/-! ### The dispatch of `lexToken` -/

theorem lexToken_slash (U : Unicode) (l : lexer) (h : l.input[l.pos]? = some slash) :
    lexToken U l = some (l.peek.1, some StateFn.lexNode) := by
  show lexTokenLoop U ((l.input.length - l.pos) + 1) l = _
  simp [lexTokenLoop, peek_snd, h, binding_ne]

theorem lexToken_quote (U : Unicode) (l : lexer) (h : l.input[l.pos]? = some quote) :
    lexToken U l = some (l.peek.1, some StateFn.lexPredicateOrLiteral) := by
  show lexTokenLoop U ((l.input.length - l.pos) + 1) l = _
  simp [lexTokenLoop, peek_snd, h, binding_ne]

theorem lexToken_letter (U : Unicode) (l : lexer) (c : Char) (h : l.input[l.pos]? = some c)
    (h1 : c ≠ binding) (h2 : c ≠ slash) (h3 : c ≠ quote) (h4 : U.IsLetter c = true) :
    lexToken U l = some (l.peek.1, some StateFn.lexKeyword) := by
  show lexTokenLoop U ((l.input.length - l.pos) + 1) l = _
  simp [lexTokenLoop, peek_snd, h, h1, h2, h3, h4, Unicode.isLetter]

/-- The state `lexToken` at one of the ten symbols, with no pending text: the
symbol is sent as a token of its own. -/
theorem lexToken_symbol (U : Unicode) (l : lexer) (ts : TokenType × Char)
    (hts : ts ∈ singleSymbols) (h : l.input[l.pos]? = some ts.2)
    (h4 : U.IsLetter ts.2 = false) (hs : l.start = l.pos) :
    ∃ l1, lexToken U l = some (l1, some StateFn.lexSpace) ∧ l1.input = l.input ∧
      l1.pos = l.pos + 1 ∧
      l1.tokens = l.tokens ++ [{ Typ := ts.1, Text := [ts.2], ErrorMessage := "" }] := by
  obtain ⟨t1, t2⟩ := trySingleSymbols_spec singleSymbols l.peek.1
  rw [peek_input, peek_pos, peek_tokens, peek_start] at t2
  rw [peek_input] at t1
  have hsym : ∀ x ∈ singleSymbols, x.2 ≠ binding ∧ x.2 ≠ slash ∧ x.2 ≠ quote ∧
      ∀ y ∈ singleSymbols, y.2 = x.2 → y.1 = x.1 := by decide
  obtain ⟨n1, n2, n3, n4⟩ := hsym ts hts
  rcases t2 with ⟨_, a2, _⟩ | ⟨a1, ts1, b1, b2, b3, b4, b5⟩
  · exact absurd h (a2 ts hts)
  · rw [h] at b2
    have e2 : ts1.2 = ts.2 := (Option.some.inj b2).symm
    have e1 : ts1.1 = ts.1 := n4 ts1 b1 e2
    refine ⟨(trySingleSymbols singleSymbols l.peek.1).1, ?_, t1, b4, ?_⟩
    · show lexTokenLoop U ((l.input.length - l.pos) + 1) l = _
      simp [lexTokenLoop, peek_snd, h, n1, n2, n3, h4, Unicode.isLetter, a1]
    · rw [b3, hs, slice_one _ _ _ h, e1]

end Exact

end Badwolf

namespace Badwolf

open TokenType

section Items

/-! ### Texts at `pos` -/

theorem getElem?_of_drop_append (s : List Char) (p : Nat) (a : List Char) (c : Char)
    (b : List Char) (h : s.drop p = a ++ c :: b) : s[p + a.length]? = some c := by
  rw [← List.getElem?_drop, h, List.getElem?_append_right (Nat.le_refl _)]
  simp

theorem drop_of_drop_append (s : List Char) (p : Nat) (a b : List Char)
    (h : s.drop p = a ++ b) : s.drop (p + a.length) = b := by
  rw [← List.drop_drop, h]
  simp

theorem length_of_drop (s : List Char) (p : Nat) (body : List Char) (h : s.drop p = body) :
    s.length - p = body.length := by
  rw [← h, List.length_drop]

/-! ### The state `lexNode` -/

/-- The loop of `lexNode` over runes that are neither `\` nor `>`: it reads
them all, and `ltID` records whether a `<` was among them. -/
theorem lexNodeLoop_skip :
    ∀ (a : List Char) (n : Nat) (ltID : Bool) (l : lexer) (tail : List Char),
      l.input.drop l.pos = a ++ tail → backSlash ∉ a → gt ∉ a →
      lexNodeLoop (n + a.length) ltID l =
        lexNodeLoop n (ltID || decide (lt ∈ a)) (l.skip a.length)
  | [], n, ltID, l, _, _, _, _ => by simp [lexer.skip]
  | c :: a, n, ltID, l, tail, h, hb, hg => by
    obtain ⟨hc, hd, hlt⟩ := at_of_drop l c (a ++ tail) h
    have hp := next_pos_of_some l c hc
    have ih := fun b => lexNodeLoop_skip a n b l.next.1 tail
      (by rw [next_input, hp.1]; exact hd)
      (fun hx => hb (List.mem_cons_of_mem _ hx)) (fun hx => hg (List.mem_cons_of_mem _ hx))
    have c1 : c ≠ backSlash := fun e => hb (e ▸ List.mem_cons_self _ _)
    have c2 : c ≠ gt := fun e => hg (e ▸ List.mem_cons_self _ _)
    show lexNodeLoop ((n + a.length) + 1) ltID l =
      lexNodeLoop n (ltID || decide (lt ∈ c :: a)) (lexer.skip l.next.1 a.length)
    by_cases c3 : c = lt
    · have e : (ltID || decide (lt ∈ c :: a)) = (true || decide (lt ∈ a)) := by simp [c3]
      rw [e, ← ih true]
      simp [lexNodeLoop, next_snd, hc, c1, c3, lt_ne_backSlash, eof]
    · have e : (ltID || decide (lt ∈ c :: a)) = (ltID || decide (lt ∈ a)) := by
        simp [List.mem_cons, Ne.symm c3]
      rw [e, ← ih ltID]
      simp [lexNodeLoop, next_snd, hc, c1, c2, c3, eof]

theorem lexNodeLoop_eof (n : Nat) (ltID : Bool) (l : lexer) (h : l.input[l.pos]? = none) :
    lexNodeLoop (n + 1) ltID l =
      some (l.next.1.emitError "node is not properly terminated; missing final > delimiter",
        none) := by
  simp [lexNodeLoop, next_snd, h, eof]

theorem lexNodeLoop_gt (n : Nat) (ltID : Bool) (l : lexer) (h : l.input[l.pos]? = some gt) :
    lexNodeLoop (n + 1) ltID l =
      if !ltID then
        some (l.next.1.emitError "node should start ID section with a < delimiter", none)
      else some (l.next.1.emit ItemNode, some StateFn.lexSpace) := by
  simp [lexNodeLoop, next_snd, h, eof, gt_ne_backSlash, gt_ne_lt]

/-- The state `lexNode` on a text without `\`: without a `>` it sends the
error of the missing `>`; with a first `>` and no `<` before it the error of
the missing `<`; else the text up to the first `>`, with the pending text, as
a `NODE` token. -/
theorem lexNode_exact (l : lexer) (body : List Char) (h : l.input.drop l.pos = body)
    (hb : backSlash ∉ body) :
    (gt ∉ body → ∃ l1 t, lexNode l = some (l1, none) ∧ l1.tokens = l.tokens ++ [t] ∧
      t.says "missing final > delimiter") ∧
    (∀ a b, body = a ++ gt :: b → gt ∉ a →
      (lt ∉ a → ∃ l1 t, lexNode l = some (l1, none) ∧ l1.tokens = l.tokens ++ [t] ∧
        t.says "node should start ID section with a < delimiter") ∧
      (lt ∈ a → ∃ l1, lexNode l = some (l1, some StateFn.lexSpace) ∧ l1.input = l.input ∧
        l1.tokens = l.tokens ++
          [{ Typ := ItemNode, Text := slice l.input l.start (l.pos + a.length + 1)
             ErrorMessage := "" }])) := by
  have hlen := length_of_drop _ _ _ h
  constructor
  · intro hg
    obtain ⟨s1, s2, s3, s4⟩ := skip_spec body.length l (by omega)
    have hnone : (l.skip body.length).input[(l.skip body.length).pos]? = none := by
      rw [List.getElem?_eq_none_iff, s1, s3]; omega
    obtain ⟨t, t1, t2, _⟩ := emitError_says (l.skip body.length).next.1
      "node is not properly terminated; missing final > delimiter"
      "node is not properly terminated; " "missing final > delimiter" "" (by decide)
    refine ⟨(l.skip body.length).next.1.emitError
      "node is not properly terminated; missing final > delimiter", t, ?_, ?_, t2⟩
    · unfold lexNode lexer.fuel
      rw [show l.input.length - l.pos + 1 = 1 + body.length by omega,
        lexNodeLoop_skip body 1 false l [] (by simpa using h) hb hg,
        lexNodeLoop_eof 0 _ _ hnone]
    · rw [t1, next_tokens, s4]
  · intro a b hab hg
    subst hab
    have hba : backSlash ∉ a := fun hx => hb (List.mem_append_left _ hx)
    simp only [List.length_append, List.length_cons] at hlen
    obtain ⟨s1, s2, s3, s4⟩ := skip_spec a.length l (by omega)
    have hgt : (l.skip a.length).input[(l.skip a.length).pos]? = some gt := by
      rw [s1, s3]; exact getElem?_of_drop_append _ _ _ _ _ h
    have hp := next_pos_of_some _ _ hgt
    have hrun : ∀ ltID, lexNodeLoop l.fuel ltID l =
        if !(ltID || decide (lt ∈ a)) then
          some ((l.skip a.length).next.1.emitError
            "node should start ID section with a < delimiter", none)
        else some ((l.skip a.length).next.1.emit ItemNode, some StateFn.lexSpace) := by
      intro ltID
      unfold lexer.fuel
      rw [show l.input.length - l.pos + 1 = (b.length + 1 + 1) + a.length by omega,
        lexNodeLoop_skip a _ ltID l (gt :: b) h hba hg, lexNodeLoop_gt _ _ _ hgt]
    constructor
    · intro hl
      obtain ⟨t, t1, t2, _⟩ := emitError_says (l.skip a.length).next.1
        "node should start ID section with a < delimiter" ""
        "node should start ID section with a < delimiter" "" (by decide)
      refine ⟨(l.skip a.length).next.1.emitError
        "node should start ID section with a < delimiter", t, ?_, ?_, t2⟩
      · unfold lexNode
        rw [hrun false]
        simp [hl]
      · rw [t1, next_tokens, s4]
    · intro hl
      refine ⟨(l.skip a.length).next.1.emit ItemNode, ?_, ?_, ?_⟩
      · unfold lexNode
        rw [hrun false]
        simp [hl]
      · rw [emit_input, next_input, s1]
      · simp only [lexer.emit, next_tokens, next_input, next_start, s1, s2, s3, s4, hp.1]

/-! ### The state `lexPredicateOrLiteral` -/

theorem lexPredicateOrLiteral_anchor (l : lexer)
    (h : Contains (l.input.drop l.pos) anchor = true) :
    lexPredicateOrLiteral l = some (l, some StateFn.lexPredicate) := by
  simp [lexPredicateOrLiteral, h]

theorem lexPredicateOrLiteral_type (l : lexer)
    (h1 : Contains (l.input.drop l.pos) anchor = false)
    (h2 : Contains (l.input.drop l.pos) literalType = true) :
    lexPredicateOrLiteral l = some (l, some StateFn.lexLiteral) := by
  simp [lexPredicateOrLiteral, h1, h2]

/-! ### The state `lexPredicate` -/

/-- The loop of `lexPredicate` over runes that are neither `\` nor `"`. -/
theorem lexPredicateLoop_skip (U : Unicode) :
    ∀ (a : List Char) (n : Nat) (l : lexer) (tail : List Char),
      l.input.drop l.pos = a ++ tail → backSlash ∉ a → quote ∉ a →
      lexPredicateLoop U (n + a.length) l = lexPredicateLoop U n (l.skip a.length)
  | [], n, l, _, _, _, _ => by simp [lexer.skip]
  | c :: a, n, l, tail, h, hb, hq => by
    obtain ⟨hc, hd, hlt⟩ := at_of_drop l c (a ++ tail) h
    have hp := next_pos_of_some l c hc
    have ih := lexPredicateLoop_skip U a n l.next.1 tail
      (by rw [next_input, hp.1]; exact hd)
      (fun hx => hb (List.mem_cons_of_mem _ hx)) (fun hx => hq (List.mem_cons_of_mem _ hx))
    have c1 : c ≠ backSlash := fun e => hb (e ▸ List.mem_cons_self _ _)
    have c2 : c ≠ quote := fun e => hq (e ▸ List.mem_cons_self _ _)
    show lexPredicateLoop U ((n + a.length) + 1) l =
      lexPredicateLoop U n (lexer.skip l.next.1 a.length)
    rw [← ih]
    simp [lexPredicateLoop, next_snd, hc, c1, c2, eof]

/-- The loop of `lexPredicate` at the `"` that closes the id. -/
theorem lexPredicateLoop_quote (U : Unicode) (n : Nat) (l : lexer)
    (h : l.input[l.pos]? = some quote) :
    lexPredicateLoop U (n + 1) l =
      if !(l.peek.1.consume U anchor).2 then
        some ((l.peek.1.consume U anchor).1.emitError
          "predicates require time anchor information; missing \"@[", none)
      else
        match (l.peek.1.consume U anchor).1.nextUntil
            (fun nr => nr == some rightSquarePar || nr == eof)
            (l.peek.1.consume U anchor).1.fuel with
        | none => none
        | some p =>
          if p.2 ≠ some rightSquarePar then
            some (p.1.emitError "predicate's time anchors should end with ] delimiter", none)
          else some (p.1.emit ItemPredicate, some StateFn.lexSpace) := by
  simp only [lexPredicateLoop, next_snd, h, Option.some.injEq, quote_ne_backSlash, if_false,
    if_true, lexer.peek]

/-- The state `lexPredicate` at `"id"@[` followed by `s`, for an id without
`"` and `\`: with a `]` in `s` it sends the text up to the first `]`, with the
pending text, as a `PREDICATE` token; without one it sends the error of the
missing `]`. -/
theorem lexPredicate_exact (U : Unicode) (l : lexer) (id s : List Char)
    (h : l.input.drop l.pos = quote :: (id ++ (anchor ++ s)))
    (hq : quote ∉ id) (hb : backSlash ∉ id) :
    (∀ pre post, s = pre ++ rightSquarePar :: post → rightSquarePar ∉ pre →
      ∃ l1, lexPredicate U l = some (l1, some StateFn.lexSpace) ∧ l1.input = l.input ∧
        l1.tokens = l.tokens ++
          [{ Typ := ItemPredicate
             Text := slice l.input l.start (l.pos + 1 + id.length + 3 + pre.length + 1)
             ErrorMessage := "" }]) ∧
    (rightSquarePar ∉ s → ∃ l1 t, lexPredicate U l = some (l1, none) ∧
      l1.tokens = l.tokens ++ [t] ∧
      t.says "predicate's time anchors should end with ] delimiter") := by
  obtain ⟨hc, hd, hlt⟩ := at_of_drop l quote _ h
  have hp := next_pos_of_some l quote hc
  have hlen := length_of_drop _ _ _ h
  simp only [List.length_append, List.length_cons, show anchor.length = 3 from rfl] at hlen
  have hd1 : l.next.1.input.drop l.next.1.pos = id ++ (anchor ++ s) := by
    rw [next_input, hp.1]; exact hd
  obtain ⟨s1, s2, s3, s4⟩ := skip_spec id.length l.next.1 (by rw [next_input, hp.1]; omega)
  rw [next_input] at s1
  rw [next_start] at s2
  rw [hp.1] at s3
  rw [next_tokens] at s4
  have hd2 : (l.next.1.skip id.length).input.drop (l.next.1.skip id.length).pos =
      anchor ++ s := by
    rw [s1, s3]; exact drop_of_drop_append _ _ _ _ hd
  have hq2 : (l.next.1.skip id.length).input[(l.next.1.skip id.length).pos]? = some quote :=
    (at_of_drop _ quote _ hd2).1
  obtain ⟨k1, k2, k3, k4, k5⟩ := consume_same U anchor (l.next.1.skip id.length).peek.1 s
    (by rw [peek_input, peek_pos]; exact hd2)
  rw [peek_input, s1] at k2
  rw [peek_start, s2] at k3
  rw [peek_pos, s3, show anchor.length = 3 from rfl] at k4
  rw [peek_tokens, s4] at k5
  have hd3 : ((l.next.1.skip id.length).peek.1.consume U anchor).1.input.drop
      ((l.next.1.skip id.length).peek.1.consume U anchor).1.pos = s := by
    rw [k2, k4, ← s3]
    rw [s1, s3] at hd2
    rw [s3]
    exact drop_of_drop_append _ _ anchor _ hd2
  have hd4 : l.input.drop (l.pos + 1 + id.length + 3) = s := by
    rw [k2, k4] at hd3; exact hd3
  obtain ⟨p, e, p1, p2, p3, p4, p5, p6, _⟩ :=
    nextUntil_spec (fun nr => nr == some rightSquarePar || nr == eof) rfl
      ((l.next.1.skip id.length).peek.1.consume U anchor).1.fuel
      ((l.next.1.skip id.length).peek.1.consume U anchor).1 (fuel_enough _)
  rw [hd3] at e p4 p6
  rw [k2] at e p1 p6
  rw [k3] at p2
  rw [k5] at p3
  rw [k4] at e p4 p6
  have hrun : lexPredicate U l =
      lexPredicateLoop U (s.length + 4 + 1) (l.next.1.skip id.length) := by
    unfold lexPredicate lexer.fuel
    rw [show l.input.length - l.pos + 1 = (s.length + 4 + 1) + id.length by omega,
      lexPredicateLoop_skip U id _ l.next.1 _ hd1 hb hq]
  rw [hrun, lexPredicateLoop_quote U _ _ hq2, k1, e]
  constructor
  · intro pre post hs hr
    subst hs
    have htw : ((pre ++ rightSquarePar :: post).takeWhile
        fun c => !((some c : rune) == some rightSquarePar || (some c : rune) == eof)) = pre := by
      apply takeWhile_split
      · simp
      · intro c hcm
        have : c ≠ rightSquarePar := fun e => hr (e ▸ hcm)
        simp [this, eof]
    rw [htw] at p4 p6 ⊢
    have hrs : l.input[l.pos + 1 + id.length + 3 + pre.length]? = some rightSquarePar :=
      getElem?_of_drop_append _ _ _ _ _ hd4
    have hw : p.width = 1 := p6.mpr (List.getElem?_eq_some_iff.mp hrs).1
    refine ⟨p.emit ItemPredicate, ?_, p1, ?_⟩
    · simp [hrs]
    · simp only [lexer.emit, p1, p2, p3, p4, hw]
  · intro hr
    have htw : (s.takeWhile
        fun c => !((some c : rune) == some rightSquarePar || (some c : rune) == eof)) = s := by
      apply takeWhile_all
      intro c hcm
      have : c ≠ rightSquarePar := fun e => hr (e ▸ hcm)
      simp [this, eof]
    rw [htw] at p4 p6 ⊢
    have hrs : l.input[l.pos + 1 + id.length + 3 + s.length]? = none := by
      rw [List.getElem?_eq_none_iff]; omega
    obtain ⟨t, t1, t2, _⟩ := emitError_says p
      "predicate's time anchors should end with ] delimiter" ""
      "predicate's time anchors should end with ] delimiter" "" (by decide)
    refine ⟨p.emitError "predicate's time anchors should end with ] delimiter", t, ?_, ?_, t2⟩
    · simp [hrs]
    · rw [t1, p3]

end Items

end Badwolf

namespace Badwolf

open TokenType

section Items

/-- The method `accept` on a rune that is not there, letter case apart. -/
theorem accept_other (U : Unicode) (l : lexer) (c d : Char) (h : l.input[l.pos]? = some d)
    (hne : U.ToLower d ≠ U.ToLower c) : l.accept U c = (l.peek.1, false) := by
  unfold lexer.accept
  rw [next_snd, h]
  simp [Unicode.toLower, hne, lexer.peek]

/-- The state `lexPredicate` at `"v"^`, for a `v` without `"` and `\`: the
`"` that closes `v` is not followed by `@[`, and the error of the missing time
anchor is sent. -/
theorem lexPredicate_hat (U : Unicode) (hU : U.ToLower hat ≠ U.ToLower «at») (l : lexer)
    (v tail : List Char) (h : l.input.drop l.pos = quote :: (v ++ quote :: hat :: tail))
    (hq : quote ∉ v) (hb : backSlash ∉ v) :
    ∃ l1 t, lexPredicate U l = some (l1, none) ∧ l1.tokens = l.tokens ++ [t] ∧
      t.says "predicates require time anchor information" := by
  obtain ⟨hc, hd, hlt⟩ := at_of_drop l quote _ h
  have hp := next_pos_of_some l quote hc
  have hlen := length_of_drop _ _ _ h
  simp only [List.length_append, List.length_cons] at hlen
  have hd1 : l.next.1.input.drop l.next.1.pos = v ++ quote :: hat :: tail := by
    rw [next_input, hp.1]; exact hd
  obtain ⟨s1, s2, s3, s4⟩ := skip_spec v.length l.next.1 (by rw [next_input, hp.1]; omega)
  have hd2 : (l.next.1.skip v.length).peek.1.input.drop (l.next.1.skip v.length).peek.1.pos =
      quote :: hat :: tail := by
    rw [peek_input, peek_pos, s1, s3]; exact drop_of_drop_append _ _ _ _ hd1
  obtain ⟨q1, q2, _⟩ := at_of_drop _ quote _ hd2
  have q3 := next_pos_of_some _ quote q1
  have q4 : (l.next.1.skip v.length).peek.1.next.1.input[
      (l.next.1.skip v.length).peek.1.next.1.pos]? = some hat := by
    rw [next_input, q3.1]
    exact getElem?_of_drop_append _ _ [quote] hat tail hd2
  have hcons : (l.next.1.skip v.length).peek.1.consume U anchor =
      ((l.next.1.skip v.length).peek.1.next.1.peek.1, false) := by
    show lexer.consume U _ [quote, «at», '['] = _
    rw [lexer.consume, accept_same U _ quote q1]
    simp only [if_true]
    rw [lexer.consume, accept_other U _ «at» hat q4 hU]
    simp
  have hq2 : (l.next.1.skip v.length).input[(l.next.1.skip v.length).pos]? = some quote := by
    rw [peek_input, peek_pos] at q1; exact q1
  obtain ⟨t, t1, t2, _⟩ := emitError_says (l.next.1.skip v.length).peek.1.next.1.peek.1
    "predicates require time anchor information; missing \"@[" ""
    "predicates require time anchor information" "; missing \"@[" (by decide)
  refine ⟨(l.next.1.skip v.length).peek.1.next.1.peek.1.emitError
    "predicates require time anchor information; missing \"@[", t, ?_, ?_, t2⟩
  · unfold lexPredicate lexer.fuel
    rw [show l.input.length - l.pos + 1 = (tail.length + 3 + 1) + v.length by omega,
      lexPredicateLoop_skip U v _ l.next.1 _ hd1 hb hq, lexPredicateLoop_quote U _ _ hq2, hcons]
    simp
  · rw [t1, peek_tokens, next_tokens, peek_tokens, s4, next_tokens]

/-! ### The state `lexLiteral` -/

/-- The loop of `lexLiteral` over runes that are neither `\` nor `"`. -/
theorem lexLiteralLoop_skip (U : Unicode) :
    ∀ (a : List Char) (n : Nat) (l : lexer) (tail : List Char),
      l.input.drop l.pos = a ++ tail → backSlash ∉ a → quote ∉ a →
      lexLiteralLoop U (n + a.length) l = lexLiteralLoop U n (l.skip a.length)
  | [], n, l, _, _, _, _ => by simp [lexer.skip]
  | c :: a, n, l, tail, h, hb, hq => by
    obtain ⟨hc, hd, hlt⟩ := at_of_drop l c (a ++ tail) h
    have hp := next_pos_of_some l c hc
    have ih := lexLiteralLoop_skip U a n l.next.1 tail
      (by rw [next_input, hp.1]; exact hd)
      (fun hx => hb (List.mem_cons_of_mem _ hx)) (fun hx => hq (List.mem_cons_of_mem _ hx))
    have c1 : c ≠ backSlash := fun e => hb (e ▸ List.mem_cons_self _ _)
    have c2 : c ≠ quote := fun e => hq (e ▸ List.mem_cons_self _ _)
    show lexLiteralLoop U ((n + a.length) + 1) l =
      lexLiteralLoop U n (lexer.skip l.next.1 a.length)
    rw [← ih]
    simp [lexLiteralLoop, next_snd, hc, c1, c2, eof]

/-- The loop of `lexLiteral` at the `"` that closes the value. -/
theorem lexLiteralLoop_quote (U : Unicode) (n : Nat) (l : lexer)
    (h : l.input[l.pos]? = some quote) :
    lexLiteralLoop U (n + 1) l =
      if !(l.peek.1.consume U literalType).2 then
        some ((l.peek.1.consume U literalType).1.emitError
          "literals require a type definintion; missing ^^type:", none)
      else
        match literalTLoop U (l.peek.1.consume U literalType).1.fuel
            (l.peek.1.consume U literalType).1 [] with
        | none => none
        | some p =>
          if [literalBool, literalInt, literalFloat, literalText, literalBlob].contains
              (p.2.map U.ToLower) then
            some (p.1.backup.emit ItemLiteral, some StateFn.lexSpace)
          else
            some (p.1.emitError ("invalid literal type " ++ String.mk (p.2.map U.ToLower)),
              none) := by
  simp only [lexLiteralLoop, next_snd, h, Option.some.injEq, quote_ne_backSlash, if_false,
    if_true, lexer.peek]

/-- The loop of `lexLiteral` that reads the type, on a text of letters and
digits that ends the input: it reads the text and then `eof`. -/
theorem literalTLoop_all (U : Unicode) :
    ∀ (t : List Char) (n : Nat) (l : lexer) (acc : List Char),
      l.input.drop l.pos = t → (∀ c ∈ t, (U.IsLetter c || U.IsDigit c) = true) →
      t.length < n →
      ∃ p, literalTLoop U n l acc = some (p, acc ++ t) ∧ p.input = l.input ∧
        p.start = l.start ∧ p.tokens = l.tokens ∧ p.pos = l.pos + t.length ∧ p.width = 0
  | _, 0, _, _, _, _, h => by omega
  | [], n + 1, l, acc, h, _, _ => by
    have hc : l.input[l.pos]? = none :=
      List.getElem?_eq_none_iff.mpr (List.drop_eq_nil_iff.mp h)
    have hp := next_pos_of_none l hc
    refine ⟨l.next.1, ?_, next_input l, next_start l, next_tokens l, by simpa using hp.1,
      hp.2⟩
    simp [literalTLoop, next_snd, hc, Unicode.isLetter, Unicode.isDigit]
  | c :: t, n + 1, l, acc, h, ht, hn => by
    obtain ⟨hc, hd, hlt⟩ := at_of_drop l c t h
    have hp := next_pos_of_some l c hc
    obtain ⟨p, e, p1, p2, p3, p4, p5⟩ := literalTLoop_all U t n l.next.1 (acc ++ [c])
      (by rw [next_input, hp.1]; exact hd) (fun d hd => ht d (List.mem_cons_of_mem _ hd))
      (by simp only [List.length_cons] at hn; omega)
    have hl := ht c (List.mem_cons_self _ _)
    refine ⟨p, ?_, p1.trans (next_input l), p2.trans (next_start l), p3.trans (next_tokens l),
      by rw [p4, hp.1, List.length_cons]; omega, p5⟩
    have hcond : (!(U.isLetter (some c) || U.isDigit (some c)) || (some c : rune) == eof) =
        false := by
      simp only [Unicode.isLetter, Unicode.isDigit, hl, eof]
      rfl
    simp only [literalTLoop, next_snd, hc, hcond, Bool.false_eq_true, if_false, Option.toList]
    rw [e]
    simp

/-- The state `lexLiteral` at `"v"^^type:t` that ends the input, for a `v`
without `"` and `\` and a `t` of letters and digits: when `t` in lower case is
one of the five types, the whole text, with the pending text, is sent as a
`LITERAL` token; else the error of the invalid type is sent, which names `t`
in lower case. -/
theorem lexLiteral_exact (U : Unicode) (l : lexer) (v t : List Char)
    (h : l.input.drop l.pos = quote :: (v ++ (literalType ++ t)))
    (hq : quote ∉ v) (hb : backSlash ∉ v)
    (ht : ∀ c ∈ t, (U.IsLetter c || U.IsDigit c) = true) :
    ([literalBool, literalInt, literalFloat, literalText, literalBlob].contains
        (t.map U.ToLower) = true →
      ∃ l1, lexLiteral U l = some (l1, some StateFn.lexSpace) ∧ l1.input = l.input ∧
        l1.pos = l.input.length ∧
        l1.tokens = l.tokens ++
          [{ Typ := ItemLiteral, Text := slice l.input l.start l.input.length
             ErrorMessage := "" }]) ∧
    ([literalBool, literalInt, literalFloat, literalText, literalBlob].contains
        (t.map U.ToLower) = false →
      ∃ l1 tok, lexLiteral U l = some (l1, none) ∧ l1.tokens = l.tokens ++ [tok] ∧
        tok.says ("invalid literal type " ++ String.mk (t.map U.ToLower))) := by
  obtain ⟨hc, hd, hlt⟩ := at_of_drop l quote _ h
  have hp := next_pos_of_some l quote hc
  have hlen := length_of_drop _ _ _ h
  simp only [List.length_append, List.length_cons, show literalType.length = 8 from rfl]
    at hlen
  have hd1 : l.next.1.input.drop l.next.1.pos = v ++ (literalType ++ t) := by
    rw [next_input, hp.1]; exact hd
  obtain ⟨s1, s2, s3, s4⟩ := skip_spec v.length l.next.1 (by rw [next_input, hp.1]; omega)
  rw [next_input] at s1
  rw [next_start] at s2
  rw [hp.1] at s3
  rw [next_tokens] at s4
  have hd2 : (l.next.1.skip v.length).input.drop (l.next.1.skip v.length).pos =
      literalType ++ t := by
    rw [s1, s3]; exact drop_of_drop_append _ _ _ _ hd
  have hq2 : (l.next.1.skip v.length).input[(l.next.1.skip v.length).pos]? = some quote :=
    (at_of_drop _ quote _ hd2).1
  obtain ⟨k1, k2, k3, k4, k5⟩ := consume_same U literalType (l.next.1.skip v.length).peek.1 t
    (by rw [peek_input, peek_pos]; exact hd2)
  have hd3 : ((l.next.1.skip v.length).peek.1.consume U literalType).1.input.drop
      ((l.next.1.skip v.length).peek.1.consume U literalType).1.pos = t := by
    rw [k2, k4, peek_input, peek_pos]
    exact drop_of_drop_append _ _ literalType _ hd2
  rw [peek_input, s1] at k2
  rw [peek_start, s2] at k3
  rw [peek_pos, s3, show literalType.length = 8 from rfl] at k4
  rw [peek_tokens, s4] at k5
  obtain ⟨p, e, p1, p2, p3, p4, p5⟩ := literalTLoop_all U t
    ((l.next.1.skip v.length).peek.1.consume U literalType).1.fuel
    ((l.next.1.skip v.length).peek.1.consume U literalType).1 [] hd3 ht
    (by unfold lexer.fuel; rw [k2, k4]; omega)
  rw [k2] at p1
  rw [k3] at p2
  rw [k5] at p3
  rw [k4] at p4
  rw [List.nil_append] at e
  have hrun : lexLiteral U l =
      lexLiteralLoop U (t.length + 9 + 1) (l.next.1.skip v.length) := by
    unfold lexLiteral lexer.fuel
    rw [show l.input.length - l.pos + 1 = (t.length + 9 + 1) + v.length by omega,
      lexLiteralLoop_skip U v _ l.next.1 _ hd1 hb hq]
  rw [hrun, lexLiteralLoop_quote U _ _ hq2, k1, e]
  have hpos : p.pos = l.input.length := by omega
  constructor
  · intro hin
    refine ⟨p.backup.emit ItemLiteral, ?_, p1, ?_, ?_⟩
    · simp only [Bool.not_true, Bool.false_eq_true, if_false, hin, if_true]
    · show p.pos - p.width = _
      omega
    · simp only [lexer.emit, lexer.backup, p1, p2, p3, p5, hpos, Nat.sub_zero]
  · intro hin
    obtain ⟨tok, t1, t2, _⟩ := emitError_says p
      ("invalid literal type " ++ String.mk (t.map U.ToLower)) ""
      ("invalid literal type " ++ String.mk (t.map U.ToLower)) "" (by simp)
    refine ⟨p.emitError ("invalid literal type " ++ String.mk (t.map U.ToLower)), tok, ?_, ?_,
      t2⟩
    · simp only [Bool.not_true, Bool.false_eq_true, if_false, hin]
    · rw [t1, p3]

end Items

end Badwolf

namespace Badwolf

open TokenType

section ItemClaims

/-! ### The tables on ASCII runes -/

theorem asciiTables_agrees : asciiTables.agreesOnASCII :=
  fun _ _ => ⟨rfl, rfl, rfl, rfl, fun _ _ => rfl⟩

/-- A letter or digit of the ASCII tables is an ASCII rune. -/
theorem ascii_of_letterOrDigit (c : Char)
    (h : (asciiTables.IsLetter c || asciiTables.IsDigit c) = true) : c.toNat < 128 := by
  simp only [asciiTables, Bool.or_eq_true, Bool.and_eq_true, decide_eq_true_eq] at h
  omega

/-- A rune whose lower case is a letter or digit of the ASCII tables is one. -/
theorem letterOrDigit_of_lower (c : Char)
    (h : (asciiTables.IsLetter (asciiTables.ToLower c) ||
      asciiTables.IsDigit (asciiTables.ToLower c)) = true) :
    (asciiTables.IsLetter c || asciiTables.IsDigit c) = true := by
  by_cases hu : (decide (65 ≤ c.toNat) && decide (c.toNat ≤ 90)) = true
  · show ((decide (65 ≤ c.toNat) && decide (c.toNat ≤ 90)) || _ || _) = true
    rw [hu]
    rfl
  · have e : asciiTables.ToLower c = c := by
      show (if (decide (65 ≤ c.toNat) && decide (c.toNat ≤ 90)) = true then _ else c) = c
      rw [if_neg hu]
    rwa [e] at h

/-- On an ASCII rune that the ASCII tables take for neither letter nor digit,
tables that agree with them do the same. -/
theorem not_letterOrDigit (U : Unicode) (hU : U.agreesOnASCII) (c : Char)
    (h128 : c.toNat < 128)
    (hn : (asciiTables.IsLetter c || asciiTables.IsDigit c) = false) :
    (U.IsLetter c || U.IsDigit c) = false := by
  rw [(hU c h128).1, (hU c h128).2.2.1]
  exact hn

/-- A text of letters and digits holds none of `"`, `\` and `@`. -/
theorem plain_of_letterOrDigit (U : Unicode) (hU : U.agreesOnASCII) (v : List Char)
    (hv : ∀ c ∈ v, (U.IsLetter c || U.IsDigit c) = true) :
    quote ∉ v ∧ backSlash ∉ v ∧ «at» ∉ v := by
  refine ⟨fun h => ?_, fun h => ?_, fun h => ?_⟩
  · have := not_letterOrDigit U hU quote (by decide) (by decide)
    rw [hv _ h] at this
    cases this
  · have := not_letterOrDigit U hU backSlash (by decide) (by decide)
    rw [hv _ h] at this
    cases this
  · have := not_letterOrDigit U hU «at» (by decide) (by decide)
    rw [hv _ h] at this
    cases this

/-! ### The marker of a time anchor -/

theorem isPrefixOf_anchor (c : Char) (s : List Char) (h : c ≠ quote) :
    anchor.isPrefixOf (c :: s) = false := by
  show List.isPrefixOf (quote :: [«at», '[']) (c :: s) = false
  rw [List.isPrefixOf]
  have : (quote == c) = false := by
    rw [beq_eq_false_iff_ne]
    exact fun e => h e.symm
  rw [this]
  rfl

/-- A text without `"` does not contain the marker. -/
theorem Contains_anchor_of_no_quote :
    ∀ s : List Char, quote ∉ s → Contains s anchor = false
  | [], _ => rfl
  | c :: s, h => by
    rw [Contains, Contains_anchor_of_no_quote s (fun hx => h (List.mem_cons_of_mem _ hx)),
      isPrefixOf_anchor c s (fun e => h (e ▸ List.mem_cons_self _ _))]
    rfl

/-- A text without `"`, a `"`, a `^` and a text without `"` do not contain
the marker. -/
theorem Contains_anchor_of_hat (R : List Char) (hR : quote ∉ R) :
    ∀ v : List Char, quote ∉ v → Contains (v ++ quote :: hat :: R) anchor = false
  | [], _ => by
    show Contains (quote :: hat :: R) anchor = false
    rw [Contains, Contains_anchor_of_no_quote (hat :: R)
      (by
        intro hx
        rcases List.mem_cons.mp hx with e | e
        · exact absurd e (by decide)
        · exact hR e)]
    rfl
  | c :: v, h => by
    rw [List.cons_append, Contains,
      Contains_anchor_of_hat R hR v (fun hx => h (List.mem_cons_of_mem _ hx)),
      isPrefixOf_anchor c _ (fun e => h (e ▸ List.mem_cons_self _ _))]
    rfl

/-- The input `"v"^^type:t` does not contain the marker when `v` and `t` are
without `"` and `v` does not begin with `@[`. -/
theorem Contains_anchor_literalInput (v t : List Char) (hq : quote ∉ v) (ht : quote ∉ t)
    (hp : [«at», '['].isPrefixOf v = false) :
    Contains (literalInput v t) anchor = false := by
  have hR : quote ∉ hat :: 't' :: 'y' :: 'p' :: 'e' :: ':' :: t := by
    intro hx
    simp only [List.mem_cons] at hx
    rcases hx with e | e | e | e | e | e | e
    · exact absurd e (by decide)
    · exact absurd e (by decide)
    · exact absurd e (by decide)
    · exact absurd e (by decide)
    · exact absurd e (by decide)
    · exact absurd e (by decide)
    · exact ht e
  have e : literalInput v t =
      quote :: (v ++ quote :: hat :: (hat :: 't' :: 'y' :: 'p' :: 'e' :: ':' :: t)) := by
    simp [literalInput, literalType, quote, hat]
  rw [e, Contains, Contains_anchor_of_hat _ hR v hq, Bool.or_false]
  show List.isPrefixOf (quote :: [«at», '[']) (quote :: _) = false
  rw [List.isPrefixOf, beq_self_eq_true, Bool.true_and]
  cases v with
  | nil => rfl
  | cons a v =>
    cases v with
    | nil =>
      show («at» == a && ('[' == quote && true)) = false
      rw [show ('[' == quote) = false from rfl]
      simp
    | cons b v =>
      simp only [List.isPrefixOf, List.cons_append] at hp ⊢
      exact hp

/-- The input `"v"^^type:t`, rune by rune. -/
theorem literalInput_eq (v t : List Char) :
    literalInput v t = quote :: (v ++ (literalType ++ t)) := by
  simp [literalInput]

/-- The scanner `lex` creates stands at the first rune of the input. -/
theorem lex_head (input : List Char) (c : Char) (rest : List Char) (h : input = c :: rest) :
    (lex input 0).input[(lex input 0).pos]? = some c := by
  subst h
  simp [lex]

/-! ### Nodes -/

/-- C16: on an input that begins with `/` and holds no `\`, without a `>` the
tokens are one `ERROR` token that says `missing final > delimiter`; with a
first `>` and no `<` before it they are one `ERROR` token that says
`node should start ID section with a < delimiter`; else the first token is a
`NODE` token whose text is the input up to and including the first `>`. -/
theorem lexNode_cases (U : Unicode) (input : List Char) (capacity : Int)
    (h0 : input.head? = some slash) (hb : backSlash ∉ input) :
    (gt ∉ input → ∃ t, New U input capacity = some [t] ∧ t.says "missing final > delimiter") ∧
    (∀ a b, input = a ++ gt :: b → gt ∉ a →
      (lt ∉ a → ∃ t, New U input capacity = some [t] ∧
        t.says "node should start ID section with a < delimiter") ∧
      (lt ∈ a → ∃ rest, New U input capacity =
        some ({ Typ := ItemNode, Text := a ++ [gt], ErrorMessage := "" } :: rest))) := by
  obtain ⟨rest0, hin⟩ : ∃ rest0, input = slash :: rest0 := by
    cases input with
    | nil => simp at h0
    | cons c s => exact ⟨s, by simp at h0; rw [h0]⟩
  have e0 := lexToken_slash U (lex input 0) (lex_head input slash rest0 hin)
  obtain ⟨n1, n2⟩ := lexNode_exact (lex input 0).peek.1 input
    (by rw [peek_input, peek_pos]; rfl) hb
  have hT : (lex input 0).peek.1.tokens = [] := peek_tokens _
  constructor
  · intro hg
    obtain ⟨l1, t, e1, t1, t2⟩ := n1 hg
    refine ⟨t, ?_, t2⟩
    rw [New_of_runs U input capacity l1
      (runs_step U _ _ _ _ _ e0 (runs_step U StateFn.lexNode _ _ _ _ e1 (runs_nil U l1))),
      t1, hT]
    rfl
  · intro a b hab hg
    obtain ⟨n3, n4⟩ := n2 a b hab hg
    constructor
    · intro hl
      obtain ⟨l1, t, e1, t1, t2⟩ := n3 hl
      refine ⟨t, ?_, t2⟩
      rw [New_of_runs U input capacity l1
        (runs_step U _ _ _ _ _ e0 (runs_step U StateFn.lexNode _ _ _ _ e1 (runs_nil U l1))),
        t1, hT]
      rfl
    · intro hl
      obtain ⟨l1, e1, _, t1⟩ := n4 hl
      obtain ⟨l2, more, r2, t2⟩ := runs_total U StateFn.lexSpace l1 ⟨by simp, by simp⟩
      refine ⟨more, ?_⟩
      rw [New_of_runs U input capacity l2
        (runs_step U _ _ _ _ _ e0 (runs_step U StateFn.lexNode _ _ _ _ e1 r2)),
        t2, t1, hT, peek_input, peek_start, peek_pos]
      have hs : slice input 0 (0 + a.length + 1) = a ++ [gt] := by
        have h1 : input = (a ++ [gt]) ++ b := by rw [hab]; simp
        have h2 : 0 + a.length + 1 = (a ++ [gt]).length := by simp
        rw [h1, h2, slice_head]
      show some (([] ++ [Token.mk ItemNode (slice input 0 (0 + a.length + 1)) ""]) ++ more) = _
      rw [hs]
      rfl

/-- The witness of C16: the input `/type<id`, which has no `>`. -/
theorem lexNode_cases_witness :
    ∃ t, New asciiTables "/type<id".toList 0 = some [t] ∧ t.says "missing final > delimiter" :=
  (lexNode_cases asciiTables "/type<id".toList 0 (by decide) (by decide)).1 (by decide)

/-! ### Predicates -/

/-- C15: on the input `"id"@[` followed by `s`, for an id that holds neither
`"` nor `\`: when `s` holds a `]` the first token is a `PREDICATE` token whose
text is the input up to and including the first `]` of `s`; when it holds none
the tokens are one `ERROR` token that says
`predicate's time anchors should end with ] delimiter`. -/
theorem lexPredicate_cases (U : Unicode) (id s : List Char) (capacity : Int)
    (hq : quote ∉ id) (hb : backSlash ∉ id) :
    (∀ pre post, s = pre ++ rightSquarePar :: post → rightSquarePar ∉ pre →
      ∃ rest, New U (predicateInput id s) capacity =
        some ({ Typ := ItemPredicate, Text := predicateInput id (pre ++ [rightSquarePar])
                ErrorMessage := "" } :: rest)) ∧
    (rightSquarePar ∉ s → ∃ t, New U (predicateInput id s) capacity = some [t] ∧
      t.says "predicate's time anchors should end with ] delimiter") := by
  have hin : predicateInput id s = quote :: (id ++ (anchor ++ s)) := by
    simp [predicateInput]
  have e0 := lexToken_quote U (lex (predicateInput id s) 0) (lex_head _ quote _ hin)
  have hd : (lex (predicateInput id s) 0).peek.1.input.drop
      (lex (predicateInput id s) 0).peek.1.pos = quote :: (id ++ (anchor ++ s)) := by
    rw [peek_input, peek_pos]; exact hin
  have e1 := lexPredicateOrLiteral_anchor (lex (predicateInput id s) 0).peek.1 (by
    rw [hd]
    exact Contains_append_left anchor _ (Contains_head anchor s) (quote :: id))
  obtain ⟨n1, n2⟩ := lexPredicate_exact U (lex (predicateInput id s) 0).peek.1 id s hd hq hb
  have hT : (lex (predicateInput id s) 0).peek.1.tokens = [] := peek_tokens _
  constructor
  · intro pre post hs hr
    obtain ⟨l1, e2, _, t1⟩ := n1 pre post hs hr
    obtain ⟨l2, more, r2, t2⟩ := runs_total U StateFn.lexSpace l1 ⟨by simp, by simp⟩
    refine ⟨more, ?_⟩
    rw [New_of_runs U _ capacity l2
      (runs_step U _ _ _ _ _ e0 (runs_step U StateFn.lexPredicateOrLiteral _ _ _ _ e1
        (runs_step U StateFn.lexPredicate _ _ _ _ e2 r2))),
      t2, t1, hT, peek_input, peek_start, peek_pos]
    have hs2 : slice (predicateInput id s) 0 (0 + 1 + id.length + 3 + pre.length + 1) =
        predicateInput id (pre ++ [rightSquarePar]) := by
      have h1 : predicateInput id s = predicateInput id (pre ++ [rightSquarePar]) ++ post := by
        rw [hs]; simp [predicateInput]
      have h2 : 0 + 1 + id.length + 3 + pre.length + 1 =
          (predicateInput id (pre ++ [rightSquarePar])).length := by
        simp [predicateInput, anchor]
        omega
      rw [h1, h2, slice_head]
    show some (([] ++ [Token.mk ItemPredicate
      (slice (predicateInput id s) 0 (0 + 1 + id.length + 3 + pre.length + 1)) ""]) ++ more) = _
    rw [hs2]
    rfl
  · intro hr
    obtain ⟨l1, t, e2, t1, t2⟩ := n2 hr
    refine ⟨t, ?_, t2⟩
    rw [New_of_runs U _ capacity l1
      (runs_step U _ _ _ _ _ e0 (runs_step U StateFn.lexPredicateOrLiteral _ _ _ _ e1
        (runs_step U StateFn.lexPredicate _ _ _ _ e2 (runs_nil U l1)))),
      t1, hT]
    rfl

/-- The witness of C15: the input `"knows"@[2015] ?x`. -/
theorem lexPredicate_cases_witness :
    ∃ rest, New asciiTables (predicateInput "knows".toList "2015] ?x".toList) 0 =
      some ({ Typ := ItemPredicate
              Text := predicateInput "knows".toList ("2015".toList ++ [rightSquarePar])
              ErrorMessage := "" } :: rest) :=
  (lexPredicate_cases asciiTables "knows".toList "2015] ?x".toList 0 (by decide)
    (by decide)).1 "2015".toList " ?x".toList (by decide) (by decide)

/-- C19: when a text that contains the marker `"@[` follows `"v"^^type:t`,
for a `v` that holds neither `"` nor `\`, `lexPredicateOrLiteral` returns
`lexPredicate`, and the tokens are one `ERROR` token that says
`predicates require time anchor information`. -/
theorem marker_later_takes_predicate_path (U : Unicode) (hU : U.agreesOnASCII)
    (v t rest : List Char) (capacity : Int) (hq : quote ∉ v) (hb : backSlash ∉ v)
    (hr : Contains rest anchor = true) :
    lexPredicateOrLiteral (lex (literalInput v t ++ rest) 0) =
      some (lex (literalInput v t ++ rest) 0, some StateFn.lexPredicate) ∧
    ∃ tok, New U (literalInput v t ++ rest) capacity = some [tok] ∧
      tok.says "predicates require time anchor information" := by
  have hin : literalInput v t ++ rest =
      quote :: (v ++ quote :: hat :: (hat :: 't' :: 'y' :: 'p' :: 'e' :: ':' :: (t ++ rest))) := by
    simp [literalInput, literalType, quote, hat]
  have hc : Contains (literalInput v t ++ rest) anchor = true :=
    Contains_append_left anchor rest hr _
  have hlow : U.ToLower hat ≠ U.ToLower «at» := by
    rw [(hU hat (by decide)).2.2.2.1, (hU «at» (by decide)).2.2.2.1]
    decide
  have e0 := lexToken_quote U (lex (literalInput v t ++ rest) 0) (lex_head _ quote _ hin)
  have hd : (lex (literalInput v t ++ rest) 0).peek.1.input.drop
      (lex (literalInput v t ++ rest) 0).peek.1.pos =
      quote :: (v ++ quote :: hat :: (hat :: 't' :: 'y' :: 'p' :: 'e' :: ':' :: (t ++ rest))) := by
    rw [peek_input, peek_pos]; exact hin
  have e1 := lexPredicateOrLiteral_anchor (lex (literalInput v t ++ rest) 0).peek.1 (by
    rw [peek_input, peek_pos]; exact hc)
  obtain ⟨l1, tok, e2, t1, t2⟩ :=
    lexPredicate_hat U hlow (lex (literalInput v t ++ rest) 0).peek.1 v _ hd hq hb
  refine ⟨lexPredicateOrLiteral_anchor _ hc, tok, ?_, t2⟩
  rw [New_of_runs U _ capacity l1
    (runs_step U _ _ _ _ _ e0 (runs_step U StateFn.lexPredicateOrLiteral _ _ _ _ e1
      (runs_step U StateFn.lexPredicate _ _ _ _ e2 (runs_nil U l1)))),
    t1, peek_tokens]
  rfl

/-- The witness of C19: the input `"a"^^type:text "b"@[]`. -/
theorem marker_later_takes_predicate_path_witness :
    lexPredicateOrLiteral (lex (literalInput "a".toList "text".toList ++ " \"b\"@[]".toList) 0) =
      some (lex (literalInput "a".toList "text".toList ++ " \"b\"@[]".toList) 0,
        some StateFn.lexPredicate) ∧
    ∃ tok, New asciiTables (literalInput "a".toList "text".toList ++ " \"b\"@[]".toList) 0 =
        some [tok] ∧
      tok.says "predicates require time anchor information" :=
  marker_later_takes_predicate_path asciiTables asciiTables_agrees "a".toList "text".toList
    " \"b\"@[]".toList 0 (by decide) (by decide) (by decide)

/-! ### Literals -/

/-- The type of a literal that is one of the five types, letter case apart:
its runes are ASCII letters and digits, and in lower case it is the type. -/
theorem tag_of_sameIgnoringCase (U : Unicode) (hU : U.agreesOnASCII) (t tag : List Char)
    (htag : tag ∈ literalTags) (ht : sameIgnoringCase t tag = true) :
    (∀ c ∈ t, (U.IsLetter c || U.IsDigit c) = true) ∧ quote ∉ t ∧
      t.map U.ToLower = tag := by
  have hlow : ∀ x ∈ literalTags, x.map asciiTables.ToLower = x ∧
      ∀ d ∈ x, (asciiTables.IsLetter d || asciiTables.IsDigit d) = true := by decide
  have e1 : t.map asciiTables.ToLower = tag := by
    have := eq_of_beq ht
    rwa [(hlow tag htag).1] at this
  have hall : ∀ c ∈ t, (asciiTables.IsLetter c || asciiTables.IsDigit c) = true := by
    intro c hc
    apply letterOrDigit_of_lower
    apply (hlow tag htag).2
    rw [← e1]
    exact List.mem_map_of_mem _ hc
  have h128 : ∀ c ∈ t, c.toNat < 128 := fun c hc => ascii_of_letterOrDigit c (hall c hc)
  refine ⟨?_, ?_, ?_⟩
  · intro c hc
    rw [(hU c (h128 c hc)).1, (hU c (h128 c hc)).2.2.1]
    exact hall c hc
  · intro hx
    have := hall quote hx
    revert this
    decide
  · rw [← e1]
    exact List.map_congr_left fun c hc => (hU c (h128 c hc)).2.2.2.1

/-- The counterexample of C13: the value `@[` holds neither `"` nor `\` and
`text` is one of the five types, and the input `"@["^^type:text` scans to one
`ERROR` token, not to a `LITERAL` token and an `EOF` token. -/
theorem literal_value_with_marker :
    quote ∉ "@[".toList ∧ backSlash ∉ "@[".toList ∧
    sameIgnoringCase "text".toList literalText = true ∧
    New asciiTables (literalInput "@[".toList "text".toList) 0 =
      some [{ Typ := ItemError, Text := "\"@[\"".toList
              ErrorMessage :=
                "[lexer:0:4] predicates require time anchor information; missing \"@[" }] ∧
    New asciiTables (literalInput "@[".toList "text".toList) 0 ≠
      some [{ Typ := ItemLiteral, Text := literalInput "@[".toList "text".toList
              ErrorMessage := "" }, eofToken] := by
  decide

/-- C13, amended: for a value `v` that holds neither `"` nor `\` and does not
begin with `@[`, and a type `t` that is one of the five types, letter case
apart, the input `"v"^^type:t` scans to a `LITERAL` token whose text is the
whole input, and an `EOF` token. -/
theorem literal_scans_whole (U : Unicode) (hU : U.agreesOnASCII) (v t tag : List Char)
    (capacity : Int) (hq : quote ∉ v) (hb : backSlash ∉ v)
    (hp : [«at», '['].isPrefixOf v = false) (htag : tag ∈ literalTags)
    (ht : sameIgnoringCase t tag = true) :
    New U (literalInput v t) capacity =
      some [{ Typ := ItemLiteral, Text := literalInput v t, ErrorMessage := "" },
            eofToken] := by
  obtain ⟨a1, a2, a3⟩ := tag_of_sameIgnoringCase U hU t tag htag ht
  have hin := literalInput_eq v t
  have e0 := lexToken_quote U (lex (literalInput v t) 0) (lex_head _ quote _ hin)
  have hd : (lex (literalInput v t) 0).peek.1.input.drop
      (lex (literalInput v t) 0).peek.1.pos = quote :: (v ++ (literalType ++ t)) := by
    rw [peek_input, peek_pos]; exact hin
  have e1 := lexPredicateOrLiteral_type (lex (literalInput v t) 0).peek.1
    (by rw [peek_input, peek_pos]; exact Contains_anchor_literalInput v t hq a2 hp)
    (by
      rw [hd]
      exact Contains_append_left literalType _ (Contains_head literalType t) (quote :: v))
  obtain ⟨n1, _⟩ := lexLiteral_exact U (lex (literalInput v t) 0).peek.1 v t hd hq hb a1
  obtain ⟨l1, e2, i1, p1, t1⟩ := n1 (by
    rw [a3]
    simpa [literalTags] using htag)
  obtain ⟨l2, r2, t2⟩ := runs_at_end U l1 (by rw [i1, p1])
  rw [New_of_runs U _ capacity l2
    (runs_step U _ _ _ _ _ e0 (runs_step U StateFn.lexPredicateOrLiteral _ _ _ _ e1
      (runs_step U StateFn.lexLiteral _ _ _ _ e2 r2))),
    t2, t1, peek_tokens, peek_input, peek_start]
  show some (([] ++ [Token.mk ItemLiteral
    (slice (literalInput v t) 0 (literalInput v t).length) ""]) ++ [eofToken]) = _
  rw [slice_all]
  rfl

/-- The witness of C13: the input `"42"^^type:INT64`. -/
theorem literal_scans_whole_witness :
    New asciiTables (literalInput "42".toList "INT64".toList) 0 =
      some [{ Typ := ItemLiteral, Text := literalInput "42".toList "INT64".toList
              ErrorMessage := "" }, eofToken] :=
  literal_scans_whole asciiTables asciiTables_agrees "42".toList "INT64".toList literalInt 0
    (by decide) (by decide) (by decide) (by decide) (by decide)

/-- The counterexample of C14: the input `"42"^^type:Foo` scans to one
`ERROR` token whose message names the type `foo`, in lower case, and does not
contain `invalid literal type Foo`. -/
theorem invalid_type_in_lower_case :
    sameIgnoringCase "Foo".toList literalBool = false ∧
    sameIgnoringCase "Foo".toList literalInt = false ∧
    sameIgnoringCase "Foo".toList literalFloat = false ∧
    sameIgnoringCase "Foo".toList literalText = false ∧
    sameIgnoringCase "Foo".toList literalBlob = false ∧
    New asciiTables (literalInput "42".toList "Foo".toList) 0 =
      some [{ Typ := ItemError, Text := literalInput "42".toList "Foo".toList
              ErrorMessage := "[lexer:0:14] invalid literal type foo" }] ∧
    ¬ Token.says { Typ := ItemError, Text := literalInput "42".toList "Foo".toList
                   ErrorMessage := "[lexer:0:14] invalid literal type foo" }
        "invalid literal type Foo" := by
  decide

/-- C14, amended: for a value `v` and a type `t` made of letters and digits,
when `t` in lower case is none of the five types, the input `"v"^^type:t`
scans to one `ERROR` token, whose message contains `invalid literal type `
followed by `t` in lower case. -/
theorem invalid_literal_type (U : Unicode) (hU : U.agreesOnASCII) (v t : List Char)
    (capacity : Int) (hv : ∀ c ∈ v, (U.IsLetter c || U.IsDigit c) = true)
    (ht : ∀ c ∈ t, (U.IsLetter c || U.IsDigit c) = true)
    (hn : t.map U.ToLower ∉ literalTags) :
    ∃ tok, New U (literalInput v t) capacity = some [tok] ∧
      tok.says ("invalid literal type " ++ String.mk (t.map U.ToLower)) := by
  obtain ⟨hq, hb, hat⟩ := plain_of_letterOrDigit U hU v hv
  obtain ⟨hq2, _, _⟩ := plain_of_letterOrDigit U hU t ht
  have hp : [«at», '['].isPrefixOf v = false := by
    cases v with
    | nil => rfl
    | cons a v =>
      have ha : («at» == a) = false := by
        rw [beq_eq_false_iff_ne]
        exact fun e => hat (e ▸ List.mem_cons_self _ _)
      rw [List.isPrefixOf, ha]
      rfl
  have hin := literalInput_eq v t
  have e0 := lexToken_quote U (lex (literalInput v t) 0) (lex_head _ quote _ hin)
  have hd : (lex (literalInput v t) 0).peek.1.input.drop
      (lex (literalInput v t) 0).peek.1.pos = quote :: (v ++ (literalType ++ t)) := by
    rw [peek_input, peek_pos]; exact hin
  have e1 := lexPredicateOrLiteral_type (lex (literalInput v t) 0).peek.1
    (by rw [peek_input, peek_pos]; exact Contains_anchor_literalInput v t hq hq2 hp)
    (by
      rw [hd]
      exact Contains_append_left literalType _ (Contains_head literalType t) (quote :: v))
  obtain ⟨_, n2⟩ := lexLiteral_exact U (lex (literalInput v t) 0).peek.1 v t hd hq hb ht
  obtain ⟨l1, tok, e2, t1, t2⟩ := n2 (by
    rw [Bool.eq_false_iff]
    intro hc
    apply hn
    simpa [literalTags] using hc)
  refine ⟨tok, ?_, t2⟩
  rw [New_of_runs U _ capacity l1
    (runs_step U _ _ _ _ _ e0 (runs_step U StateFn.lexPredicateOrLiteral _ _ _ _ e1
      (runs_step U StateFn.lexLiteral _ _ _ _ e2 (runs_nil U l1)))),
    t1, peek_tokens]
  rfl

/-- The witness of C14: the input `"42"^^type:unknown`. -/
theorem invalid_literal_type_witness :
    ∃ tok, New asciiTables (literalInput "42".toList "unknown".toList) 0 = some [tok] ∧
      tok.says ("invalid literal type " ++
        String.mk ("unknown".toList.map asciiTables.ToLower)) :=
  invalid_literal_type asciiTables asciiTables_agrees "42".toList "unknown".toList 0
    (by decide) (by decide) (by decide)

end ItemClaims

end Badwolf

namespace Badwolf

open TokenType

section Words

/-! ### Letter case on ASCII letters -/

theorem toNat_inj (a b : Char) : a = b ↔ a.toNat = b.toNat :=
  ⟨fun h => h ▸ rfl, fun h => by rw [← Char.ofNat_toNat a, ← Char.ofNat_toNat b, h]⟩

theorem toNat_ofNat_small : ∀ n, n < 123 → (Char.ofNat n).toNat = n := by
  decide

/-- The code of the lower case of a rune, in the ASCII tables. -/
theorem toLower_toNat (a : Char) :
    (asciiTables.ToLower a).toNat =
      if 65 ≤ a.toNat ∧ a.toNat ≤ 90 then a.toNat + 32 else a.toNat := by
  show (if (decide (65 ≤ a.toNat) && decide (a.toNat ≤ 90)) = true then
    Char.ofNat (a.toNat + 32) else a).toNat = _
  by_cases h : 65 ≤ a.toNat ∧ a.toNat ≤ 90
  · rw [if_pos (by simp [h]), if_pos h, toNat_ofNat_small _ (by omega)]
  · rw [if_neg (by simpa using h), if_neg h]

/-- In the ASCII tables two runes are equal or fold to each other exactly
when they are equal in lower case. -/
theorem fold_iff (a b : Char) :
    (a == b || asciiTables.FoldEq a b) = true ↔
      asciiTables.ToLower a = asciiTables.ToLower b := by
  rw [toNat_inj (asciiTables.ToLower a), toLower_toNat, toLower_toNat]
  simp only [asciiTables, Bool.or_eq_true, Bool.and_eq_true, decide_eq_true_eq, beq_iff_eq]
  rw [toNat_inj a b]
  split_ifs <;> omega

/-- An ASCII letter is an ASCII rune, no space and none of `?`, `/`, `"`. -/
theorem ascii_of_letter (c : Char) (h : asciiTables.IsLetter c = true) :
    c.toNat < 128 ∧ asciiTables.IsSpace c = false ∧ c ≠ binding ∧ c ≠ slash ∧ c ≠ quote := by
  refine ⟨?_, ?_, ?_, ?_, ?_⟩
  · simp only [asciiTables, Bool.or_eq_true, Bool.and_eq_true, decide_eq_true_eq] at h
    omega
  · simp only [asciiTables, Bool.or_eq_true, Bool.and_eq_true, decide_eq_true_eq] at h
    simp only [asciiTables, Bool.or_eq_false_iff, Bool.and_eq_false_iff, beq_eq_false_iff_ne,
      decide_eq_false_iff_not]
    omega
  · rintro rfl
    exact absurd h (by decide)
  · rintro rfl
    exact absurd h (by decide)
  · rintro rfl
    exact absurd h (by decide)

/-- On texts of ASCII letters `strings.EqualFold` is equality in lower case. -/
theorem EqualFold_iff (U : Unicode) (hU : U.agreesOnASCII) :
    ∀ (w k : List Char), (∀ c ∈ w, asciiTables.IsLetter c = true) →
      (∀ c ∈ k, asciiTables.IsLetter c = true) →
      (EqualFold U w k = true ↔ sameIgnoringCase w k = true)
  | [], [], _, _ => by simp [EqualFold, sameIgnoringCase]
  | [], _ :: _, _, _ => by simp [EqualFold, sameIgnoringCase]
  | _ :: _, [], _, _ => by simp [EqualFold, sameIgnoringCase]
  | a :: w, b :: k, hw, hk => by
    have ha := hw a (List.mem_cons_self _ _)
    have hb := hk b (List.mem_cons_self _ _)
    have ih := EqualFold_iff U hU w k (fun c hc => hw c (List.mem_cons_of_mem _ hc))
      (fun c hc => hk c (List.mem_cons_of_mem _ hc))
    unfold sameIgnoringCase at ih ⊢
    rw [beq_iff_eq] at ih ⊢
    rw [EqualFold, Bool.and_eq_true,
      (hU a (ascii_of_letter a ha).1).2.2.2.2 b (ascii_of_letter b hb).1, fold_iff a b,
      ih, List.map_cons, List.map_cons, List.cons.injEq]

/-! ### The keywords -/

/-- The keywords are ASCII letters in lower case, and no two of them are
equal in lower case. -/
theorem keywords_distinct :
    (∀ kw ∈ keywords, ∀ c ∈ kw.1, asciiTables.IsLetter c = true) ∧
    ∀ k1 ∈ keywords, ∀ k2 ∈ keywords, sameIgnoringCase k1.1 k2.1 = true → k1 = k2 := by
  decide

theorem sameIgnoringCase_trans (a b c : List Char) (h1 : sameIgnoringCase a b = true)
    (h2 : sameIgnoringCase a c = true) : sameIgnoringCase b c = true := by
  unfold sameIgnoringCase at *
  rw [beq_iff_eq] at *
  rw [← h1, h2]

/-- The state `lexKeyword` on a text of ASCII letters that ends the input:
when the text is a keyword, letter case apart, it is sent, with the pending
text, as the token of the keyword; when it is none, as an `ERROR` token that
says `found unknown keyword`. -/
theorem lexKeyword_exact (U : Unicode) (hU : U.agreesOnASCII) (l : lexer) (w : List Char)
    (h : l.input.drop l.pos = w) (hw : ∀ c ∈ w, asciiTables.IsLetter c = true) :
    (∀ kw ∈ keywords, sameIgnoringCase w kw.1 = true →
      ∃ l1, lexKeyword U l = some (l1, some StateFn.lexSpace) ∧ l1.input = l.input ∧
        l1.pos = l.pos + w.length ∧
        l1.tokens = l.tokens ++
          [{ Typ := kw.2, Text := slice l.input l.start (l.pos + w.length)
             ErrorMessage := "" }]) ∧
    ((∀ kw ∈ keywords, sameIgnoringCase w kw.1 = false) →
      ∃ l1 t, lexKeyword U l = some (l1, none) ∧ l1.tokens = l.tokens ++ [t] ∧
        t.says "found unknown keyword" ∧
        t.Text = slice l.input l.start (l.pos + w.length)) := by
  have hlen := length_of_drop _ _ _ h
  have hletter : ∀ c ∈ w, U.IsLetter c = true := fun c hc => by
    rw [(hU c (ascii_of_letter c (hw c hc)).1).1]; exact hw c hc
  have htw : (l.input.drop l.pos).takeWhile U.IsLetter = w := by
    rw [h]; exact takeWhile_all _ _ hletter
  have hfold : ∀ kw ∈ keywords, (EqualFold U w kw.1 = true ↔ sameIgnoringCase w kw.1 = true) :=
    fun kw hkw => EqualFold_iff U hU w kw.1 hw (keywords_distinct.1 kw hkw)
  constructor
  · intro kw hkw hsame
    cases hf : keywords.find? (fun kw => EqualFold U
        ((l.input.drop l.pos).takeWhile U.IsLetter) kw.1) with
    | none =>
      have := List.find?_eq_none.mp hf kw hkw
      rw [htw] at this
      exact absurd ((hfold kw hkw).mpr hsame) (by simpa using this)
    | some kw1 =>
      have hmem := List.mem_of_find?_eq_some hf
      have hf1 := List.find?_some hf
      rw [htw] at hf1
      have hk : kw1 = kw :=
        keywords_distinct.2 kw1 hmem kw hkw
          (sameIgnoringCase_trans w _ _ ((hfold kw1 hmem).mp hf1) hsame)
      subst hk
      obtain ⟨l1, h1, h2, h3, h4⟩ := consumeKeyword_spec U l kw1.2
      rw [htw] at h3 h4
      exact ⟨l1, by simp [lexKeyword, hf, h1], h2, h3, h4⟩
  · intro hnone
    have hf : keywords.find? (fun kw => EqualFold U
        ((l.input.drop l.pos).takeWhile U.IsLetter) kw.1) = none := by
      rw [List.find?_eq_none, htw]
      intro kw hkw hx
      have := (hfold kw hkw).mp hx
      rw [hnone kw hkw] at this
      cases this
    obtain ⟨p, h1, h2, h3, h4, h5, h6, h7, _⟩ :=
      nextUntil_spec (fun r => U.isSpace r || r == eof) rfl l.fuel l (fuel_enough l)
    have hk : ((l.input.drop l.pos).takeWhile
        fun c => !(U.isSpace (some c) || (some c : rune) == eof)) = w := by
      rw [h]
      apply takeWhile_all
      intro c hc
      have hs : U.IsSpace c = false := by
        rw [(hU c (ascii_of_letter c (hw c hc)).1).2.1]
        exact (ascii_of_letter c (hw c hc)).2.1
      simp [Unicode.isSpace, hs, eof]
    rw [hk] at h1 h5 h7
    have hw0 : p.width = 0 := by
      have : ¬ p.width = 1 := fun e => by
        have := h7.mp e
        omega
      omega
    obtain ⟨t, t1, t2, t3⟩ := emitError_says p.backup "found unknown keyword" ""
      "found unknown keyword" "" (by decide)
    refine ⟨p.backup.emitError "found unknown keyword", t, by simp [lexKeyword, hf, h1], ?_, t2,
      ?_⟩
    · rw [t1, backup_tokens, h4]
    · rw [t3, backup_input, backup_start, backup_pos, h2, h3, h5, hw0]
      rfl

/-! ### Keywords and punctuation -/

/-- The keywords of the specification and those of `lexKeyword` are the
same, with the same token types. -/
theorem keywordTypes_eq :
    (∀ kw ∈ keywordTypes, kw ∈ keywords) ∧ ∀ kw ∈ keywords, kw ∈ keywordTypes := by
  decide

/-- C11: for an input `w` of ASCII letters that is not empty: when `w` is one
of the 23 keywords, letter case apart, the tokens are a token of the type of
that keyword whose text is `w`, and an `EOF` token; when it is none of them
the tokens are one `ERROR` token whose text is `w` and that says
`found unknown keyword`. -/
theorem keyword_or_unknown (U : Unicode) (hU : U.agreesOnASCII) (w : List Char)
    (capacity : Int) (hne : w ≠ []) (hw : ∀ c ∈ w, asciiTables.IsLetter c = true) :
    (∀ kw ∈ keywordTypes, sameIgnoringCase w kw.1 = true →
      New U w capacity = some [{ Typ := kw.2, Text := w, ErrorMessage := "" }, eofToken]) ∧
    ((∀ kw ∈ keywordTypes, sameIgnoringCase w kw.1 = false) →
      ∃ t, New U w capacity = some [t] ∧ t.Text = w ∧ t.says "found unknown keyword") := by
  obtain ⟨c, rest, hin⟩ : ∃ c rest, w = c :: rest := by
    cases w with
    | nil => exact absurd rfl hne
    | cons c rest => exact ⟨c, rest, rfl⟩
  have hc := hw c (by rw [hin]; exact List.mem_cons_self _ _)
  obtain ⟨a1, _, a3, a4, a5⟩ := ascii_of_letter c hc
  have e0 := lexToken_letter U (lex w 0) c (lex_head w c rest hin) a3 a4 a5
    (by rw [(hU c a1).1]; exact hc)
  obtain ⟨n1, n2⟩ := lexKeyword_exact U hU (lex w 0).peek.1 w
    (by rw [peek_input, peek_pos]; rfl) hw
  have hs : slice w 0 (0 + w.length) = w := by rw [Nat.zero_add, slice_all]
  constructor
  · intro kw hkw hsame
    obtain ⟨l1, e1, i1, p1, t1⟩ := n1 kw (keywordTypes_eq.1 kw hkw) hsame
    rw [peek_pos] at p1
    obtain ⟨l2, r2, t2⟩ := runs_at_end U l1 (by
      rw [i1, p1, peek_input]
      show w.length ≤ 0 + w.length
      omega)
    rw [New_of_runs U w capacity l2
      (runs_step U _ _ _ _ _ e0 (runs_step U StateFn.lexKeyword _ _ _ _ e1 r2)),
      t2, t1, peek_tokens, peek_input, peek_start, peek_pos]
    show some (([] ++ [Token.mk kw.2 (slice w 0 (0 + w.length)) ""]) ++ [eofToken]) = _
    rw [hs]
    rfl
  · intro hnone
    obtain ⟨l1, t, e1, t1, t2, t3⟩ :=
      n2 (fun kw hkw => hnone kw (keywordTypes_eq.2 kw hkw))
    refine ⟨t, ?_, ?_, t2⟩
    · rw [New_of_runs U w capacity l1
        (runs_step U _ _ _ _ _ e0 (runs_step U StateFn.lexKeyword _ _ _ _ e1 (runs_nil U l1))),
        t1, peek_tokens]
      rfl
    · rw [t3, peek_input, peek_start, peek_pos]
      exact hs

/-- The witness of C11: the input `SeLect`. -/
theorem keyword_or_unknown_witness :
    New asciiTables "SeLect".toList 0 =
      some [{ Typ := ItemQuery, Text := "SeLect".toList, ErrorMessage := "" }, eofToken] :=
  (keyword_or_unknown asciiTables asciiTables_agrees "SeLect".toList 0 (by decide)
    (by decide)).1 ("select".toList, ItemQuery) (by decide) (by decide)

/-- The ten punctuation characters are the ten symbols of `lexToken`, with
the same token types; they are ASCII runes, no letters and no spaces. -/
theorem punctuation_symbols :
    ∀ p ∈ punctuation, (p.2, p.1) ∈ singleSymbols ∧ p.1.toNat < 128 ∧
      asciiTables.IsLetter p.1 = false ∧ asciiTables.IsSpace p.1 = false := by
  decide

/-- The run of the scanner from `lexToken` on a text of punctuation
characters that ends the input, with no pending text: one token for each
character, and an `EOF` token. -/
theorem runs_punctuation (U : Unicode) (hU : U.agreesOnASCII) :
    ∀ (s : List Char) (toks : List Token) (l : lexer), List.Forall₂ punctuationToken s toks →
      l.input.drop l.pos = s → l.start = l.pos →
      ∃ l2, Runs U (some StateFn.lexToken) l l2 ∧ l2.tokens = l.tokens ++ toks ++ [eofToken]
  | [], _, l, h, hd, hs => by
    cases h
    obtain ⟨l1, e, t⟩ := lexToken_halts U l (by rw [hd]; simp) (by rw [hd]; simp)
    refine ⟨l1, runs_step U _ l l1 l1 _ e (runs_nil U l1), ?_⟩
    rw [t, hd, hs, List.length_nil, Nat.add_zero,
      slice_self _ _ (List.drop_eq_nil_iff.mp hd), List.append_nil]
    rfl
  | c :: s, _, l, h, hd, hs => by
    cases h with
    | cons hc hrest =>
      rename_i t toks
      obtain ⟨c1, c2, c3⟩ := hc
      obtain ⟨b1, b2, b3, b4⟩ := punctuation_symbols (c, t.Typ) c1
      obtain ⟨d1, d2, _⟩ := at_of_drop l c s hd
      obtain ⟨l1, e1, i1, p1, t1⟩ := lexToken_symbol U l (t.Typ, c) b1 d1
        (by rw [(hU c b2).1]; exact b3) hs
      obtain ⟨l1s, e2, i2, t2, p2, s2⟩ := lexSpace_exact U l1
      have hd1 : l1.input.drop l1.pos = s := by rw [i1, p1]; exact d2
      have hnospace : (s.takeWhile U.IsSpace).length = 0 := by
        cases s with
        | nil => rfl
        | cons c2 s2 =>
          cases hrest with
          | cons hc2 _ =>
            obtain ⟨_, x2, _, x4⟩ := punctuation_symbols (c2, _) hc2.1
            have : U.IsSpace c2 = false := by rw [(hU c2 x2).2.1]; exact x4
            simp [List.takeWhile_cons, this]
      rw [hd1, hnospace, Nat.add_zero] at p2
      obtain ⟨l2, r2, t3⟩ := runs_punctuation U hU s toks l1s hrest
        (by rw [i2, p2]; exact hd1) s2
      refine ⟨l2, runs_step U _ l l1 l2 _ e1 (runs_step U StateFn.lexSpace l1 l1s l2 _ e2 r2), ?_⟩
      rw [t3, t2, t1]
      have ht : t = { Typ := t.Typ, Text := [c], ErrorMessage := "" } := by
        cases t
        simp only at c2 c3
        rw [c2, c3]
      rw [← ht]
      simp

/-- C12: for an input made of the ten punctuation characters the tokens are
one token for each character of the input, in the order of the input, whose
text is that character alone and whose type is the one of the character, and
after them one `EOF` token. -/
theorem punctuation_scans_apart (U : Unicode) (hU : U.agreesOnASCII) (s : List Char)
    (toks : List Token) (capacity : Int) (h : List.Forall₂ punctuationToken s toks) :
    New U s capacity = some (toks ++ [eofToken]) := by
  obtain ⟨l2, r, t⟩ := runs_punctuation U hU s toks (lex s 0) h rfl rfl
  rw [New_of_runs U s capacity l2 r, t]
  rfl

/-- The witness of C12: the input `<=`, two adjacent punctuation characters,
scans to an `LT` token, an `EQ` token and an `EOF` token. -/
theorem punctuation_scans_apart_witness :
    New asciiTables "<=".toList 0 =
      some ([{ Typ := ItemLT, Text := ['<'], ErrorMessage := "" },
             { Typ := ItemEQ, Text := ['='], ErrorMessage := "" }] ++ [eofToken]) :=
  punctuation_scans_apart asciiTables asciiTables_agrees "<=".toList _ 0
    (List.Forall₂.cons ⟨by decide, rfl, rfl⟩
      (List.Forall₂.cons ⟨by decide, rfl, rfl⟩ List.Forall₂.nil))

end Words

end Badwolf

namespace Badwolf

open TokenType

section Segments
variable {N P L T : Type}

/-! ### The boundaries of `ParseTriple` -/

/-- A match of `first \s+ last` at the head of a text: the text is `first`, a
run of white space that is not empty, a rune of `last`, and the rest. -/
theorem matchHere_shape (first : Char) (last : Char → Bool) :
    ∀ (s : List Char) (n : Nat), matchHere first last s = some n →
      ∃ w d rest, s = first :: (w ++ d :: rest) ∧ w ≠ [] ∧ (∀ c ∈ w, reSpace c = true) ∧
        last d = true ∧ n = w.length + 2
  | [], n, h => by simp [matchHere] at h
  | [_], n, h => by simp [matchHere] at h
  | c :: w0 :: rest0, n, h => by
    simp only [matchHere] at h
    split_ifs at h with hc
    cases hd : rest0.dropWhile reSpace with
    | nil => rw [hd] at h; simp at h
    | cons d tl =>
      rw [hd] at h
      simp only at h
      split_ifs at h with hl
      refine ⟨w0 :: rest0.takeWhile reSpace, d, tl, ?_, by simp, ?_, hl, ?_⟩
      · rw [hc.1, List.cons_append, ← hd, List.takeWhile_append_dropWhile]
      · intro x hx
        rcases List.mem_cons.mp hx with rfl | hx
        · exact hc.2
        · exact List.mem_takeWhile_imp hx
      · have := Option.some.inj h
        rw [← this, List.length_cons]

/-- What `FindIndex` returns is a match: it starts at an offset of the text
and has the length the pattern gives there. -/
theorem FindIndex_some (m : List Char → Option Nat) :
    ∀ (l : List Char) (j x y : Nat), FindIndex m j l = some (x, y) →
      ∃ k n, x = j + k ∧ y = x + n ∧ k < l.length ∧ m (l.drop k) = some n
  | [], _, _, _, h => by simp [FindIndex] at h
  | c :: s, j, x, y, h => by
    rw [FindIndex] at h
    cases hm : m (c :: s) with
    | some n =>
      rw [hm] at h
      simp only [Option.some.injEq, Prod.mk.injEq] at h
      exact ⟨0, n, by omega, by omega, by simp, hm⟩
    | none =>
      rw [hm] at h
      obtain ⟨k, n, h1, h2, h3, h4⟩ := FindIndex_some m s (j + 1) x y h
      exact ⟨k + 1, n, by omega, h2, by simpa using h3, by simpa using h4⟩

/-- The runes of a match of a boundary pattern in the line: `first` at its
start, white space after it, and a rune of `last` at its end. -/
theorem boundary_runes (first : Char) (last : Char → Bool) (raw : List Char) (x y : Nat)
    (h : FindIndex (matchHere first last) 0 raw = some (x, y)) :
    raw[x]? = some first ∧ x + 3 ≤ y ∧ y ≤ raw.length ∧
    (∀ i, x < i → i < y - 1 → ∃ c, raw[i]? = some c ∧ reSpace c = true) ∧
    ∃ d, raw[y - 1]? = some d ∧ last d = true := by
  obtain ⟨k, n, h1, h2, h3, h4⟩ := FindIndex_some _ raw 0 x y h
  obtain ⟨w, d, rest, e, hw, hws, hd, hn⟩ := matchHere_shape first last _ n h4
  have hk : x = k := by omega
  subst hk
  have hwl : 0 < w.length := List.length_pos.mpr hw
  have hlen : raw.length - x = (first :: (w ++ d :: rest)).length := by
    rw [← e, List.length_drop]
  simp only [List.length_cons, List.length_append] at hlen
  have hget : ∀ i, raw[x + i]? = (first :: (w ++ d :: rest))[i]? := by
    intro i
    rw [← e, List.getElem?_drop]
  refine ⟨?_, by omega, by omega, ?_, d, ?_, hd⟩
  · have := hget 0
    simpa using this
  · intro i h5 h6
    obtain ⟨j, rfl⟩ : ∃ j, i = x + (j + 1) := ⟨i - x - 1, by omega⟩
    have hj : j < w.length := by omega
    refine ⟨w[j], ?_, hws _ (List.getElem_mem hj)⟩
    rw [hget (j + 1), List.getElem?_cons_succ, List.getElem?_append_left hj,
      List.getElem?_eq_getElem hj]
  · have e2 : y - 1 = x + (w.length + 1) := by omega
    rw [e2, hget (w.length + 1), List.getElem?_cons_succ,
      List.getElem?_append_right (Nat.le_refl _)]
    simp

/-! ### Slices -/

theorem sliceOf_some (s : List Char) (lo hi : Nat) (h1 : lo ≤ hi) (h2 : hi ≤ s.length) :
    sliceOf s lo hi = some (slice s lo hi) := by
  simp [sliceOf, h1, h2]

theorem slice_length (s : List Char) (lo hi : Nat) (h : hi ≤ s.length) :
    (slice s lo hi).length = hi - lo := by
  unfold slice
  rw [List.length_drop, List.length_take]
  omega

theorem slice_getElem? (s : List Char) (lo hi i : Nat) (h : lo + i < hi) :
    (slice s lo hi)[i]? = s[lo + i]? := by
  unfold slice
  rw [List.getElem?_drop, List.getElem?_take_of_lt h]

/-- The first rune of the slice `s[lo:hi]`. -/
theorem slice_head? (s : List Char) (lo hi : Nat) (h : lo < hi) :
    (slice s lo hi).head? = s[lo]? := by
  rw [List.head?_eq_getElem?, slice_getElem? s lo hi 0 (by omega)]
  rfl

/-- The last rune of the slice `s[lo:hi]`. -/
theorem slice_getLast? (s : List Char) (lo hi : Nat) (h : lo < hi) (h2 : hi ≤ s.length) :
    (slice s lo hi).getLast? = s[hi - 1]? := by
  rw [List.getLast?_eq_getElem?, slice_length s lo hi h2,
    slice_getElem? s lo hi (hi - lo - 1) (by omega)]
  congr 1
  omega

/-! ### The segments -/

/-- C22: when both boundary patterns match the trimmed line and the match of
B starts after the match of A starts, the three slices of `ParseTriple` are in
range, and they are the segments it hands to the grammars: the subject segment
is not empty and ends with `>`, the predicate segment has at least two runes,
starts with `"` and ends with `]`, and the object segment is not empty and
starts with `/` or `"`. -/
theorem ParseTriple_segments (U : Unicode) (I : Packages N P L T) (line : List Char)
    (b : List Char → Except String L) (a0 a1 b0 b1 : Nat)
    (hp : pSplit (TrimSpace U line) = some (a0, a1))
    (ho : oSplit (TrimSpace U line) = some (b0, b1)) (hlt : a0 < b0) :
    ∃ ss sp so,
      sliceOf (TrimSpace U line) 0 (a0 + 1) = some ss ∧
      sliceOf (TrimSpace U line) (a1 - 1) (b0 + 1) = some sp ∧
      sliceOf (TrimSpace U line) (b1 - 1) (TrimSpace U line).length = some so ∧
      ss ≠ [] ∧ ss.getLast? = some '>' ∧
      2 ≤ sp.length ∧ sp.head? = some '"' ∧ sp.getLast? = some ']' ∧
      so ≠ [] ∧ (so.head? = some '/' ∨ so.head? = some '"') ∧
      ParseTriple U I line b = parseSegments I b ss sp so := by
  obtain ⟨p1, p2, p3, p4, d1, p5, p6⟩ :=
    boundary_runes '>' (fun d => d == '"') (TrimSpace U line) a0 a1 hp
  obtain ⟨o1, o2, o3, _, d2, o5, o6⟩ :=
    boundary_runes ']' (fun d => d == '/' || d == '"') (TrimSpace U line) b0 b1 ho
  have hd1 : d1 = '"' := by simpa using p6
  subst hd1
  have hd2 : d2 = '/' ∨ d2 = '"' := by simpa using o6
  have hab : a1 ≤ b0 := by
    by_contra hc
    by_cases hb : b0 < a1 - 1
    · obtain ⟨c, c1, c2⟩ := p4 b0 hlt hb
      rw [o1] at c1
      rw [← Option.some.inj c1] at c2
      exact absurd c2 (by decide)
    · have e : a1 - 1 = b0 := by omega
      rw [e, o1] at p5
      exact absurd (Option.some.inj p5) (by decide)
  have s1 := sliceOf_some (TrimSpace U line) 0 (a0 + 1) (by omega) (by omega)
  have s2 := sliceOf_some (TrimSpace U line) (a1 - 1) (b0 + 1) (by omega) (by omega)
  have s3 := sliceOf_some (TrimSpace U line) (b1 - 1) (TrimSpace U line).length (by omega)
    (Nat.le_refl _)
  have l1 := slice_length (TrimSpace U line) 0 (a0 + 1) (by omega)
  have l2 := slice_length (TrimSpace U line) (a1 - 1) (b0 + 1) (by omega)
  have l3 := slice_length (TrimSpace U line) (b1 - 1) (TrimSpace U line).length (Nat.le_refl _)
  refine ⟨_, _, _, s1, s2, s3, ?_, ?_, by omega, ?_, ?_, ?_, ?_, ?_⟩
  · exact List.ne_nil_of_length_pos (by omega)
  · rw [slice_getLast? _ _ _ (by omega) (by omega)]
    exact p1
  · rw [slice_head? _ _ _ (by omega)]
    exact p5
  · rw [slice_getLast? _ _ _ (by omega) (by omega)]
    exact o1
  · exact List.ne_nil_of_length_pos (by omega)
  · rw [slice_head? _ _ _ (by omega), o5]
    rcases hd2 with rfl | rfl
    · exact Or.inl rfl
    · exact Or.inr rfl
  · simp only [ParseTriple, parseSegments, hp, ho, s1, s2, s3]

/-- The witness of C22: the line of the triple of `/u<john>`, `"knows"@[2015]`
and `/u<mary>` between two spaces; boundary A is at 7 and boundary B at 22 of
the trimmed line. -/
theorem ParseTriple_segments_witness :
    ∃ ss sp so,
      sliceOf (TrimSpace asciiTables " /u<john>\t\"knows\"@[2015]\t/u<mary> ".toList) 0 (7 + 1) =
        some ss ∧
      sliceOf (TrimSpace asciiTables " /u<john>\t\"knows\"@[2015]\t/u<mary> ".toList) (10 - 1)
        (22 + 1) = some sp ∧
      sliceOf (TrimSpace asciiTables " /u<john>\t\"knows\"@[2015]\t/u<mary> ".toList) (25 - 1)
        (TrimSpace asciiTables " /u<john>\t\"knows\"@[2015]\t/u<mary> ".toList).length =
        some so ∧
      ss ≠ [] ∧ ss.getLast? = some '>' ∧
      2 ≤ sp.length ∧ sp.head? = some '"' ∧ sp.getLast? = some ']' ∧
      so ≠ [] ∧ (so.head? = some '/' ∨ so.head? = some '"') ∧
      ParseTriple asciiTables specPackages " /u<john>\t\"knows\"@[2015]\t/u<mary> ".toList
          specLiteralParse =
        parseSegments specPackages specLiteralParse ss sp so :=
  ParseTriple_segments asciiTables specPackages " /u<john>\t\"knows\"@[2015]\t/u<mary> ".toList
    specLiteralParse 7 10 22 25 (by decide) (by decide) (by decide)

end Segments

end Badwolf

namespace Badwolf

open TokenType

section Range

/-! ### The pending text stays within the input -/

theorem next_inRange (l : lexer) (h : l.inRange) : l.next.1.inRange := by
  unfold lexer.inRange at *
  rw [next_start, next_input]
  cases hc : l.input[l.pos]? with
  | none => rw [(next_pos_of_none l hc).1]; exact h
  | some c =>
    have := (List.getElem?_eq_some_iff.mp hc).1
    rw [(next_pos_of_some l c hc).1]
    omega

theorem peek_inRange (l : lexer) (h : l.inRange) : l.peek.1.inRange := by
  unfold lexer.inRange at *
  rw [peek_start, peek_input, peek_pos]
  exact h

theorem before_refl (l : lexer) (h : l.inRange) : l.before l := ⟨rfl, rfl, Nat.le_refl _, h⟩

theorem before_next {l s : lexer} (h : l.before s) : l.before s.next.1 :=
  ⟨(next_input s).trans h.1, (next_tokens s).trans h.2.1, by rw [next_start]; exact h.2.2.1,
    next_inRange s h.2.2.2⟩

theorem before_peek {l s : lexer} (h : l.before s) : l.before s.peek.1 :=
  ⟨(peek_input s).trans h.1, (peek_tokens s).trans h.2.1, by rw [peek_start]; exact h.2.2.1,
    peek_inRange s h.2.2.2⟩

theorem before_ignore {l s : lexer} (h : l.before s) : l.before s.ignore :=
  ⟨h.1, h.2.1, Nat.le_trans h.2.2.1 h.2.2.2.1, Nat.le_refl _, h.2.2.2.2⟩

theorem before_accept (U : Unicode) {l s : lexer} (r : Char) (h : l.before s) :
    l.before (s.accept U r).1 := by
  unfold lexer.accept
  split
  · exact before_next h
  · exact before_peek h

theorem before_consume (U : Unicode) :
    ∀ (text : List Char) {l s : lexer}, l.before s → l.before (s.consume U text).1
  | [], _, _, h => h
  | c :: cs, l, s, h => by
    unfold lexer.consume
    split
    · exact before_consume U cs (before_accept U c h)
    · exact before_accept U c h

/-- The loop `nextUntil` leaves the scanner right after a `next`: the pending
text lies within the input, also after the `backup` that follows. -/
theorem before_nextUntil (stop : rune → Bool) :
    ∀ (n : Nat) {l s : lexer} (p : lexer × rune), l.before s →
      lexer.nextUntil stop n s = some p → l.before p.1 ∧ l.before p.1.backup
  | 0, _, _, _, _, h => by simp [lexer.nextUntil] at h
  | n + 1, l, s, p, hb, h => by
    rw [lexer.nextUntil] at h
    split at h
    · obtain rfl := Option.some.inj h
      exact ⟨before_next hb, before_peek hb⟩
    · exact before_nextUntil stop n p (before_next hb) h

/-- The loop of `lexLiteral` that reads the type leaves the scanner right
after a `next`. -/
theorem before_literalTLoop (U : Unicode) :
    ∀ (n : Nat) {l s : lexer} (acc : List Char) (p : lexer × List Char), l.before s →
      literalTLoop U n s acc = some p → l.before p.1 ∧ l.before p.1.backup
  | 0, _, _, _, _, _, h => by simp [literalTLoop] at h
  | n + 1, l, s, acc, p, hb, h => by
    rw [literalTLoop] at h
    split at h
    · obtain rfl := Option.some.inj h
      exact ⟨before_next hb, before_peek hb⟩
    · exact before_literalTLoop U n _ p (before_next hb) h

/-! ### The tokens are slices taken one after another -/

theorem Spans_from (input : List Char) (lo lo1 hi : Nat) (h : lo ≤ lo1) :
    ∀ toks : List Token, Spans input lo1 toks hi → Spans input lo toks hi
  | [], hs => Nat.le_trans h hs
  | _ :: _, ⟨s, p, h1, h2, h3, h4, h5⟩ => ⟨s, p, Nat.le_trans h h1, h2, h3, h4, h5⟩

theorem Spans_upto (input : List Char) (hi hi1 : Nat) (h : hi ≤ hi1) :
    ∀ (toks : List Token) (lo : Nat), Spans input lo toks hi → Spans input lo toks hi1
  | [], _, hs => Nat.le_trans hs h
  | _ :: ts, _, ⟨s, p, h1, h2, h3, h4, h5⟩ =>
    ⟨s, p, h1, h2, h3, h4, Spans_upto input hi hi1 h ts p h5⟩

theorem Spans_append (input : List Char) (mid hi : Nat) (ys : List Token)
    (hy : Spans input mid ys hi) :
    ∀ (xs : List Token) (lo : Nat), Spans input lo xs mid → Spans input lo (xs ++ ys) hi
  | [], lo, hx => Spans_from input lo mid hi hx ys hy
  | _ :: xs, _, ⟨s, p, h1, h2, h3, h4, h5⟩ =>
    ⟨s, p, h1, h2, h3, h4, Spans_append input mid hi ys hy xs p h5⟩

/-- The method `emit` sends the pending text, which is a slice in range. -/
theorem sends_emit {l s : lexer} (h : l.before s) (ty : TokenType) : l.sends (s.emit ty) := by
  obtain ⟨h1, h2, h3, h4, h5⟩ := h
  refine ⟨h1, ⟨Nat.le_refl _, h5⟩,
    [{ Typ := ty, Text := slice s.input s.start s.pos, ErrorMessage := "" }],
    by rw [← h2]; rfl, ?_⟩
  exact ⟨s.start, s.pos, h3, h4, by rw [← h1]; exact h5, by rw [← h1], Nat.le_refl _⟩

/-- The method `emitError` sends the pending text, which is a slice in range. -/
theorem sends_emitError {l s : lexer} (h : l.before s) (msg : String) :
    l.sends (s.emitError msg) := by
  obtain ⟨h1, h2, h3, h4, h5⟩ := h
  refine ⟨h1, ⟨Nat.le_refl _, h5⟩,
    [{ Typ := ItemError, Text := slice s.input s.start s.pos
       ErrorMessage := "[lexer:" ++ toString s.line ++ ":" ++ toString s.col ++ "] " ++ msg }],
    by rw [← h2]; rfl, ?_⟩
  exact ⟨s.start, s.pos, h3, h4, by rw [← h1]; exact h5, by rw [← h1], Nat.le_refl _⟩

theorem sends_none {l s : lexer} (h : l.before s) : l.sends s :=
  ⟨h.1, h.2.2.2, [], by rw [h.2.1, List.append_nil], h.2.2.1⟩

theorem sends_trans {l a b : lexer} (h1 : l.sends a) (h2 : a.sends b) : l.sends b := by
  obtain ⟨i1, _, x, t1, s1⟩ := h1
  obtain ⟨i2, r2, y, t2, s2⟩ := h2
  refine ⟨i2.trans i1, r2, x ++ y, by rw [t2, t1, List.append_assoc], ?_⟩
  rw [i1] at s2
  exact Spans_append l.input a.start b.start y s2 x l.start s1

/-! ### The state functions -/

theorem lexBinding_sends (U : Unicode) (l l1 : lexer) (nxt : Option StateFn) (h : l.inRange)
    (e : lexBinding U l = some (l1, nxt)) : l.sends l1 := by
  unfold lexBinding at e
  cases hp : l.nextUntil (fun r => !U.isLetter r || r == eof) l.fuel with
  | none => rw [hp] at e; cases e
  | some p =>
    rw [hp] at e
    obtain ⟨rfl, _⟩ := Prod.mk.inj (Option.some.inj e)
    exact sends_emit (before_nextUntil _ _ p (before_refl l h) hp).2 _

theorem lexSpace_sends (U : Unicode) (l l1 : lexer) (nxt : Option StateFn) (h : l.inRange)
    (e : lexSpace U l = some (l1, nxt)) : l.sends l1 := by
  unfold lexSpace at e
  cases hp : l.nextUntil (fun r => !U.isSpace r || r == eof) l.fuel with
  | none => rw [hp] at e; cases e
  | some p =>
    rw [hp] at e
    obtain ⟨rfl, _⟩ := Prod.mk.inj (Option.some.inj e)
    exact sends_none (before_ignore (before_nextUntil _ _ p (before_refl l h) hp).2)

theorem lexKeyword_sends (U : Unicode) (l l1 : lexer) (nxt : Option StateFn) (h : l.inRange)
    (e : lexKeyword U l = some (l1, nxt)) : l.sends l1 := by
  unfold lexKeyword at e
  simp only at e
  split at e
  · rename_i kw _
    unfold consumeKeyword at e
    cases hp : l.nextUntil (fun r => !U.isLetter r || r == eof) l.fuel with
    | none => rw [hp] at e; cases e
    | some p =>
      rw [hp] at e
      obtain ⟨rfl, _⟩ := Prod.mk.inj (Option.some.inj e)
      exact sends_emit (before_nextUntil _ _ p (before_refl l h) hp).2 _
  · cases hp : l.nextUntil (fun r => U.isSpace r || r == eof) l.fuel with
    | none => rw [hp] at e; cases e
    | some p =>
      rw [hp] at e
      obtain ⟨rfl, _⟩ := Prod.mk.inj (Option.some.inj e)
      exact sends_emitError (before_nextUntil _ _ p (before_refl l h) hp).2 _

theorem lexPredicateOrLiteral_sends (l l1 : lexer) (nxt : Option StateFn) (h : l.inRange)
    (e : lexPredicateOrLiteral l = some (l1, nxt)) : l.sends l1 := by
  unfold lexPredicateOrLiteral at e
  simp only at e
  split at e
  · obtain ⟨rfl, _⟩ := Prod.mk.inj (Option.some.inj e)
    exact sends_none (before_refl l h)
  · split at e
    · obtain ⟨rfl, _⟩ := Prod.mk.inj (Option.some.inj e)
      exact sends_none (before_refl l h)
    · obtain ⟨rfl, _⟩ := Prod.mk.inj (Option.some.inj e)
      exact sends_emitError (before_refl l h) _

theorem lexNodeLoop_sends :
    ∀ (n : Nat) (ltID : Bool) {l s : lexer} (l1 : lexer) (nxt : Option StateFn), l.before s →
      lexNodeLoop n ltID s = some (l1, nxt) → l.sends l1
  | 0, _, _, _, _, _, _, e => by simp [lexNodeLoop] at e
  | n + 1, ltID, l, s, l1, nxt, hb, e => by
    rw [lexNodeLoop] at e
    split at e
    · split at e
      · exact lexNodeLoop_sends n ltID l1 nxt (before_next (before_peek (before_next hb))) e
      · exact lexNodeLoop_sends n ltID l1 nxt (before_peek (before_next hb)) e
    · split at e
      · obtain ⟨rfl, _⟩ := Prod.mk.inj (Option.some.inj e)
        exact sends_emitError (before_next hb) _
      · split at e
        · exact lexNodeLoop_sends n true l1 nxt (before_next hb) e
        · split at e
          · split at e
            · obtain ⟨rfl, _⟩ := Prod.mk.inj (Option.some.inj e)
              exact sends_emitError (before_next hb) _
            · obtain ⟨rfl, _⟩ := Prod.mk.inj (Option.some.inj e)
              exact sends_emit (before_next hb) _
          · exact lexNodeLoop_sends n ltID l1 nxt (before_next hb) e

theorem lexPredicateLoop_sends (U : Unicode) :
    ∀ (n : Nat) {l s : lexer} (l1 : lexer) (nxt : Option StateFn), l.before s →
      lexPredicateLoop U n s = some (l1, nxt) → l.sends l1
  | 0, _, _, _, _, _, e => by simp [lexPredicateLoop] at e
  | n + 1, l, s, l1, nxt, hb, e => by
    rw [lexPredicateLoop] at e
    split at e
    · split at e
      · exact lexPredicateLoop_sends U n l1 nxt (before_next (before_peek (before_next hb))) e
      · exact lexPredicateLoop_sends U n l1 nxt (before_peek (before_next hb)) e
    · split at e
      · have hc := before_consume U anchor (before_peek hb)
        simp only at e
        split at e
        · obtain ⟨rfl, _⟩ := Prod.mk.inj (Option.some.inj e)
          exact sends_emitError hc _
        · split at e
          · cases e
          · rename_i p hp
            split at e
            · obtain ⟨rfl, _⟩ := Prod.mk.inj (Option.some.inj e)
              exact sends_emitError (before_nextUntil _ _ p hc hp).1 _
            · obtain ⟨rfl, _⟩ := Prod.mk.inj (Option.some.inj e)
              exact sends_emit (before_nextUntil _ _ p hc hp).1 _
      · split at e
        · obtain ⟨rfl, _⟩ := Prod.mk.inj (Option.some.inj e)
          exact sends_emitError (before_next hb) _
        · exact lexPredicateLoop_sends U n l1 nxt (before_next hb) e

theorem lexLiteralLoop_sends (U : Unicode) :
    ∀ (n : Nat) {l s : lexer} (l1 : lexer) (nxt : Option StateFn), l.before s →
      lexLiteralLoop U n s = some (l1, nxt) → l.sends l1
  | 0, _, _, _, _, _, e => by simp [lexLiteralLoop] at e
  | n + 1, l, s, l1, nxt, hb, e => by
    rw [lexLiteralLoop] at e
    split at e
    · split at e
      · exact lexLiteralLoop_sends U n l1 nxt (before_next (before_peek (before_next hb))) e
      · exact lexLiteralLoop_sends U n l1 nxt (before_peek (before_next hb)) e
    · split at e
      · have hc := before_consume U literalType (before_peek hb)
        simp only at e
        split at e
        · obtain ⟨rfl, _⟩ := Prod.mk.inj (Option.some.inj e)
          exact sends_emitError hc _
        · split at e
          · cases e
          · rename_i p hp
            split at e
            · obtain ⟨rfl, _⟩ := Prod.mk.inj (Option.some.inj e)
              exact sends_emit (before_literalTLoop U _ _ p hc hp).2 _
            · obtain ⟨rfl, _⟩ := Prod.mk.inj (Option.some.inj e)
              exact sends_emitError (before_literalTLoop U _ _ p hc hp).1 _
      · split at e
        · obtain ⟨rfl, _⟩ := Prod.mk.inj (Option.some.inj e)
          exact sends_emitError (before_next hb) _
        · exact lexLiteralLoop_sends U n l1 nxt (before_next hb) e

/-- The tests `isSingleSymboToken` of `lexToken`: without a symbol at `pos`
nothing is sent, with one the symbol is sent with the pending text. -/
theorem trySingleSymbols_sends :
    ∀ (syms : List (TokenType × Char)) {l s : lexer}, l.before s →
      ((trySingleSymbols syms s).2 = none → l.before (trySingleSymbols syms s).1) ∧
      (∀ st, (trySingleSymbols syms s).2 = some st → l.sends (trySingleSymbols syms s).1)
  | [], l, s, hb => ⟨fun _ => hb, fun st h => by simp [trySingleSymbols] at h⟩
  | ts :: rest, l, s, hb => by
    by_cases hm : s.peek.2 = some ts.2
    · have e : trySingleSymbols (ts :: rest) s =
          (s.peek.1.next.1.emit ts.1, some StateFn.lexSpace) := by
        simp [trySingleSymbols, isSingleSymboToken, hm]
      rw [e]
      exact ⟨fun h => (nomatch h), fun _ _ => sends_emit (before_next (before_peek hb)) _⟩
    · have e : trySingleSymbols (ts :: rest) s = trySingleSymbols rest s.peek.1 := by
        simp [trySingleSymbols, isSingleSymboToken, hm]
      rw [e]
      exact trySingleSymbols_sends rest (before_peek hb)

theorem lexTokenLoop_sends (U : Unicode) :
    ∀ (n : Nat) {l s : lexer} (l1 : lexer) (nxt : Option StateFn), l.before s →
      lexTokenLoop U n s = some (l1, nxt) → l.sends l1
  | 0, _, _, _, _, _, e => by simp [lexTokenLoop] at e
  | n + 1, l, s, l1, nxt, hb, e => by
    rw [lexTokenLoop] at e
    obtain ⟨t1, t2⟩ := trySingleSymbols_sends singleSymbols (before_peek hb)
    split at e
    · obtain ⟨rfl, _⟩ := Prod.mk.inj (Option.some.inj e)
      exact sends_none (before_next (before_peek hb))
    · split at e
      · obtain ⟨rfl, _⟩ := Prod.mk.inj (Option.some.inj e)
        exact sends_none (before_peek hb)
      · split at e
        · obtain ⟨rfl, _⟩ := Prod.mk.inj (Option.some.inj e)
          exact sends_none (before_peek hb)
        · split at e
          · obtain ⟨rfl, _⟩ := Prod.mk.inj (Option.some.inj e)
            exact sends_none (before_peek hb)
          · split at e
            · rename_i st hst
              obtain ⟨rfl, _⟩ := Prod.mk.inj (Option.some.inj e)
              exact t2 st hst
            · rename_i hst
              have hb2 := t1 hst
              simp only at e
              split at e
              · exact lexTokenLoop_sends U n l1 nxt (before_ignore (before_next hb2)) e
              · split at e
                · obtain ⟨rfl, _⟩ := Prod.mk.inj (Option.some.inj e)
                  exact sends_emit (before_next (before_next hb2)) _
                · exact lexTokenLoop_sends U n l1 nxt (before_next (before_next hb2)) e

/-- One state function, called on a scanner whose pending text lies within
the input: whatever it returns, the pending text still lies within the input,
and the tokens it sent are slices in range, taken one after another. -/
theorem call_sends (U : Unicode) (st : StateFn) (l l1 : lexer) (nxt : Option StateFn)
    (h : l.inRange) (e : st.call U l = some (l1, nxt)) : l.sends l1 := by
  cases st with
  | lexToken => exact lexTokenLoop_sends U _ l1 nxt (before_refl l h) e
  | lexBinding => exact lexBinding_sends U l l1 nxt h e
  | lexSpace => exact lexSpace_sends U l l1 nxt h e
  | lexKeyword => exact lexKeyword_sends U l l1 nxt h e
  | lexNode => exact lexNodeLoop_sends _ _ l1 nxt (before_refl l h) e
  | lexPredicateOrLiteral => exact lexPredicateOrLiteral_sends l l1 nxt h e
  | lexPredicate => exact lexPredicateLoop_sends U _ l1 nxt (before_next (before_refl l h)) e
  | lexLiteral => exact lexLiteralLoop_sends U _ l1 nxt (before_next (before_refl l h)) e

/-- The loop of `run`, from a scanner whose pending text lies within the
input. -/
theorem runLoop_sends (U : Unicode) :
    ∀ (n : Nat) (st : Option StateFn) (l l2 : lexer), l.inRange →
      runLoop U n st l = some l2 → l.sends l2
  | n, none, l, l2, h, e => by
    have : l2 = l := by cases n <;> simpa [runLoop] using e.symm
    subst this
    exact sends_none (before_refl _ h)
  | 0, some st, l, l2, _, e => by simp [runLoop] at e
  | n + 1, some st, l, l2, h, e => by
    simp only [runLoop] at e
    cases hc : st.call U l with
    | none => rw [hc] at e; cases e
    | some p =>
      rw [hc] at e
      have h1 := call_sends U st l p.1 p.2 h hc
      exact sends_trans h1 (runLoop_sends U n p.2 p.1 l2 h1.2.1 e)

/-- Every state of the loop of `run`, from a scanner whose pending text lies
within the input, has its pending text within the input. -/
theorem runStates_inRange (U : Unicode) :
    ∀ (n : Nat) (st : Option StateFn) (l : lexer), l.inRange →
      ∀ x ∈ runStates U n st l, x.2.input = l.input ∧ x.2.inRange
  | n, none, l, h, x, hx => by
    have : x = (none, l) := by cases n <;> simpa [runStates] using hx
    subst this
    exact ⟨rfl, h⟩
  | 0, some st, l, h, x, hx => by
    have : x = (some st, l) := by simpa [runStates] using hx
    subst this
    exact ⟨rfl, h⟩
  | n + 1, some st, l, h, x, hx => by
    simp only [runStates, List.mem_cons] at hx
    rcases hx with rfl | hx
    · exact ⟨rfl, h⟩
    · cases hc : st.call U l with
      | none => rw [hc] at hx; simp at hx
      | some p =>
        rw [hc] at hx
        have h1 := call_sends U st l p.1 p.2 h hc
        obtain ⟨a, b⟩ := runStates_inRange U n p.2 p.1 h1.2.1 x hx
        exact ⟨a.trans h1.1, b⟩

/-- C21: for every input, every scanner the loop of `run` calls a state
function on, and the one it ends with, has `0 <= start <= pos <= len(input)`;
a state function called on such a scanner leaves such a scanner, and the
tokens it sent are slices `input[s:p]` in range taken one after another; the
methods `next`, `backup` after `next`, `peek`, `ignore`, `emit` and
`emitError` keep the bounds, under which the slices `input[start:pos]` and
`input[pos:]` are in range; and the texts of the tokens of the scan are
slices of the input in range, taken from increasing positions without
overlap. -/
theorem scanner_slices_in_range (U : Unicode) (input : List Char) (capacity : Int) :
    (∀ x ∈ runStates U (runFuel input) (some StateFn.lexToken) (lex input capacity),
      x.2.input = input ∧ x.2.start ≤ x.2.pos ∧ x.2.pos ≤ input.length) ∧
    (∀ (st : StateFn) (l l1 : lexer) (nxt : Option StateFn), l.inRange →
      st.call U l = some (l1, nxt) → l.sends l1) ∧
    (∀ l : lexer, l.inRange →
      l.next.1.inRange ∧ l.next.1.backup.inRange ∧ l.peek.1.inRange ∧ l.ignore.inRange ∧
      (∀ ty, (l.emit ty).inRange) ∧ (∀ msg, (l.emitError msg).inRange) ∧
      sliceOf l.input l.start l.pos = some (slice l.input l.start l.pos) ∧
      sliceOf l.input l.pos l.input.length = some (l.input.drop l.pos)) ∧
    ∃ toks, New U input capacity = some toks ∧ Spans input 0 toks input.length := by
  have h0 : (lex input capacity).inRange := ⟨Nat.le_refl 0, Nat.zero_le _⟩
  refine ⟨?_, call_sends U, ?_, ?_⟩
  · intro x hx
    obtain ⟨a, b, c⟩ := runStates_inRange U _ _ _ h0 x hx
    have a1 : x.2.input = input := a
    rw [a1] at c
    exact ⟨a1, b, c⟩
  · intro l h
    refine ⟨next_inRange l h, peek_inRange l h, peek_inRange l h, ⟨Nat.le_refl _, h.2⟩,
      fun _ => ⟨Nat.le_refl _, h.2⟩, fun _ => ⟨Nat.le_refl _, h.2⟩,
      sliceOf_some _ _ _ h.1 h.2, ?_⟩
    rw [sliceOf_some _ _ _ h.2 (Nat.le_refl _)]
    simp [slice]
  · obtain ⟨l1, e, _⟩ :=
      runLoop_spec U (runFuel input) StateFn.lexToken
        (lex input (if capacity < 0 then 0 else capacity))
        (by simp [stepsLeft, StateFn.rank, runFuel, lex])
        (entered_lex U input _)
    obtain ⟨i1, r1, new, t1, s1⟩ := runLoop_sends U _ _ _ l1 h0 e
    refine ⟨l1.tokens, by simp [New, lexer.run, e], ?_⟩
    have t2 : l1.tokens = new := by rw [t1]; rfl
    have i2 : l1.input = input := i1
    rw [t2]
    exact Spans_upto input l1.start input.length
      (Nat.le_trans r1.1 (by rw [← i2]; exact r1.2)) new 0 s1

end Range

end Badwolf
